import Mathlib

/-!
Verification of the ancestor-linearization, type-member-resolution and
name-interning components of the sorbet symbol-table engine.

The development has three independent shallow embeddings, matching the three
groups of source functions the claims talk about:

* namespace `Lin` — the ancestor linearizer (`maybeAddMixin`,
  `computeClassLinearization`, `fullLinearizationSlow` from the resolver
  translation unit).  Class/module symbols are arena indices (`Nat`) into a
  list of `ClassInfo` records.  The C++ recursion is not structurally
  terminating (the class graph may be cyclic), so every interpreter function
  takes a fuel argument and returns `Except String`; exhausted fuel models
  nontermination of the original recursion, `Except.error "Loop in mixins"`
  models `Exception::raise`.

* namespace `SymTab` — the symbol store and the type-member resolver
  (`enterClassSymbol`, `enterTypeMember`, `dealiasAt`, `resolveTypeMember`,
  `resolveTypeMembers`).

* namespace `NT` — the name table (`enterString`, `lookupNameUTF8`,
  `enterNameUTF8`, `enterNameConstant`, `freshNameUnique`, `moveNames`,
  `expandNames`).

Machine integers of the C++ are modelled as `Nat`; all the quantities involved
(arena indices, probe counters, hash-table sizes) stay far below 2^32 in any
run the theorems talk about, and the source itself treats them as pure
counters, so no wrap-around is modelled.  Debug-only `ENFORCE` assertions are
compiled out in release builds of the source and are therefore not modelled;
`Exception::raise` calls (release-mode aborts) are modelled as `Except.error`.
-/

namespace Lin

/-- One class-or-module arena entry, with just the fields read or written by
the linearizer: the superclass reference (`none` models a non-existing
reference), the ordered mixin list, the is-module flag and the
linearization-computed latch. -/
structure ClassInfo where
  superClass : Option Nat
  mixins : List Nat
  isModule : Bool
  linComputed : Bool
  deriving DecidableEq, Repr

/-- Out-of-range arena accesses are undefined behaviour in the source; the
default entry has the latch set so that the interpreter treats a dangling
index as an inert, already-linearized symbol. -/
instance : Inhabited ClassInfo := ⟨⟨none, [], false, true⟩⟩

/-- The class/module arena, indexed by symbol index. -/
abbrev GS := List ClassInfo

def getInfo (gs : GS) (i : Nat) : ClassInfo := gs.getD i default

/-- The write performed at the end of `computeClassLinearization`:
`data->mixins() = std::move(newMixins); data->setClassOrModuleLinearizationComputed();`. -/
def setMixinsAndLatch (gs : GS) (i : Nat) (ms : List Nat) : GS :=
  gs.set i { getInfo gs i with mixins := ms, linComputed := true }

/-- Arena index of the sentinel `core::Symbols::StubSuperClass()`. -/
def stubSuperClassIdx : Nat := 1

/-- Arena index of the sentinel `core::Symbols::StubModule()`. -/
def stubModuleIdx : Nat := 2

/-- Modelled from the spec: `Symbol::derivesFrom` lives outside the provided
sources (only its callers are included).  Per the spec a class derives from a
symbol when that symbol occurs among its ancestors, i.e. is reachable through
superclass and mixin edges.  The recursion is fuel-bounded because the raw
graph may be cyclic. -/
def derivesFromFuel (gs : GS) : Nat → Nat → Nat → Bool
  | 0, _, _ => false
  | fuel + 1, c, target =>
    let info := getInfo gs c
    info.mixins.any (fun m => m == target || derivesFromFuel gs fuel m target) ||
      (match info.superClass with
       | some s => s == target || derivesFromFuel gs fuel s target
       | none => false)

/-- Reachability needs only simple paths, so arena length plus one is enough
fuel for `derivesFromFuel` to stabilise. -/
def derives (gs : GS) (c target : Nat) : Bool :=
  derivesFromFuel gs (gs.length + 1) c target

def derivesOpt (gs : GS) (parent : Option Nat) (target : Nat) : Bool :=
  match parent with
  | some p => derives gs p target
  | none => false

/-- Translation of `maybeAddMixin` (resolver translation unit).  Returns the
updated accumulating list together with the new cursor; raising
`Exception::raise("Loop in mixins")` is modelled as `Except.error`. -/
def maybeAddMixin (gs : GS) (forSym : Nat) (mixinList : List Nat) (mixin : Nat)
    (parent : Option Nat) (pos : Nat) : Except String (List Nat × Nat) :=
  if forSym = mixin then
    .error "Loop in mixins"
  else if derivesOpt gs parent mixin then
    .ok (mixinList, pos)
  else
    match mixinList.indexOf? mixin with
    | some newPos => if pos ≤ newPos then .ok (mixinList, newPos + 1) else .ok (mixinList, pos)
    | none => .ok (mixinList.insertIdx pos mixin, pos + 1)

/-- The inner `for (auto &mixinLinearizationComponent : mixinLinearization.mixins)`
loop of `computeClassLinearization`: fold `maybeAddMixin` over the components,
threading the cursor. -/
def addMixinComponents (gs : GS) (forSym : Nat) (parent : Option Nat) :
    List Nat → List Nat → Nat → Except String (List Nat × Nat)
  | [], list, pos => .ok (list, pos)
  | c :: rest, list, pos =>
    match maybeAddMixin gs forSym list c parent pos with
    | .error e => .error e
    | .ok (l, p) => addMixinComponents gs forSym parent rest l p

/-- The record returned by `computeClassLinearization`
(`ParentLinearizationInformation`). -/
structure LinInfo where
  mixins : List Nat
  superClass : Option Nat
  klass : Nat
  deriving DecidableEq, Repr

mutual

/-- Translation of `computeClassLinearization`.  Fuel decreases on every
recursive call; running out of fuel (`Except.error "out of fuel"`) models the
unbounded recursion of the source on cyclic inputs. -/
def computeClassLinearization : Nat → GS → Nat → Except String (GS × LinInfo)
  | 0, _, _ => .error "out of fuel"
  | fuel + 1, gs, ofClass =>
    let data := getInfo gs ofClass
    if data.linComputed then
      .ok (gs, ⟨data.mixins, data.superClass, ofClass⟩)
    else
      let afterSuper : Except String GS :=
        match data.superClass with
        | some s =>
          match computeClassLinearization fuel gs s with
          | .error e => .error e
          | .ok (gs₂, _) => .ok gs₂
        | none => .ok gs
      match afterSuper with
      | .error e => .error e
      | .ok gs₂ =>
        match processMixins fuel gs₂ ofClass ((getInfo gs₂ ofClass).mixins) [] with
        | .error e => .error e
        | .ok (gs₃, newMixins) =>
          let gs₄ := setMixinsAndLatch gs₃ ofClass newMixins
          .ok (gs₄, ⟨newMixins, (getInfo gs₄ ofClass).superClass, ofClass⟩)

/-- The `for (auto mixin : currentMixins)` loop of `computeClassLinearization`,
iterating over the snapshot of the declared mixins and accumulating
`newMixins`. -/
def processMixins : Nat → GS → Nat → List Nat → List Nat → Except String (GS × List Nat)
  | _, gs, _, [], newMixins => .ok (gs, newMixins)
  | 0, _, _, _ :: _, _ => .error "out of fuel"
  | fuel + 1, gs, ofClass, mixin :: rest, newMixins =>
    if some mixin = (getInfo gs ofClass).superClass then
      processMixins fuel gs ofClass rest newMixins
    else if (getInfo gs mixin).superClass = some stubSuperClassIdx ∨
        (getInfo gs mixin).superClass = some stubModuleIdx then
      processMixins fuel gs ofClass rest (newMixins ++ [mixin])
    else
      match computeClassLinearization fuel gs mixin with
      | .error e => .error e
      | .ok (gs₂, mixinLin) =>
        if !(getInfo gs₂ mixin).isModule then
          match fullLinearizationSlow fuel gs₂ mixinLin with
          | .error e => .error e
          | .ok (gs₃, allMixins) =>
            processMixins fuel gs₃ ofClass rest (allMixins ++ newMixins)
        else
          match maybeAddMixin gs₂ ofClass newMixins mixin ((getInfo gs₂ ofClass).superClass) 0 with
          | .error e => .error e
          | .ok (nm, pos) =>
            match addMixinComponents gs₂ ofClass ((getInfo gs₂ ofClass).superClass)
                mixinLin.mixins nm pos with
            | .error e => .error e
            | .ok (nm₂, _) => processMixins fuel gs₂ ofClass rest nm₂

/-- Translation of `ParentLinearizationInformation::fullLinearizationSlow`. -/
def fullLinearizationSlow : Nat → GS → LinInfo → Except String (GS × List Nat)
  | 0, _, _ => .error "out of fuel"
  | fuel + 1, gs, info => fullLinImpl fuel gs info []

/-- Translation of `fullLinearizationSlowImpl`. -/
def fullLinImpl : Nat → GS → LinInfo → List Nat → Except String (GS × List Nat)
  | 0, _, _, _ => .error "out of fuel"
  | fuel + 1, gs, info, acc =>
    let acc₂ := acc ++ [info.klass]
    match fullLinMixins fuel gs info.mixins acc₂ with
    | .error e => .error e
    | .ok (gs₂, acc₃) =>
      match info.superClass with
      | some s =>
        if acc₃.contains s then .ok (gs₂, acc₃)
        else
          match computeClassLinearization fuel gs₂ s with
          | .error e => .error e
          | .ok (gs₃, i) => fullLinImpl fuel gs₃ i acc₃
      | none => .ok (gs₂, acc₃)

/-- The `for (auto m : info.mixins)` loop of `fullLinearizationSlowImpl`. -/
def fullLinMixins : Nat → GS → List Nat → List Nat → Except String (GS × List Nat)
  | _, gs, [], acc => .ok (gs, acc)
  | 0, _, _ :: _, _ => .error "out of fuel"
  | fuel + 1, gs, m :: rest, acc =>
    if acc.contains m then fullLinMixins fuel gs rest acc
    else if (getInfo gs m).isModule then fullLinMixins fuel gs rest (acc ++ [m])
    else
      match computeClassLinearization fuel gs m with
      | .error e => .error e
      | .ok (gs₂, i) =>
        match fullLinImpl fuel gs₂ i acc with
        | .error e => .error e
        | .ok (gs₃, acc₂) => fullLinMixins fuel gs₃ rest acc₂

end

def isOk {ε α : Type} : Except ε α → Bool
  | .ok _ => true
  | .error _ => false

/-- An inert arena entry standing for symbols the test configurations never
touch (already linearized, no ancestors). -/
def inertClass : ClassInfo := ⟨none, [], false, true⟩

/-- Test arena: symbol 3 is a class below superclass 4; 4 derives from module
5; 3 declares mixins 5 and 6; 5 and 6 are linearized modules. -/
def gsC2 : GS :=
  [inertClass, inertClass, inertClass,
   ⟨some 4, [5, 6], false, false⟩,
   ⟨none, [5], false, true⟩,
   ⟨none, [], true, true⟩,
   ⟨none, [], true, true⟩]

/-- The arena `gsC2` after linearizing symbol 3: mixin 5 was dropped because
the superclass 4 already derives from it, and the latch of 3 is set. -/
def gsC2done : GS :=
  [inertClass, inertClass, inertClass,
   ⟨some 4, [6], false, true⟩,
   ⟨none, [5], false, true⟩,
   ⟨none, [], true, true⟩,
   ⟨none, [], true, true⟩]

/-- Counterexample arena for C1: symbol 3 declares the same stub-superclassed
mixin 4 twice; both occurrences are passed through unchecked. -/
def gsC1cex : GS :=
  [inertClass, inertClass, inertClass,
   ⟨none, [4, 4], true, false⟩,
   ⟨some stubSuperClassIdx, [], true, false⟩]

/-- The arena `gsC1cex` after linearizing symbol 3. -/
def gsC1cexDone : GS :=
  [inertClass, inertClass, inertClass,
   ⟨none, [4, 4], true, true⟩,
   ⟨some stubSuperClassIdx, [], true, false⟩]

/-- Counterexample arena for C3: symbol 3 lists itself as its own mixin and
its superclass is the stub sentinel, so the stub branch of the loop appends it
without any cycle check. -/
def gsC3cex : GS :=
  [inertClass, inertClass, inertClass, ⟨some stubSuperClassIdx, [3], true, false⟩]

/-- The arena `gsC3cex` after the (silently successful) linearization of 3. -/
def gsC3cexDone : GS :=
  [inertClass, inertClass, inertClass, ⟨some stubSuperClassIdx, [3], true, true⟩]

/-- Witness arena for C3: modules 3 and 4 include each other, nothing is a
stub. -/
def gsC3ab : GS :=
  [inertClass, inertClass, inertClass, ⟨none, [4], true, false⟩, ⟨none, [3], true, false⟩]

/-- Witness arena for C3, direct form: module 3 lists itself as its own mixin
and its superclass is not a stub. -/
def gsC3self : GS :=
  [inertClass, inertClass, inertClass, ⟨none, [3], true, false⟩]

/-- The two symbols of a mixin cycle keep exactly the arena entries `iA` and
`iB` (taking `A = B` gives the direct self-mixin form). -/
def InvAB (A B : Nat) (iA iB : ClassInfo) (gs : GS) : Prop :=
  getInfo gs A = iA ∧ getInfo gs B = iB

/-- A single ancestor edge of the arena graph: a declared mixin or the
superclass reference. -/
def Edge (gs : GS) (u v : Nat) : Prop :=
  v ∈ (getInfo gs u).mixins ∨ (getInfo gs u).superClass = some v

instance (gs : GS) (u v : Nat) : Decidable (Edge gs u v) := by
  unfold Edge
  infer_instance

/-- An ancestor path: the edges `a → p₀ → p₁ → ⋯ → b` all exist. -/
def PathP (gs : GS) : Nat → List Nat → Nat → Prop
  | a, [], b => Edge gs a b
  | a, x :: xs, b => Edge gs a x ∧ PathP gs x xs b

instance (gs : GS) (a : Nat) (p : List Nat) (b : Nat) : Decidable (PathP gs a p b) := by
  induction p generalizing a with
  | nil => unfold PathP; infer_instance
  | cons x xs ih => unfold PathP; exact instDecidableAnd

/-- No symbol of the arena is its own ancestor (inheritance and include
graphs of resolved programs are acyclic; a cycle is exactly the fatal
situation of C3). -/
def Acyclic (gs : GS) : Prop := ∀ n, n < gs.length → derives gs n n = false

instance (gs : GS) : Decidable (Acyclic gs) := by
  unfold Acyclic
  infer_instance

/-- A declared mixin that takes the module branch of the linearizer: a
genuine module whose superclass is not one of the two stub sentinels.  No
latch requirement: the mixin may still be waiting for its own
linearization. -/
def GoodModule (gs : GS) (m : Nat) : Prop :=
  (getInfo gs m).isModule = true ∧
    (getInfo gs m).superClass ≠ some stubSuperClassIdx ∧
    (getInfo gs m).superClass ≠ some stubModuleIdx

instance (gs : GS) (m : Nat) : Decidable (GoodModule gs m) := by
  unfold GoodModule
  infer_instance

/-- Witness arena for the amended C1: class 3 declares the un-latched module
5 twice and the un-latched module 6, which its superclass 4 already derives
from; module 5 in turn declares the latched module 7. -/
def gsC1w : GS :=
  [inertClass, inertClass, inertClass,
   ⟨some 4, [5, 6, 5], false, false⟩,
   ⟨none, [6], false, true⟩,
   ⟨none, [7], true, false⟩,
   ⟨none, [], true, false⟩,
   ⟨none, [], true, true⟩]

/-- The arena `gsC1w` after linearizing symbol 3: the duplicate of 5 was
deduplicated, 6 was dropped as redundant, and the member modules were
linearized on the way. -/
def gsC1wDone : GS :=
  [inertClass, inertClass, inertClass,
   ⟨some 4, [5, 7], false, true⟩,
   ⟨none, [6], false, true⟩,
   ⟨none, [7], true, true⟩,
   ⟨none, [], true, true⟩,
   ⟨none, [], true, true⟩]

/-- What any run of the linearizer can do to an arena entry: leave it alone,
or rewrite it through `setMixinsAndLatch` — which sets the latch and keeps
the superclass and module flag.  The arena length never changes. -/
def StInv (g g' : GS) : Prop :=
  g'.length = g.length ∧
  ∀ i, getInfo g' i = getInfo g i ∨
    ((getInfo g' i).linComputed = true ∧
     (getInfo g' i).superClass = (getInfo g i).superClass ∧
     (getInfo g' i).isModule = (getInfo g i).isModule)

/-- Two arenas with the same derivation relation: every successful
linearizer run relates its input and output states this way (on acyclic
arenas). -/
def EqR (g g' : GS) : Prop := ∀ a b, derives g' a b = derives g a b

end Lin

namespace SymTab

/-- `core::Variance`. -/
inductive Variance
  | invariant
  | covariant
  | contravariant
  deriving DecidableEq, Repr

/-- Interned names as structural values.  A plain name carries its text
identity as a number, a constant name wraps another name id, and
`tvarUnique orig num` is the unique name `freshNameUnique(TypeVarName, orig,
num)` synthesizes; structural identity of names models the hash-consing of
the name table. -/
inductive MName
  | plain (id : Nat)
  | cnst (id : Nat)
  | tvarUnique (orig : MName) (num : Nat)
  deriving DecidableEq, Repr

/-- The arena kinds a member-table entry can point at.  Type arguments
(method-level generics, a separate arena none of these claims touches) keep
their tag so the kind test of `resolveTypeMember` reads like the source, but
the model never creates one. -/
inductive SKind
  | classOrModule
  | typeMember
  | typeArgument
  | method
  deriving DecidableEq, Repr

/-- `core::SymbolRef`: a kind tag paired with an arena index. -/
structure SRef where
  kind : SKind
  idx : Nat
  deriving DecidableEq, Repr

/-- A class-or-module arena entry with the fields the resolver reads or
writes.  `locIsPayload` abstracts `loc().file().data(gs).isPayload()` for the
single location the model keeps per symbol; `attachedFixed` records the
spec-modelled self-type-bound fix (see `fixAttachedClass`). -/
structure ClassSym where
  name : MName
  owner : Nat
  superClass : Option Nat
  members : List (MName × SRef)
  typeMembers : List Nat
  mixins : List Nat
  isClassFlag : Bool
  locIsPayload : Bool
  attachedFixed : Bool
  deriving DecidableEq, Repr

instance : Inhabited ClassSym :=
  ⟨⟨.plain 0, 0, none, [], [], [], false, false, false⟩⟩

/-- A type-member arena entry.  `untypedBounds` records that `resultType` is
the `LambdaParam` with untyped upper and lower bound. -/
structure TypeMemberSym where
  name : MName
  owner : Nat
  variance : Variance
  isFixed : Bool
  untypedBounds : Bool
  locIsPayload : Bool
  deriving DecidableEq, Repr

instance : Inhabited TypeMemberSym :=
  ⟨⟨.plain 0, 0, Variance.invariant, false, false, false⟩⟩

/-- The Global State fragment these claims touch: the class/module and
type-member arenas plus the ordered list of emitted diagnostic codes. -/
structure GState where
  classAndModules : List ClassSym
  typeMembers : List TypeMemberSym
  typeArguments : List TypeMemberSym
  errors : List Nat
  deriving DecidableEq, Repr

/-- Arena index of the built-in `core::Symbols::Class()`. -/
def classSymbolIdx : Nat := 1

/-- Arena index of the built-in `core::Symbols::Enumerable()`. -/
def enumerableIdx : Nat := 2

/-- The constant name `core::Names::Constants::AttachedClass()`. -/
def attachedClassName : MName := .cnst 0

/-- Modelled from the spec: the diagnostic codes of `core/errors/resolver.h`
are not in the provided sources; they are opaque distinct identifiers. -/
def codeEnumerableParentTypeNotDeclared : Nat := 1

def codeParentTypeNotDeclared : Nat := 2

def codeNotATypeVariable : Nat := 3

def codeParentVarianceMismatch : Nat := 4

def codeTypeMembersInWrongOrder : Nat := 5

def codeVariantTypeMemberInClass : Nat := 6

def getClass (gs : GState) (i : Nat) : ClassSym := gs.classAndModules.getD i default

def getTM (gs : GState) (i : Nat) : TypeMemberSym := gs.typeMembers.getD i default

def setClass (gs : GState) (i : Nat) (c : ClassSym) : GState :=
  { gs with classAndModules := gs.classAndModules.set i c }

def setTM (gs : GState) (i : Nat) (t : TypeMemberSym) : GState :=
  { gs with typeMembers := gs.typeMembers.set i t }

/-- Dereference a type-parameter reference in the arena its kind names. -/
def getParam (gs : GState) (r : SRef) : TypeMemberSym :=
  match r.kind with
  | SKind.typeMember => getTM gs r.idx
  | SKind.typeArgument => gs.typeArguments.getD r.idx default
  | _ => default

/-- Recording a diagnostic through the error sink (`gs.beginError` followed
by `setHeader`). -/
def emitError (gs : GState) (code : Nat) : GState :=
  { gs with errors := gs.errors ++ [code] }

/-- Modelled from the spec: `Symbol::findMember` is not in the provided
sources; per the spec it is the lookup in the member table of the scope, and
a non-existing result (`noSymbol`) is modelled as `none`. -/
def findMember (gs : GState) (c : Nat) (n : MName) : Option SRef :=
  (getClass gs c).members.lookup n

/-- Modelled from the spec: `Symbol::derivesFrom` (see `Lin.derivesFromFuel`)
over this arena: ancestor reachability through superclass and mixin edges. -/
def derivesFromFuel (gs : GState) : Nat → Nat → Nat → Bool
  | 0, _, _ => false
  | fuel + 1, c, target =>
    let info := getClass gs c
    info.mixins.any (fun m => m == target || derivesFromFuel gs fuel m target) ||
      (match info.superClass with
       | some s => s == target || derivesFromFuel gs fuel s target
       | none => false)

def derivesFrom (gs : GState) (c target : Nat) : Bool :=
  derivesFromFuel gs (gs.classAndModules.length + 1) c target

/-- Translation of `GlobalState::enterClassSymbol`: a member-table hit
returns the stored reference, otherwise a fresh class record is appended to
the arena and entered into the member table of the owner. -/
def enterClassSymbol (gs : GState) (owner : Nat) (name : MName) : GState × SRef :=
  match findMember gs owner name with
  | some store => (gs, store)
  | none =>
    let idx := gs.classAndModules.length
    let ret : SRef := ⟨SKind.classOrModule, idx⟩
    let oc := getClass gs owner
    let newClass : ClassSym :=
      { name := name, owner := owner, superClass := none, members := [], typeMembers := [],
        mixins := [], isClassFlag := false, locIsPayload := false, attachedFixed := false }
    ({ gs with classAndModules :=
        (gs.classAndModules.set owner { oc with members := oc.members ++ [(name, ret)] })
          ++ [newClass] },
      ret)

/-- Translation of `GlobalState::enterTypeMember`.  The location argument is
reduced to its payload bit.  On a member-table hit the stored reference is
returned; otherwise a fresh type member is appended, entered into the member
table, and added to the `typeMembers()` list of the owner when absent. -/
def enterTypeMember (gs : GState) (locPayload : Bool) (owner : Nat) (name : MName)
    (variance : Variance) : GState × SRef :=
  match findMember gs owner name with
  | some store => (gs, store)
  | none =>
    let idx := gs.typeMembers.length
    let result : SRef := ⟨SKind.typeMember, idx⟩
    let tm : TypeMemberSym :=
      { name := name, owner := owner, variance := variance, isFixed := false,
        untypedBounds := false, locIsPayload := locPayload }
    let oc := getClass gs owner
    let tms := if oc.typeMembers.contains idx then oc.typeMembers else oc.typeMembers ++ [idx]
    ({ gs with
        typeMembers := gs.typeMembers ++ [tm],
        classAndModules := gs.classAndModules.set owner
          { oc with members := oc.members ++ [(name, result)], typeMembers := tms } },
      result)

/-- `my.data(gs)->setFixed()` followed by installing the untyped
`LambdaParam` as `resultType`. -/
def setFixedUntyped (gs : GState) (r : SRef) : GState :=
  match r.kind with
  | SKind.typeMember => setTM gs r.idx { getTM gs r.idx with isFixed := true, untypedBounds := true }
  | _ => gs

/-- The per-class alias table `vector<vector<pair<SymbolRef, SymbolRef>>>`,
indexed by class arena index. -/
abbrev Aliases := List (List (SRef × SRef))

def pushAlias (aliases : Aliases) (sym : Nat) (p : SRef × SRef) : Aliases :=
  aliases.set sym (aliases.getD sym [] ++ [p])

/-- Translation of `resolveTypeMember` (resolver translation unit). -/
def resolveTypeMember (gs : GState) (parent : Nat) (parentTypeMember : Nat) (sym : Nat)
    (typeAliases : Aliases) : GState × Aliases × Bool :=
  let name := (getTM gs parentTypeMember).name
  match findMember gs sym name with
  | none =>
    let code :=
      if parent = enumerableIdx || derivesFrom gs parent enumerableIdx then
        codeEnumerableParentTypeNotDeclared
      else
        codeParentTypeNotDeclared
    let gs := emitError gs code
    let (gs, my) := enterTypeMember gs (getClass gs sym).locIsPayload sym name Variance.invariant
    let gs := setFixedUntyped gs my
    (gs, typeAliases, false)
  | some my =>
    if ¬ (my.kind = SKind.typeMember ∨ my.kind = SKind.typeArgument) then
      let gs := emitError gs codeNotATypeVariable
      let synthesizedName := MName.tvarUnique name 1
      let (gs, my₂) :=
        enterTypeMember gs (getClass gs sym).locIsPayload sym synthesizedName Variance.invariant
      let gs := setFixedUntyped gs my₂
      (gs, typeAliases, false)
    else
      let myVariance := (getParam gs my).variance
      let parentVariance := (getTM gs parentTypeMember).variance
      if ¬ derivesFrom gs sym classSymbolIdx ∧ myVariance ≠ parentVariance ∧
          myVariance ≠ Variance.invariant then
        (emitError gs codeParentVarianceMismatch, typeAliases, false)
      else
        (gs, pushAlias typeAliases sym (⟨SKind.typeMember, parentTypeMember⟩, my), true)

mutual

/-- Translation of `dealiasAt`.  The result `none` models the non-existing
`noSymbol` reference; fuel bounds the alias-chain recursion and the
superclass walk, which the source leaves unbounded. -/
def dealiasAt : Nat → GState → Aliases → SRef → Nat → Option SRef
  | 0, _, _, _, _ => none
  | fuel + 1, gs, aliases, tparam, klass =>
    if (getParam gs tparam).owner = klass then
      some tparam
    else
      dealiasCursor fuel gs aliases tparam klass
        (if derivesFrom gs (getParam gs tparam).owner klass then
          some ((getParam gs tparam).owner)
        else if derivesFrom gs klass ((getParam gs tparam).owner) then
          some klass
        else
          none)

/-- The `while (true)` cursor walk of `dealiasAt` up the superclass chain. -/
def dealiasCursor : Nat → GState → Aliases → SRef → Nat → Option Nat → Option SRef
  | 0, _, _, _, _, _ => none
  | fuel + 1, gs, aliases, tparam, klass, cursor =>
    match cursor with
    | none => none
    | some c =>
      match (aliases.getD c []).find? (fun p => p.1 == tparam) with
      | some p => dealiasAt fuel gs aliases p.2 klass
      | none => dealiasCursor fuel gs aliases tparam klass ((getClass gs c).superClass)

end

/-- The `for (core::SymbolRef tp : tps)` fold of `resolveTypeMembers` over the
type members of a parent, accumulating `foundAll`. -/
def resolveParentTMs (gs : GState) (aliases : Aliases) (parent : Nat) (sym : Nat) :
    List Nat → Bool → GState × Aliases × Bool
  | [], foundAll => (gs, aliases, foundAll)
  | tp :: rest, foundAll =>
    match resolveTypeMember gs parent tp sym aliases with
    | (gs₂, aliases₂, foundThis) =>
      resolveParentTMs gs₂ aliases₂ parent sym rest (foundAll && foundThis)

/-- The ordering pass of `resolveTypeMembers`: for each parent type member in
order, dealias it into the child and swap it into position `i` when it is not
already there, emitting the wrong-order diagnostic.  The source asserts that
the dealiased member occurs in the list; on the (debug-asserted, otherwise
undefined) missing case the model leaves the list unchanged. -/
def orderLoop (fuel : Nat) (aliases : Aliases) (sym : Nat) :
    GState → List Nat → Nat → GState
  | gs, [], _ => gs
  | gs, tp :: rest, i =>
    let myOpt := dealiasAt fuel gs aliases ⟨SKind.typeMember, tp⟩ sym
    let tms := (getClass gs sym).typeMembers
    if ((tms.get? i).map (fun t => (⟨SKind.typeMember, t⟩ : SRef))) = myOpt then
      orderLoop fuel aliases sym gs rest (i + 1)
    else
      let gs := emitError gs codeTypeMembersInWrongOrder
      match myOpt with
      | some my =>
        let foundIdx := tms.findIdx (fun t => (⟨SKind.typeMember, t⟩ : SRef) == my)
        if foundIdx < tms.length ∧ i < tms.length then
          let a := tms.getD foundIdx 0
          let b := tms.getD i 0
          let gs := setClass gs sym
            { getClass gs sym with typeMembers := (tms.set foundIdx b).set i a }
          orderLoop fuel aliases sym gs rest (i + 1)
        else
          orderLoop fuel aliases sym gs rest (i + 1)
      | none => orderLoop fuel aliases sym gs rest (i + 1)

/-- The `if (sym.data(gs)->isClassOrModuleClass())` variance loop: classes may
only have invariant type members; a violation outside payload files emits a
diagnostic and returns from `resolveTypeMembers` early (second component
`true`). -/
def classVarianceLoop (gs : GState) : List Nat → GState × Bool
  | [] => (gs, false)
  | tp :: rest =>
    let data := getTM gs tp
    if data.name = attachedClassName then
      classVarianceLoop gs rest
    else if data.variance ≠ Variance.invariant then
      if ¬ data.locIsPayload then
        (emitError gs codeVariantTypeMemberInClass, true)
      else
        classVarianceLoop gs rest
    else
      classVarianceLoop gs rest

/-- Modelled from the spec: `lookupSingletonClass`, `externalType` and the
`LambdaParam` bound rewrite are not in the provided sources.  Per the spec,
when a class declares no type members its self-type bound is synthesized from
its external type; the model records that event in a flag. -/
def fixAttachedClass (gs : GState) (sym : Nat) : GState :=
  setClass gs sym { getClass gs sym with attachedFixed := true }

/-- The resolver state threaded through `resolveTypeMembers`: the Global
State together with the per-class alias table and the per-class resolved
latch vector. -/
structure RState where
  gs : GState
  aliases : Aliases
  resolved : List Bool
  deriving DecidableEq, Repr

mutual

/-- Translation of `resolveTypeMembers` (resolver translation unit). -/
def resolveTypeMembers : Nat → RState → Nat → Except String RState
  | 0, _, _ => .error "out of fuel"
  | fuel + 1, st, sym =>
    if st.resolved.getD sym false then
      .ok st
    else
      let st : RState := { st with resolved := st.resolved.set sym true }
      let afterSuper : Except String RState :=
        match (getClass st.gs sym).superClass with
        | some parent =>
          match resolveTypeMembers fuel st parent with
          | .error e => .error e
          | .ok st₂ =>
            let tps := (getClass st₂.gs parent).typeMembers
            match resolveParentTMs st₂.gs st₂.aliases parent sym tps true with
            | (gs₃, aliases₃, foundAll) =>
              let gs₄ := if foundAll then orderLoop fuel aliases₃ sym gs₃ tps 0 else gs₃
              .ok ⟨gs₄, aliases₃, st₂.resolved⟩
        | none => .ok st
      match afterSuper with
      | .error e => .error e
      | .ok st₂ =>
        match resolveMixinsTM fuel st₂ sym ((getClass st₂.gs sym).mixins) with
        | .error e => .error e
        | .ok st₃ =>
          match
            (if (getClass st₃.gs sym).isClassFlag then
              classVarianceLoop st₃.gs ((getClass st₃.gs sym).typeMembers)
            else
              (st₃.gs, false)) with
          | (gs₄, earlyReturn) =>
            if earlyReturn then
              .ok { st₃ with gs := gs₄ }
            else if (getClass gs₄ sym).typeMembers.isEmpty then
              .ok { st₃ with gs := fixAttachedClass gs₄ sym }
            else
              .ok { st₃ with gs := gs₄ }

/-- The `for (core::SymbolRef mixin : mixins)` loop of `resolveTypeMembers`:
resolve each mixin first, then re-resolve its type members against `sym`. -/
def resolveMixinsTM : Nat → RState → Nat → List Nat → Except String RState
  | _, st, _, [] => .ok st
  | 0, _, _, _ :: _ => .error "out of fuel"
  | fuel + 1, st, sym, mixin :: rest =>
    match resolveTypeMembers fuel st mixin with
    | .error e => .error e
    | .ok st₂ =>
      match resolveParentTMs st₂.gs st₂.aliases mixin sym
          ((getClass st₂.gs mixin).typeMembers) true with
      | (gs₃, aliases₃, _) =>
        resolveMixinsTM fuel ⟨gs₃, aliases₃, st₂.resolved⟩ sym rest

end

/-- An inert class arena entry for slots the scenarios never touch. -/
def inertC : ClassSym := ⟨.plain 0, 0, none, [], [], [], false, false, false⟩

/-- C4 arena: 3 is `Base` declaring type member `Elem` (arena index 0, name
`plain 10`, invariant); 4 is `Derived < Base` with no members of its own. -/
def gsT4 : GState :=
  ⟨[inertC, inertC, inertC,
    { name := .plain 3, owner := 0, superClass := none,
      members := [(.plain 10, ⟨SKind.typeMember, 0⟩)], typeMembers := [0], mixins := [],
      isClassFlag := true, locIsPayload := false, attachedFixed := false },
    { name := .plain 4, owner := 0, superClass := some 3, members := [], typeMembers := [],
      mixins := [], isClassFlag := true, locIsPayload := false, attachedFixed := false }],
   [⟨.plain 10, 3, Variance.invariant, false, false, false⟩], [], []⟩

/-- C5 arena, parametric in the two member names: parent 3 declares type
members `[X, Y]` (arena indices 0 and 1, names `plain nX` and `plain nY`);
child 4 re-declares them in the swapped order `[Y, X]` (arena indices 2 and
3). -/
def gsC5 (nX nY : Nat) : GState :=
  ⟨[inertC, inertC, inertC,
    { name := .plain 3, owner := 0, superClass := none,
      members := [(.plain nX, ⟨SKind.typeMember, 0⟩), (.plain nY, ⟨SKind.typeMember, 1⟩)],
      typeMembers := [0, 1], mixins := [],
      isClassFlag := true, locIsPayload := false, attachedFixed := false },
    { name := .plain 4, owner := 0, superClass := some 3,
      members := [(.plain nX, ⟨SKind.typeMember, 3⟩), (.plain nY, ⟨SKind.typeMember, 2⟩)],
      typeMembers := [2, 3], mixins := [],
      isClassFlag := true, locIsPayload := false, attachedFixed := false }],
   [⟨.plain nX, 3, Variance.invariant, false, false, false⟩,
    ⟨.plain nY, 3, Variance.invariant, false, false, false⟩,
    ⟨.plain nY, 4, Variance.invariant, false, false, false⟩,
    ⟨.plain nX, 4, Variance.invariant, false, false, false⟩], [], []⟩

/-- C6 counterexample arena: parent 3 declares an invariant type member
(arena index 0); the module 4 re-declares it covariantly (arena index 1). -/
def gsT6 : GState :=
  ⟨[inertC, inertC, inertC,
    { name := .plain 3, owner := 0, superClass := none,
      members := [(.plain 30, ⟨SKind.typeMember, 0⟩)], typeMembers := [0], mixins := [],
      isClassFlag := true, locIsPayload := false, attachedFixed := false },
    { name := .plain 4, owner := 0, superClass := some 3,
      members := [(.plain 30, ⟨SKind.typeMember, 1⟩)], typeMembers := [1], mixins := [],
      isClassFlag := false, locIsPayload := false, attachedFixed := false }],
   [⟨.plain 30, 3, Variance.invariant, false, false, false⟩,
    ⟨.plain 30, 4, Variance.covariant, false, false, false⟩], [], []⟩

/-- C6 witness arena: parent and child both declare the member covariantly on
a module, so the alias is recorded. -/
def gsT6b : GState :=
  ⟨[inertC, inertC, inertC,
    { name := .plain 3, owner := 0, superClass := none,
      members := [(.plain 30, ⟨SKind.typeMember, 0⟩)], typeMembers := [0], mixins := [],
      isClassFlag := true, locIsPayload := false, attachedFixed := false },
    { name := .plain 4, owner := 0, superClass := some 3,
      members := [(.plain 30, ⟨SKind.typeMember, 1⟩)], typeMembers := [1], mixins := [],
      isClassFlag := false, locIsPayload := false, attachedFixed := false }],
   [⟨.plain 30, 3, Variance.covariant, false, false, false⟩,
    ⟨.plain 30, 4, Variance.covariant, false, false, false⟩], [], []⟩

/-- C7 witness arena: two empty classes. -/
def gsC7 : GState := ⟨[inertC, inertC], [], [], []⟩

/-- The arena `gsT4` after `resolveTypeMember` synthesized the placeholder
`Elem` on `Derived`: one diagnostic, one new fixed invariant type member with
untyped bounds, registered in the member table and type-member list of 4. -/
def gsT4after : GState :=
  ⟨[inertC, inertC, inertC,
    { name := .plain 3, owner := 0, superClass := none,
      members := [(.plain 10, ⟨SKind.typeMember, 0⟩)], typeMembers := [0], mixins := [],
      isClassFlag := true, locIsPayload := false, attachedFixed := false },
    { name := .plain 4, owner := 0, superClass := some 3,
      members := [(.plain 10, ⟨SKind.typeMember, 1⟩)], typeMembers := [1],
      mixins := [], isClassFlag := true, locIsPayload := false, attachedFixed := false }],
   [⟨.plain 10, 3, Variance.invariant, false, false, false⟩,
    ⟨.plain 10, 4, Variance.invariant, true, true, false⟩], [],
   [codeParentTypeNotDeclared]⟩

end SymTab

namespace NT

/-- One interned name: the raw UTF8 text (the paged copy `enterString` makes
is modelled by storing the text itself, whose content the copy preserves), a
constant name wrapping an original name id, or a unique name wrapping a
unique-kind tag, a counter and an original name id. -/
inductive NameEntry
  | utf8 (s : String)
  | cnst (orig : Nat)
  | uniq (kind : Nat) (num : Nat) (orig : Nat)
  deriving DecidableEq, Repr

instance : Inhabited NameEntry := ⟨.utf8 ""⟩

/-- The name-table fragment of the Global State: the name arena (index =
NameRef id, slot 0 reserved as the empty-bucket marker), the reserved
capacity of the arena vector, and the open-addressing hash table of
(hash, name id) pairs where id 0 marks an empty bucket. -/
structure NTState where
  names : List NameEntry
  capacity : Nat
  namesByHash : List (Nat × Nat)
  deriving DecidableEq, Repr

/-- Modelled from the spec: the string hash of core/Hashing.h is not in the
provided sources; any concrete function works since the table resolves
collisions by full key comparison.  A simple polynomial stand-in. -/
def strHash (s : String) : Nat :=
  s.data.foldl (fun a c => a * 31 + c.toNat + 1) 7

/-- Modelled from the spec: stand-in for `_hash_mix_constant`. -/
def hashMixConstant (orig : Nat) : Nat := orig * 2654435761 + 13

/-- Modelled from the spec: stand-in for `_hash_mix_unique`. -/
def hashMixUnique (kind num orig : Nat) : Nat :=
  ((kind * 91 + num) * 1000003 + orig) * 2654435761 + 17

/-- The hash under which an entry is stored (`Name::hash`). -/
def entryHash : NameEntry → Nat
  | .utf8 s => strHash s
  | .cnst orig => hashMixConstant orig
  | .uniq kind num orig => hashMixUnique kind num orig

def bucketAt (st : NTState) (b : Nat) : Nat × Nat := st.namesByHash.getD b (0, 0)

/-- Whether the probe at a bucket matches a UTF8 search key: stored hash
equal and the referenced name a UTF8 name of equal text
(`nm2.kind == NameKind::UTF8 && nm2.raw.utf8 == nm`). -/
def utf8Match (st : NTState) (bucket : Nat × Nat) (hs : Nat) (s : String) : Bool :=
  bucket.1 == hs &&
    (match st.names.getD bucket.2 default with
     | .utf8 t => t == s
     | _ => false)

def constMatch (st : NTState) (bucket : Nat × Nat) (hs : Nat) (orig : Nat) : Bool :=
  bucket.1 == hs &&
    (match st.names.getD bucket.2 default with
     | .cnst o => o == orig
     | _ => false)

def uniqMatch (st : NTState) (bucket : Nat × Nat) (hs : Nat) (kind num orig : Nat) : Bool :=
  bucket.1 == hs &&
    (match st.names.getD bucket.2 default with
     | .uniq k n o => k == kind && n == num && o == orig
     | _ => false)

/-- Result of the unbounded probe loops of `lookupNameUTF8`/`enterNameUTF8`:
a matching bucket, the first empty bucket, or fuel exhaustion modelling a
probe loop that never exits. -/
inductive USearch
  | found (id : Nat)
  | empty (bucketId : Nat) (probeCount : Nat)
  | outOfFuel
  deriving DecidableEq, Repr

/-- The `while (namesByHash[bucketId].second != 0u)` probe loop shared by
`lookupNameUTF8` and `enterNameUTF8`.  The source computes the next bucket as
`(bucketId + probeCount) & mask` with `mask = hashTableSize - 1` and ENFORCEs
that the table size is a power of two, for which the bitwise and is exactly
the remainder; the model uses the remainder. -/
def searchUTF8 (st : NTState) (s : String) (hs : Nat) (hashTableSize : Nat) :
    Nat → Nat → Nat → USearch
  | 0, _, _ => .outOfFuel
  | fuel + 1, bucketId, probeCount =>
    let bucket := bucketAt st bucketId
    if bucket.2 ≠ 0 then
      if utf8Match st bucket hs s then .found bucket.2
      else searchUTF8 st s hs hashTableSize fuel
        ((bucketId + probeCount) % hashTableSize) (probeCount + 1)
    else .empty bucketId probeCount

/-- Translation of `GlobalState::lookupNameUTF8`; `.ok none` models the
returned `NameRef::noName()` on a miss. -/
def lookupNameUTF8 (st : NTState) (s : String) : Except String (Option Nat) :=
  let hs := strHash s
  let hashTableSize := st.namesByHash.length
  match searchUTF8 st s hs hashTableSize hashTableSize (hs % hashTableSize) 1 with
  | .found id => .ok (some id)
  | .empty _ _ => .ok none
  | .outOfFuel => .error "probe loop did not terminate"

/-- The post-expansion probe loops (`while (namesByHash[bucketId].second != 0)`
with no match check), also used by `moveNames`: find the first empty bucket
along the probe path. -/
def searchEmpty (tbl : List (Nat × Nat)) (hashTableSize : Nat) :
    Nat → Nat → Nat → Option Nat
  | 0, _, _ => none
  | fuel + 1, bucketId, probeCount =>
    if (tbl.getD bucketId (0, 0)).2 ≠ 0 then
      searchEmpty tbl hashTableSize fuel ((bucketId + probeCount) % hashTableSize)
        (probeCount + 1)
    else some bucketId

/-- Translation of `moveNames`: rehash every live entry of the old table into
the new table with the same probing rule, in slot order. -/
def moveNamesAux (size : Nat) : List (Nat × Nat) → List (Nat × Nat) →
    Except String (List (Nat × Nat))
  | tgt, [] => .ok tgt
  | tgt, e :: rest =>
    if e.2 ≠ 0 then
      match searchEmpty tgt size size (e.1 % size) 1 with
      | none => .error "probe loop did not terminate"
      | some b => moveNamesAux size (tgt.set b e) rest
    else moveNamesAux size tgt rest

/-- Translation of `GlobalState::expandNames`. -/
def expandNames (st : NTState) (newSize : Nat) : Except String NTState :=
  if st.capacity < newSize then
    match moveNamesAux (newSize * 2) (List.replicate (newSize * 2) (0, 0)) st.namesByHash with
    | .error e => .error e
    | .ok tbl => .ok { st with capacity := newSize, namesByHash := tbl }
  else
    .ok st

/-- Writing a fresh name: fill the found bucket with (hash, fresh id) and
append the entry to the name arena. -/
def insertName (st : NTState) (bucketId : Nat) (hs : Nat) (e : NameEntry) : NTState × Nat :=
  let idx := st.names.length
  ({ st with namesByHash := st.namesByHash.set bucketId (hs, idx),
             names := st.names ++ [e] }, idx)

/-- Translation of `GlobalState::enterNameUTF8`. -/
def enterNameUTF8 (st : NTState) (s : String) : Except String (NTState × Nat) :=
  let hs := strHash s
  let hashTableSize := st.namesByHash.length
  match searchUTF8 st s hs hashTableSize hashTableSize (hs % hashTableSize) 1 with
  | .found id => .ok (st, id)
  | .outOfFuel => .error "probe loop did not terminate"
  | .empty bucketId _ =>
    if st.names.length = st.capacity then
      match expandNames st (st.capacity * 2) with
      | .error e => .error e
      | .ok st₂ =>
        match searchEmpty st₂.namesByHash st₂.namesByHash.length st₂.namesByHash.length
            (hs % st₂.namesByHash.length) 1 with
        | none => .error "probe loop did not terminate"
        | some b => .ok (insertName st₂ b hs (.utf8 s))
    else
      .ok (insertName st bucketId hs (.utf8 s))

/-- Result of the bounded probe loops of `enterNameConstant` and
`freshNameUnique` (`while (second != 0 && probeCount < hashTableSize)`):
a match, or loop exit with the final bucket and probe counter. -/
inductive BSearch
  | found (id : Nat)
  | stopped (bucketId : Nat) (probeCount : Nat)
  | outOfFuel
  deriving DecidableEq, Repr

/-- The bounded probe loop, parameterized by the match predicate answer at
each bucket (instantiated with `constMatch` or `uniqMatch`). -/
def searchBounded (st : NTState) (hit : Nat × Nat → Bool) (hashTableSize : Nat) :
    Nat → Nat → Nat → BSearch
  | 0, _, _ => .outOfFuel
  | fuel + 1, bucketId, probeCount =>
    let bucket := bucketAt st bucketId
    if bucket.2 ≠ 0 ∧ probeCount < hashTableSize then
      if hit bucket then .found bucket.2
      else searchBounded st hit hashTableSize fuel
        ((bucketId + probeCount) % hashTableSize) (probeCount + 1)
    else .stopped bucketId probeCount

/-- Translation of `GlobalState::enterNameConstant` (the `NameRef original`
overload).  `Exception::raise("Full table?")` is the `.error "Full table?"`
result. -/
def enterNameConstant (st : NTState) (orig : Nat) : Except String (NTState × Nat) :=
  let hs := hashMixConstant orig
  let hashTableSize := st.namesByHash.length
  match searchBounded st (fun b => constMatch st b hs orig) hashTableSize
      (hashTableSize + 1) (hs % hashTableSize) 1 with
  | .outOfFuel => .error "probe loop did not terminate"
  | .found id => .ok (st, id)
  | .stopped bucketId probeCount =>
    if probeCount = hashTableSize then .error "Full table?"
    else if st.names.length = st.capacity then
      match expandNames st (st.capacity * 2) with
      | .error e => .error e
      | .ok st₂ =>
        match searchEmpty st₂.namesByHash st₂.namesByHash.length st₂.namesByHash.length
            (hs % st₂.namesByHash.length) 1 with
        | none => .error "probe loop did not terminate"
        | some b => .ok (insertName st₂ b hs (.cnst orig))
    else
      .ok (insertName st bucketId hs (.cnst orig))

/-- Translation of `GlobalState::freshNameUnique`. -/
def freshNameUnique (st : NTState) (kind num orig : Nat) : Except String (NTState × Nat) :=
  let hs := hashMixUnique kind num orig
  let hashTableSize := st.namesByHash.length
  match searchBounded st (fun b => uniqMatch st b hs kind num orig) hashTableSize
      (hashTableSize + 1) (hs % hashTableSize) 1 with
  | .outOfFuel => .error "probe loop did not terminate"
  | .found id => .ok (st, id)
  | .stopped bucketId probeCount =>
    if probeCount = hashTableSize then .error "Full table?"
    else if st.names.length = st.capacity then
      match expandNames st (st.capacity * 2) with
      | .error e => .error e
      | .ok st₂ =>
        match searchEmpty st₂.namesByHash st₂.namesByHash.length st₂.namesByHash.length
            (hs % st₂.namesByHash.length) 1 with
        | none => .error "probe loop did not terminate"
        | some b => .ok (insertName st₂ b hs (.uniq kind num orig))
    else
      .ok (insertName st bucketId hs (.uniq kind num orig))

/-- One name-entering call, for reasoning about arbitrary call sequences. -/
inductive NameOp
  | utf8 (s : String)
  | cnst (orig : Nat)
  | uniq (kind num orig : Nat)
  deriving DecidableEq, Repr

def applyOp (st : NTState) : NameOp → Except String (NTState × Nat)
  | .utf8 s => enterNameUTF8 st s
  | .cnst orig => enterNameConstant st orig
  | .uniq kind num orig => freshNameUnique st kind num orig

def applyOps : NTState → List NameOp → Except String NTState
  | st, [] => .ok st
  | st, op :: rest =>
    match applyOp st op with
    | .error e => .error e
    | .ok (st₂, _) => applyOps st₂ rest

/-- The probe sequence for hash `hs` in a table of `n` buckets: position `k`
is the bucket visited with probe counter `k + 1`. -/
def probeSeq (hs n : Nat) : Nat → Nat
  | 0 => hs % n
  | k + 1 => (probeSeq hs n k + (k + 1)) % n

/-- Whether two entries are UTF8 names with the same text. -/
def sameUtf8 : NameEntry → NameEntry → Bool
  | .utf8 a, .utf8 b => a == b
  | _, _ => false

/-- Whether an entry is a UTF8 name. -/
def isUtf8Name : NameEntry → Bool
  | .utf8 _ => true
  | _ => false

/-- The bucket at position `k` of the probe path of `hs` holds id `i` under
hash `hs`, and every earlier position is occupied. -/
def PathTo (st : NTState) (hs i k : Nat) : Prop :=
  (∀ j, j < k → (bucketAt st (probeSeq hs st.namesByHash.length j)).2 ≠ 0) ∧
    bucketAt st (probeSeq hs st.namesByHash.length k) = (hs, i)

instance (st : NTState) (hs i k : Nat) : Decidable (PathTo st hs i k) := by
  unfold PathTo
  infer_instance

/-- Sizes invariant: the reserved empty-marker name exists, the arena fits
its capacity, and the table is nonempty. -/
def WFsizes (st : NTState) : Prop :=
  0 < st.names.length ∧ st.names.length ≤ st.capacity ∧ 0 < st.namesByHash.length

instance (st : NTState) : Decidable (WFsizes st) := by
  unfold WFsizes
  infer_instance

/-- Bucket invariant: every live bucket points below the arena length and
stores the hash of its entry. -/
def WFbuckets (st : NTState) : Prop :=
  ∀ b, b < st.namesByHash.length → (bucketAt st b).2 ≠ 0 →
    (bucketAt st b).2 < st.names.length ∧
    (bucketAt st b).1 = entryHash (st.names.getD (bucketAt st b).2 default)

instance (st : NTState) : Decidable (WFbuckets st) := by
  unfold WFbuckets
  infer_instance

/-- Interning invariant: a UTF8 text occurs in the arena at most once
(outside the reserved slot 0). -/
def WFuniq (st : NTState) : Prop :=
  ∀ i, i < st.names.length → ∀ j, j < st.names.length → i ≠ 0 → j ≠ 0 →
    sameUtf8 (st.names.getD i default) (st.names.getD j default) = true → i = j

instance (st : NTState) : Decidable (WFuniq st) := by
  unfold WFuniq
  infer_instance

/-- Reachability invariant: every interned UTF8 name is found along the probe
path of its hash within table-length probes. -/
def WFreg (st : NTState) : Prop :=
  ∀ i, i < st.names.length → i ≠ 0 → isUtf8Name (st.names.getD i default) = true →
    ∃ k, k < st.namesByHash.length ∧
      PathTo st (entryHash (st.names.getD i default)) i k

instance (st : NTState) : Decidable (WFreg st) := by
  unfold WFreg
  infer_instance

/-- Well-formedness of a name-table state. -/
def WF (st : NTState) : Prop :=
  WFsizes st ∧ WFbuckets st ∧ WFuniq st ∧ WFreg st

instance (st : NTState) : Decidable (WF st) := by
  unfold WF
  infer_instance

/-- A fresh name table mirroring `GlobalState::GlobalState` and `initEmpty`:
one reserved empty name, and a zeroed hash table of twice the arena
capacity. -/
def initNT (cap : Nat) : NTState :=
  ⟨[.utf8 ""], cap, List.replicate (2 * cap) (0, 0)⟩

/-- The arena of `b` extends the arena of `a`: names are only ever appended,
so every id keeps its entry.  ("No entry is dropped.") -/
def Ext (a b : NTState) : Prop :=
  a.names.length ≤ b.names.length ∧
    ∀ i, i < a.names.length → b.names.getD i default = a.names.getD i default

/-- A single hash-table entry is consistent with an arena: a live entry
points below the arena length and stores its entry's hash. -/
def OkEntry (names : List NameEntry) (e : Nat × Nat) : Prop :=
  e.2 ≠ 0 → e.2 < names.length ∧ e.1 = entryHash (names.getD e.2 default)

/-- Probe-path registration of `(hs, i)` at position `m` in a raw table:
the table-level form of `PathTo`. -/
def PathT (tbl : List (Nat × Nat)) (n hs i m : Nat) : Prop :=
  (∀ l, l < m → (tbl.getD (probeSeq hs n l) (0, 0)).2 ≠ 0) ∧
    tbl.getD (probeSeq hs n m) (0, 0) = (hs, i)

/-- A name table whose two buckets are both live and match no constant or
unique key, so the bounded probe loops exhaust the table. -/
def gsC10 : NTState :=
  ⟨[.utf8 "", .cnst 1, .cnst 2], 9,
    [(hashMixConstant 1, 1), (hashMixConstant 2, 2)]⟩

/-- The state after interning "a" into a fresh capacity-1 table: the arena
is at capacity, so the next intern triggers a doubling. -/
def ntW : NTState :=
  match enterNameUTF8 (initNT 1) "a" with
  | .ok (st, _) => st
  | .error _ => initNT 1

/-- An op sequence that overflows the capacity-2 arena of `ntW` twice,
exercising `expandNames` doubling and rehashing. -/
def ntWops : List NameOp :=
  [.utf8 "b", .cnst 1, .uniq 1 1 1, .utf8 "c"]

/-- The state produced by running `ntWops` on `ntW`. -/
def ntWres : NTState :=
  match applyOps ntW ntWops with
  | .ok st => st
  | .error _ => initNT 1

/-- The state after the first `enterNameUTF8` on a fresh capacity-1 table
(used to restate idempotence concretely). -/
def ntW8 : NTState :=
  match enterNameUTF8 (initNT 1) "a" with
  | .ok (st, _) => st
  | .error _ => initNT 1

end NT


namespace Lin

theorem getInfo_set_self (gs : GS) (i : Nat) (ms : List Nat) (h : i < gs.length) :
    getInfo (setMixinsAndLatch gs i ms) i =
      { getInfo gs i with mixins := ms, linComputed := true } := by
  unfold getInfo setMixinsAndLatch
  rw [List.getD_eq_getElem?_getD, List.getElem?_set_self h]
  rfl

theorem getInfo_set_ne (gs : GS) (i j : Nat) (ms : List Nat) (h : i ≠ j) :
    getInfo (setMixinsAndLatch gs i ms) j = getInfo gs j := by
  unfold getInfo setMixinsAndLatch
  rw [List.getD_eq_getElem?_getD, List.getElem?_set_ne h, ← List.getD_eq_getElem?_getD]

theorem getInfo_outOfRange (gs : GS) (i : Nat) (h : gs.length ≤ i) :
    getInfo gs i = default := by
  unfold getInfo
  rw [List.getD_eq_getElem?_getD, List.getElem?_eq_none h]
  rfl

theorem linComputed_setMixinsAndLatch (gs : GS) (i : Nat) (ms : List Nat) :
    (getInfo (setMixinsAndLatch gs i ms) i).linComputed = true := by
  by_cases h : i < gs.length
  · rw [getInfo_set_self gs i ms h]
  · rw [getInfo_outOfRange _ _ (by simpa [setMixinsAndLatch] using le_of_not_lt h)]
    rfl

/-- After any successful run of `computeClassLinearization` on a symbol, the
compute-once latch of that symbol is set in the resulting state. -/
theorem latch_of_compute_ok : ∀ {fuel : Nat} {gs gs' : GS} {c : Nat} {info : LinInfo},
    computeClassLinearization fuel gs c = .ok (gs', info) →
    (getInfo gs' c).linComputed = true := by
  intro fuel gs gs' c info h
  match fuel with
  | 0 => simp [computeClassLinearization] at h
  | fuel + 1 =>
    rw [computeClassLinearization] at h
    by_cases hl : (getInfo gs c).linComputed
    · simp only [hl, if_true] at h
      obtain ⟨h1, _⟩ := Prod.mk.injEq .. ▸ (Except.ok.injEq .. ▸ h)
      exact h1 ▸ hl
    · simp only [hl, if_false, Bool.false_eq_true] at h
      split at h
      · exact absurd h (by simp)
      · split at h
        · exact absurd h (by simp)
        · rename_i gs₃ newMixins _
          have : gs' = setMixinsAndLatch gs₃ c newMixins := by
            cases h; rfl
          rw [this]
          exact linComputed_setMixinsAndLatch _ _ _

/-- C2: once `computeClassLinearization` has completed on a symbol, any later
invocation is a no-op, returning the state unchanged (byte-for-byte) together
with the stored mixin list. -/
theorem claim_C2_linearization_latch_noop {fuel fuel₂ : Nat} {gs gs₁ : GS} {s : Nat}
    {i₁ : LinInfo} (h : computeClassLinearization fuel gs s = .ok (gs₁, i₁)) :
    computeClassLinearization (fuel₂ + 1) gs₁ s =
      .ok (gs₁, ⟨(getInfo gs₁ s).mixins, (getInfo gs₁ s).superClass, s⟩) := by
  have hl := latch_of_compute_ok h
  rw [computeClassLinearization]
  simp [hl]

/-- Witness for C2 at a concrete arena: after linearizing symbol 3 of `gsC2`,
a second invocation returns the state `gsC2done` unchanged. -/
theorem claim_C2_witness :
    computeClassLinearization 1 gsC2done 3 =
      .ok (gsC2done, ⟨(getInfo gsC2done 3).mixins, (getInfo gsC2done 3).superClass, 3⟩) :=
  @claim_C2_linearization_latch_noop 10 0 gsC2 gsC2done 3 ⟨[6], some 4, 3⟩
    (show computeClassLinearization 10 gsC2 3 = .ok (gsC2done, ⟨[6], some 4, 3⟩) by rfl)

/-- Invoking `computeClassLinearization` on a symbol whose latch is already
set returns the state unchanged. -/
theorem compute_latched {fuel : Nat} {gs : GS} {c : Nat}
    (h : (getInfo gs c).linComputed = true) :
    computeClassLinearization (fuel + 1) gs c =
      .ok (gs, ⟨(getInfo gs c).mixins, (getInfo gs c).superClass, c⟩) := by
  rw [computeClassLinearization]
  simp [h]

theorem insertIdx_perm_cons :
    ∀ (pos : Nat) (L : List Nat) (a : Nat), pos ≤ L.length → List.Perm (L.insertIdx pos a) (a :: L)
  | 0, L, a, _ => by simp
  | pos + 1, [], a, h => absurd h (by simp)
  | pos + 1, x :: xs, a, h => by
    rw [List.insertIdx_succ_cons]
    exact ((insertIdx_perm_cons pos xs a (Nat.le_of_succ_le_succ h)).cons x).trans
      (List.Perm.swap a x xs)

/-- `maybeAddMixin` preserves freedom from duplicates and only ever inserts a
mixin the parent does not already derive from. -/
theorem maybeAddMixin_inv {gs : GS} {forSym mixin pos : Nat} {parent : Option Nat}
    {L L' : List Nat} {pos' : Nat}
    (h : maybeAddMixin gs forSym L mixin parent pos = .ok (L', pos'))
    (hnd : L.Nodup) (hder : ∀ x ∈ L, derivesOpt gs parent x = false) :
    L'.Nodup ∧ ∀ x ∈ L', derivesOpt gs parent x = false := by
  unfold maybeAddMixin at h
  split at h
  · simp at h
  · split at h
    · cases h
      exact ⟨hnd, hder⟩
    · rename_i hnoskip
      split at h
      · split at h <;> (cases h; exact ⟨hnd, hder⟩)
      · rename_i hidx
        cases h
        have hmem : mixin ∉ L := by
          intro hm
          exact absurd (beq_self_eq_true mixin)
            (by simpa using List.indexOf?_eq_none_iff.mp hidx mixin hm)
        by_cases hpos : pos ≤ L.length
        · have hperm := insertIdx_perm_cons pos L mixin hpos
          constructor
          · exact hperm.nodup_iff.mpr (List.nodup_cons.mpr ⟨hmem, hnd⟩)
          · intro x hx
            rcases List.mem_cons.mp (hperm.mem_iff.mp hx) with hx' | hx'
            · subst hx'
              simpa using hnoskip
            · exact hder x hx'
        · rw [List.insertIdx_of_length_lt _ _ _ (lt_of_not_le hpos)]
          exact ⟨hnd, hder⟩

/-- Folding `maybeAddMixin` over a component list preserves the
no-duplicates and no-redundant-module invariants. -/
theorem addMixinComponents_inv {gs : GS} {forSym : Nat} {parent : Option Nat} :
    ∀ {comps L : List Nat} {pos : Nat} {L' : List Nat} {pos' : Nat},
    addMixinComponents gs forSym parent comps L pos = .ok (L', pos') →
    L.Nodup → (∀ x ∈ L, derivesOpt gs parent x = false) →
    L'.Nodup ∧ ∀ x ∈ L', derivesOpt gs parent x = false := by
  intro comps
  induction comps with
  | nil =>
    intro L pos L' pos' h hnd hder
    cases h
    exact ⟨hnd, hder⟩
  | cons c rest ih =>
    intro L pos L' pos' h hnd hder
    rw [addMixinComponents] at h
    split at h
    · cases h
    · rename_i p heq
      obtain ⟨hnd₂, hder₂⟩ := maybeAddMixin_inv heq hnd hder
      exact ih h hnd₂ hder₂

theorem derivesFromFuel_mono (gs : GS) :
    ∀ f f' a b, f ≤ f' → derivesFromFuel gs f a b = true →
      derivesFromFuel gs f' a b = true := by
  intro f
  induction f with
  | zero => intro f' a b hle h; rw [derivesFromFuel] at h; cases h
  | succ f ih =>
    intro f' a b hle h
    cases f' with
    | zero => omega
    | succ f' =>
      rw [derivesFromFuel] at h ⊢
      rw [Bool.or_eq_true] at h ⊢
      rcases h with h | h
      · left
        rw [List.any_eq_true] at h ⊢
        obtain ⟨m, hm, hmb⟩ := h
        refine ⟨m, hm, ?_⟩
        rw [Bool.or_eq_true] at hmb ⊢
        rcases hmb with hb | hrec
        · exact Or.inl hb
        · exact Or.inr (ih f' m b (by omega) hrec)
      · right
        split at h
        · rename_i s hs
          rw [Bool.or_eq_true] at h ⊢
          rcases h with hb | hrec
          · exact Or.inl hb
          · exact Or.inr (ih f' s b (by omega) hrec)
        · cases h

theorem derivesFromFuel_out_of_range (gs : GS) (a b : Nat) (ha : gs.length ≤ a) :
    ∀ f, derivesFromFuel gs f a b = false := by
  intro f
  cases f with
  | zero => rfl
  | succ f =>
    rw [derivesFromFuel]
    rw [getInfo_outOfRange gs a ha]
    rfl

theorem edge_src_lt (gs : GS) (u v : Nat) (h : Edge gs u v) : u < gs.length := by
  by_contra hcon
  rw [Edge, getInfo_outOfRange gs u (Nat.le_of_not_lt hcon)] at h
  rcases h with h | h
  · cases h
  · cases h

theorem pathP_src_lt (gs : GS) (a : Nat) (p : List Nat) (b : Nat) (h : PathP gs a p b) :
    a < gs.length := by
  cases p with
  | nil => exact edge_src_lt gs a b h
  | cons x xs => exact edge_src_lt gs a x h.1

theorem pathP_mem_lt (gs : GS) :
    ∀ (p : List Nat) (a b : Nat), PathP gs a p b → ∀ x ∈ p, x < gs.length := by
  intro p
  induction p with
  | nil => intro a b h x hx; cases hx
  | cons y ys ih =>
    intro a b h x hx
    rcases List.mem_cons.mp hx with hxy | hxs
    · subst hxy
      exact pathP_src_lt gs x ys b h.2
    · exact ih y b h.2 x hxs

theorem pathP_fuel (gs : GS) :
    ∀ (p : List Nat) (a b : Nat), PathP gs a p b →
      derivesFromFuel gs (p.length + 1) a b = true := by
  intro p
  induction p with
  | nil =>
    intro a b h
    rw [derivesFromFuel, Bool.or_eq_true]
    rcases h with h | h
    · left
      rw [List.any_eq_true]
      exact ⟨b, h, by simp⟩
    · right
      rw [h]
      simp
  | cons x xs ih =>
    intro a b h
    rw [derivesFromFuel, Bool.or_eq_true]
    rcases h.1 with he | he
    · left
      rw [List.any_eq_true]
      refine ⟨x, he, ?_⟩
      rw [Bool.or_eq_true]
      exact Or.inr (ih x b h.2)
    · right
      rw [he]
      rw [Bool.or_eq_true]
      exact Or.inr (ih x b h.2)

theorem fuel_pathP (gs : GS) :
    ∀ (f : Nat) (a b : Nat), derivesFromFuel gs f a b = true →
      ∃ p, PathP gs a p b := by
  intro f
  induction f with
  | zero => intro a b h; cases h
  | succ f ih =>
    intro a b h
    rw [derivesFromFuel, Bool.or_eq_true] at h
    rcases h with h | h
    · rw [List.any_eq_true] at h
      obtain ⟨m, hm, hmb⟩ := h
      rw [Bool.or_eq_true] at hmb
      rcases hmb with hb | hrec
      · rw [beq_iff_eq] at hb
        subst hb
        exact ⟨[], Or.inl hm⟩
      · obtain ⟨p, hp⟩ := ih m b hrec
        exact ⟨m :: p, Or.inl hm, hp⟩
    · split at h
      · rename_i s hs
        rw [Bool.or_eq_true] at h
        rcases h with hb | hrec
        · rw [beq_iff_eq] at hb
          subst hb
          exact ⟨[], Or.inr hs⟩
        · obtain ⟨p, hp⟩ := ih s b hrec
          exact ⟨s :: p, Or.inr hs, hp⟩
      · cases h

theorem pathP_suffix (gs : GS) :
    ∀ (p₁ : List Nat) (a x : Nat) (p₂ : List Nat) (b : Nat),
      PathP gs a (p₁ ++ x :: p₂) b → PathP gs x p₂ b := by
  intro p₁
  induction p₁ with
  | nil => intro a x p₂ b h; exact h.2
  | cons y ys ih => intro a x p₂ b h; exact ih y x p₂ b h.2

theorem pathP_dedup_cut (gs : GS) :
    ∀ (p₁ : List Nat) (a x : Nat) (p₂ p₃ : List Nat) (b : Nat),
      PathP gs a (p₁ ++ x :: p₂ ++ x :: p₃) b → PathP gs a (p₁ ++ x :: p₃) b := by
  intro p₁
  induction p₁ with
  | nil =>
    intro a x p₂ p₃ b h
    exact ⟨h.1, pathP_suffix gs p₂ x x p₃ b h.2⟩
  | cons y ys ih =>
    intro a x p₂ p₃ b h
    exact ⟨h.1, ih y x p₂ p₃ b h.2⟩

theorem exists_dup_split :
    ∀ (p : List Nat), ¬p.Nodup → ∃ x p₁ p₂ p₃, p = p₁ ++ x :: p₂ ++ x :: p₃ := by
  intro p
  induction p with
  | nil => intro h; exact absurd List.nodup_nil h
  | cons y ys ih =>
    intro h
    rw [List.nodup_cons] at h
    by_cases hy : y ∈ ys
    · obtain ⟨s, t, hst⟩ := List.append_of_mem hy
      exact ⟨y, [], s, t, by rw [hst]; rfl⟩
    · have hys : ¬ys.Nodup := by
        intro hnd
        exact h ⟨hy, hnd⟩
      obtain ⟨x, p₁, p₂, p₃, hx⟩ := ih hys
      exact ⟨x, y :: p₁, p₂, p₃, by rw [hx]; rfl⟩

theorem pathP_compress (gs : GS) :
    ∀ (n : Nat) (p : List Nat) (a b : Nat), p.length ≤ n → PathP gs a p b →
      ∃ q, PathP gs a q b ∧ q.Nodup ∧ a ∉ q := by
  intro n
  induction n with
  | zero =>
    intro p a b hlen h
    have : p = [] := List.eq_nil_of_length_eq_zero (by omega)
    subst this
    exact ⟨[], h, List.nodup_nil, by simp⟩
  | succ n ih =>
    intro p a b hlen h
    by_cases ha : a ∈ p
    · obtain ⟨s, t, hst⟩ := List.append_of_mem ha
      subst hst
      have h2 := pathP_suffix gs s a a t b h
      rw [List.length_append, List.length_cons] at hlen
      exact ih t a b (by omega) h2
    · by_cases hnd : p.Nodup
      · exact ⟨p, h, hnd, ha⟩
      · obtain ⟨x, p₁, p₂, p₃, hx⟩ := exists_dup_split p hnd
        subst hx
        have h2 := pathP_dedup_cut gs p₁ a x p₂ p₃ b h
        have hlen2 : (p₁ ++ x :: p₃).length ≤ n := by
          simp [List.length_append] at hlen ⊢
          omega
        have ha2 : a ∉ p₁ ++ x :: p₃ := by
          intro hmem
          apply ha
          simp [List.mem_append, List.mem_cons] at hmem ⊢
          tauto
        exact ih (p₁ ++ x :: p₃) a b hlen2 h2

theorem nodup_lt_length_le (len : Nat) :
    ∀ (q : List Nat), q.Nodup → (∀ x ∈ q, x < len) → q.length ≤ len := by
  intro q hnd hlt
  have hsub : q ⊆ List.range len := by
    intro x hx
    rw [List.mem_range]
    exact hlt x hx
  have := (hnd.subperm hsub).length_le
  rwa [List.length_range] at this

theorem sat_derives (gs : GS) :
    ∀ (f : Nat) (a b : Nat), derivesFromFuel gs f a b = true → derives gs a b = true := by
  intro f a b h
  obtain ⟨p, hp⟩ := fuel_pathP gs f a b h
  obtain ⟨q, hq, hnd, _⟩ := pathP_compress gs p.length p a b (Nat.le_refl _) hp
  have hlen : q.length ≤ gs.length :=
    nodup_lt_length_le gs.length q hnd (pathP_mem_lt gs q a b hq)
  exact derivesFromFuel_mono gs (q.length + 1) (gs.length + 1) a b (by omega)
    (pathP_fuel gs q a b hq)

theorem edge_derives (gs : GS) (a b : Nat) (h : Edge gs a b) : derives gs a b = true :=
  sat_derives gs 1 a b (pathP_fuel gs [] a b h)

theorem pathP_append (gs : GS) :
    ∀ (p₁ : List Nat) (a m : Nat) (p₂ : List Nat) (b : Nat),
      PathP gs a p₁ m → PathP gs m p₂ b → PathP gs a (p₁ ++ m :: p₂) b := by
  intro p₁
  induction p₁ with
  | nil => intro a m p₂ b h1 h2; exact ⟨h1, h2⟩
  | cons y ys ih => intro a m p₂ b h1 h2; exact ⟨h1.1, ih y m p₂ b h1.2 h2⟩

theorem derives_trans (gs : GS) (a m b : Nat) (h1 : derives gs a m = true)
    (h2 : derives gs m b = true) : derives gs a b = true := by
  obtain ⟨p₁, hp₁⟩ := fuel_pathP gs _ a m h1
  obtain ⟨p₂, hp₂⟩ := fuel_pathP gs _ m b h2
  have := pathP_append gs p₁ a m p₂ b hp₁ hp₂
  exact sat_derives gs _ a b (pathP_fuel gs _ a b this)

theorem pathP_reaches_mem (gs : GS) :
    ∀ (p : List Nat) (a b : Nat), PathP gs a p b → ∀ x ∈ p, derives gs a x = true := by
  intro p
  induction p with
  | nil => intro a b h x hx; cases hx
  | cons y ys ih =>
    intro a b h x hx
    rcases List.mem_cons.mp hx with hxy | hxs
    · subst hxy
      exact edge_derives gs a x h.1
    · exact derives_trans gs a y x (edge_derives gs a y h.1) (ih y b h.2 x hxs)

theorem acyclic_derives (gs : GS) (h : Acyclic gs) : ∀ n, derives gs n n = false := by
  intro n
  by_cases hn : n < gs.length
  · exact h n hn
  · exact derivesFromFuel_out_of_range gs n n (Nat.le_of_not_lt hn) _

theorem edge_transport (g g' : GS) (c : Nat)
    (hsame : ∀ u, u ≠ c → getInfo g' u = getInfo g u) (a v : Nat) (ha : a ≠ c)
    (h : Edge g' a v) : Edge g a v := by
  unfold Edge at h ⊢
  rw [← hsame a ha]
  exact h

theorem cover_le (g g' : GS) (c : Nat)
    (hsame : ∀ u, u ≠ c → getInfo g' u = getInfo g u)
    (hcov : ∀ v, Edge g' c v → derives g c v = true) :
    ∀ f a b, derivesFromFuel g' f a b = true → derives g a b = true := by
  intro f
  induction f with
  | zero => intro a b h; cases h
  | succ f ih =>
    intro a b h
    rw [derivesFromFuel, Bool.or_eq_true] at h
    rcases h with h | h
    · rw [List.any_eq_true] at h
      obtain ⟨m, hm, hmb⟩ := h
      have hedge : Edge g' a m := Or.inl hm
      have hgam : derives g a m = true := by
        by_cases hac : a = c
        · subst hac
          exact hcov m hedge
        · exact edge_derives g a m (edge_transport g g' c hsame a m hac hedge)
      rw [Bool.or_eq_true] at hmb
      rcases hmb with hb | hrec
      · rw [beq_iff_eq] at hb
        subst hb
        exact hgam
      · exact derives_trans g a m b hgam (ih m b hrec)
    · split at h
      · rename_i s hs
        have hedge : Edge g' a s := Or.inr hs
        have hgas : derives g a s = true := by
          by_cases hac : a = c
          · subst hac
            exact hcov s hedge
          · exact edge_derives g a s (edge_transport g g' c hsame a s hac hedge)
        rw [Bool.or_eq_true] at h
        rcases h with hb | hrec
        · rw [beq_iff_eq] at hb
          subst hb
          exact hgas
        · exact derives_trans g a s b hgas (ih s b hrec)
      · cases h

theorem pathP_transport_cfree (g g' : GS) (c : Nat)
    (hsame : ∀ u, u ≠ c → getInfo g' u = getInfo g u) :
    ∀ (p : List Nat) (a b : Nat), a ≠ c → (∀ x ∈ p, x ≠ c) → PathP g a p b →
      PathP g' a p b := by
  intro p
  induction p with
  | nil =>
    intro a b ha _ h
    show Edge g' a b
    unfold Edge
    rw [hsame a ha]
    exact h
  | cons x xs ih =>
    intro a b ha hp h
    refine ⟨?_, ih x b (hp x (List.mem_cons_self x xs))
      (fun y hy => hp y (List.mem_cons_of_mem x hy)) h.2⟩
    show Edge g' a x
    unfold Edge
    rw [hsame a ha]
    exact h.1

theorem writeback_ge (g g' : GS) (c : Nat)
    (hsame : ∀ u, u ≠ c → getInfo g' u = getInfo g u)
    (hsup : (getInfo g' c).superClass = (getInfo g c).superClass)
    (hacy : ∀ n, derives g n n = false)
    (hcov : ∀ v, Edge g c v → Edge g' c v ∨
      ∃ p, (getInfo g c).superClass = some p ∧ derives g p v = true) :
    ∀ a b, derives g a b = true → derives g' a b = true := by
  have htrans_cfree : ∀ p v, (getInfo g c).superClass = some p → derives g p v = true →
      derives g' p v = true := by
    intro p v hp hpv
    have hecp : Edge g c p := Or.inr hp
    have hpc : p ≠ c := by
      intro hc2
      rw [hc2] at hecp
      have h1 := edge_derives g c c hecp
      rw [hacy c] at h1
      cases h1
    obtain ⟨q, hq⟩ := fuel_pathP g _ p v hpv
    obtain ⟨q₂, hq₂, hnd, hpq⟩ := pathP_compress g q.length q p v (Nat.le_refl _) hq
    have hcfree : ∀ x ∈ q₂, x ≠ c := by
      intro x hx hxc
      subst hxc
      have h1 := pathP_reaches_mem g q₂ p v hq₂ x hx
      have h2 := edge_derives g x p hecp
      have h3 := derives_trans g x p x h2 h1
      rw [hacy x] at h3
      cases h3
    have h4 := pathP_transport_cfree g g' c hsame q₂ p v hpc hcfree hq₂
    exact sat_derives g' _ p v (pathP_fuel g' q₂ p v h4)
  have main : ∀ (q : List Nat) (a b : Nat), q.Nodup → a ∉ q → PathP g a q b →
      derives g' a b = true := by
    intro q
    induction q with
    | nil =>
      intro a b _ _ h
      by_cases hac : a = c
      · subst hac
        rcases hcov b h with he | ⟨p, hp, hpb⟩
        · exact edge_derives g' a b he
        · have h1 : Edge g' a p := Or.inr (by rw [hsup]; exact hp)
          exact derives_trans g' a p b (edge_derives g' a p h1) (htrans_cfree p b hp hpb)
      · exact edge_derives g' a b (by unfold Edge; rw [hsame a hac]; exact h)
    | cons x xs ih =>
      intro a b hnd hna h
      have hxb : derives g' x b = true := ih x b (List.nodup_cons.mp hnd).2
        (List.nodup_cons.mp hnd).1 h.2
      have hax : derives g' a x = true := by
        by_cases hac : a = c
        · subst hac
          rcases hcov x h.1 with he | ⟨p, hp, hpx⟩
          · exact edge_derives g' a x he
          · have h1 : Edge g' a p := Or.inr (by rw [hsup]; exact hp)
            exact derives_trans g' a p x (edge_derives g' a p h1) (htrans_cfree p x hp hpx)
        · exact edge_derives g' a x (by unfold Edge; rw [hsame a hac]; exact h.1)
      exact derives_trans g' a x b hax hxb
  intro a b hab
  obtain ⟨p, hp⟩ := fuel_pathP g _ a b hab
  obtain ⟨q, hq, hnd, hna⟩ := pathP_compress g p.length p a b (Nat.le_refl _) hp
  exact main q a b hnd hna hq

theorem setMixins_eqReach (gs : GS) (c : Nat) (N : List Nat)
    (hacy : ∀ n, derives gs n n = false)
    (hcovN : ∀ v, v ∈ N → derives gs c v = true)
    (hold : ∀ v, v ∈ (getInfo gs c).mixins → v ∈ N ∨
      (getInfo gs c).superClass = some v ∨
      ∃ p, (getInfo gs c).superClass = some p ∧ derives gs p v = true) :
    ∀ a b, derives (setMixinsAndLatch gs c N) a b = derives gs a b := by
  by_cases hc : c < gs.length
  · have hsame : ∀ u, u ≠ c → getInfo (setMixinsAndLatch gs c N) u = getInfo gs u :=
      fun u hu => getInfo_set_ne gs c u N (fun hh => hu hh.symm)
    have hself := getInfo_set_self gs c N hc
    have hsup : (getInfo (setMixinsAndLatch gs c N) c).superClass =
        (getInfo gs c).superClass := by rw [hself]
    have hmix2 : (getInfo (setMixinsAndLatch gs c N) c).mixins = N := by rw [hself]
    have hcovUp : ∀ v, Edge (setMixinsAndLatch gs c N) c v → derives gs c v = true := by
      intro v hv
      rcases hv with hv | hv
      · rw [hmix2] at hv
        exact hcovN v hv
      · rw [hsup] at hv
        exact edge_derives gs c v (Or.inr hv)
    have hcovDn : ∀ v, Edge gs c v → Edge (setMixinsAndLatch gs c N) c v ∨
        ∃ p, (getInfo gs c).superClass = some p ∧ derives gs p v = true := by
      intro v hv
      rcases hv with hv | hv
      · rcases hold v hv with h | h | h
        · exact Or.inl (Or.inl (by rw [hmix2]; exact h))
        · exact Or.inl (Or.inr (by rw [hsup]; exact h))
        · exact Or.inr h
      · exact Or.inl (Or.inr (by rw [hsup]; exact hv))
    intro a b
    by_cases h1 : derives gs a b = true
    · rw [h1]
      exact writeback_ge gs (setMixinsAndLatch gs c N) c hsame hsup hacy hcovDn a b h1
    · cases hgp : derives (setMixinsAndLatch gs c N) a b
      · cases hgs : derives gs a b
        · rfl
        · exact absurd hgs h1
      · exact absurd (cover_le gs (setMixinsAndLatch gs c N) c hsame hcovUp _ a b hgp) h1
  · have hnoop : setMixinsAndLatch gs c N = gs := by
      unfold setMixinsAndLatch
      exact List.set_eq_of_length_le (Nat.le_of_not_lt hc)
    rw [hnoop]
    intro a b
    rfl

theorem stInv_refl (gs : GS) : StInv gs gs := ⟨rfl, fun _ => Or.inl rfl⟩

theorem stInv_trans (a b c : GS) (h1 : StInv a b) (h2 : StInv b c) : StInv a c := by
  refine ⟨h2.1.trans h1.1, ?_⟩
  intro i
  rcases h2.2 i with h | h
  · rw [h]
    exact h1.2 i
  · rcases h1.2 i with h' | h'
    · right
      rw [← h']
      exact h
    · right
      exact ⟨h.1, h.2.1.trans h'.2.1, h.2.2.trans h'.2.2⟩

theorem stInv_set (gs : GS) (c : Nat) (N : List Nat) :
    StInv gs (setMixinsAndLatch gs c N) := by
  constructor
  · exact List.length_set gs c _
  · intro i
    by_cases hic : i = c
    · subst hic
      by_cases hlt : i < gs.length
      · right
        rw [getInfo_set_self gs i N hlt]
        exact ⟨rfl, rfl, rfl⟩
      · left
        have hnoop : setMixinsAndLatch gs i N = gs := by
          unfold setMixinsAndLatch
          exact List.set_eq_of_length_le (Nat.le_of_not_lt hlt)
        rw [hnoop]
    · left
      exact getInfo_set_ne gs c i N (fun hh => hic hh.symm)

theorem stInv_sup (g g' : GS) (h : StInv g g') (i : Nat) :
    (getInfo g' i).superClass = (getInfo g i).superClass := by
  rcases h.2 i with h' | h'
  · rw [h']
  · exact h'.2.1

theorem stInv_mod (g g' : GS) (h : StInv g g') (i : Nat) :
    (getInfo g' i).isModule = (getInfo g i).isModule := by
  rcases h.2 i with h' | h'
  · rw [h']
  · exact h'.2.2

theorem stInv_run : ∀ fuel : Nat,
    (∀ gs c gs' info, computeClassLinearization fuel gs c = Except.ok (gs', info) →
      StInv gs gs') ∧
    (∀ gs c todo L gs' L', processMixins fuel gs c todo L = Except.ok (gs', L') →
      StInv gs gs') ∧
    (∀ gs info gs' out, fullLinearizationSlow fuel gs info = Except.ok (gs', out) →
      StInv gs gs') ∧
    (∀ gs info acc gs' out, fullLinImpl fuel gs info acc = Except.ok (gs', out) →
      StInv gs gs') ∧
    (∀ gs ms acc gs' out, fullLinMixins fuel gs ms acc = Except.ok (gs', out) →
      StInv gs gs') := by
  intro fuel
  induction fuel with
  | zero =>
    refine ⟨?_, ?_, ?_, ?_, ?_⟩
    · intro gs c gs' info h
      rw [computeClassLinearization] at h
      cases h
    · intro gs c todo L gs' L' h
      cases todo with
      | nil =>
        rw [processMixins] at h
        cases h
        exact stInv_refl gs
      | cons m rest =>
        rw [processMixins] at h
        cases h
    · intro gs info gs' out h
      rw [fullLinearizationSlow] at h
      cases h
    · intro gs info acc gs' out h
      rw [fullLinImpl] at h
      cases h
    · intro gs ms acc gs' out h
      cases ms with
      | nil =>
        rw [fullLinMixins] at h
        cases h
        exact stInv_refl gs
      | cons m rest =>
        rw [fullLinMixins] at h
        cases h
  | succ fuel ih =>
    obtain ⟨ihC, ihP, ihS, ihI, ihM⟩ := ih
    refine ⟨?_, ?_, ?_, ?_, ?_⟩
    · intro gs c gs' info h
      rw [computeClassLinearization] at h
      split at h
      · cases h
        exact stInv_refl gs
      · cases hsc : (getInfo gs c).superClass with
        | none =>
          rw [hsc] at h
          simp only [] at h
          split at h
          · cases h
          · rename_i gs₃ N hpm
            cases h
            exact stInv_trans _ _ _ (ihP gs c _ [] gs₃ N hpm) (stInv_set gs₃ c N)
        | some s =>
          rw [hsc] at h
          simp only [] at h
          split at h
          · cases h
          · rename_i gs₂ hAS
            split at hAS
            · cases hAS
            · rename_i gs₂x lin hcs
              cases hAS
              split at h
              · cases h
              · rename_i gs₃ N hpm
                cases h
                exact stInv_trans _ _ _ (ihC gs s gs₂ lin hcs)
                  (stInv_trans _ _ _ (ihP gs₂ c _ [] gs₃ N hpm) (stInv_set gs₃ c N))
    · intro gs c todo L gs' L' h
      cases todo with
      | nil =>
        rw [processMixins] at h
        cases h
        exact stInv_refl gs
      | cons m rest =>
        rw [processMixins] at h
        split at h
        · exact ihP gs c rest L gs' L' h
        · split at h
          · exact ihP gs c rest _ gs' L' h
          · split at h
            · cases h
            · rename_i gs₂ lin hcm
              split at h
              · split at h
                · cases h
                · rename_i gs₃ allM hfl
                  exact stInv_trans _ _ _ (ihC gs m gs₂ lin hcm)
                    (stInv_trans _ _ _ (ihS gs₂ lin gs₃ allM hfl)
                      (ihP gs₃ c rest _ gs' L' h))
              · split at h
                · cases h
                · rename_i nm pos hma
                  split at h
                  · cases h
                  · rename_i nm₂ pos₂ hac
                    exact stInv_trans _ _ _ (ihC gs m gs₂ lin hcm)
                      (ihP gs₂ c rest nm₂ gs' L' h)
    · intro gs info gs' out h
      rw [fullLinearizationSlow] at h
      exact ihI gs info [] gs' out h
    · intro gs info acc gs' out h
      rw [fullLinImpl] at h
      split at h
      · cases h
      · rename_i gs₂ acc₃ hfm
        cases hsc : info.superClass with
        | none =>
          rw [hsc] at h
          simp only [] at h
          cases h
          exact ihM gs info.mixins _ gs' out hfm
        | some s =>
          rw [hsc] at h
          simp only [] at h
          split at h
          · cases h
            exact ihM gs info.mixins _ gs' out hfm
          · split at h
            · cases h
            · rename_i gs₃ i hcs
              exact stInv_trans _ _ _ (ihM gs info.mixins _ gs₂ acc₃ hfm)
                (stInv_trans _ _ _ (ihC gs₂ s gs₃ i hcs) (ihI gs₃ i acc₃ gs' out h))
    · intro gs ms acc gs' out h
      cases ms with
      | nil =>
        rw [fullLinMixins] at h
        cases h
        exact stInv_refl gs
      | cons m rest =>
        rw [fullLinMixins] at h
        split at h
        · exact ihM gs rest acc gs' out h
        · split at h
          · exact ihM gs rest _ gs' out h
          · split at h
            · cases h
            · rename_i gs₂ i hcm
              split at h
              · cases h
              · rename_i gs₃ acc₂ hfi
                exact stInv_trans _ _ _ (ihC gs m gs₂ i hcm)
                  (stInv_trans _ _ _ (ihI gs₂ i acc gs₃ acc₂ hfi)
                    (ihM gs₃ rest acc₂ gs' out h))

theorem eqR_refl (g : GS) : EqR g g := fun _ _ => rfl

theorem eqR_trans (a b c : GS) (h1 : EqR a b) (h2 : EqR b c) : EqR a c :=
  fun x y => (h2 x y).trans (h1 x y)

theorem eqR_true (g g' : GS) (h : EqR g g') (a b : Nat) (hd : derives g a b = true) :
    derives g' a b = true := by
  rw [h a b]
  exact hd

theorem eqR_false (g g' : GS) (h : EqR g g') (a b : Nat) (hd : derives g a b = false) :
    derives g' a b = false := by
  rw [h a b]
  exact hd

theorem eqR_back (g g' : GS) (h : EqR g g') (a b : Nat) (hd : derives g' a b = true) :
    derives g a b = true := by
  rw [← h a b]
  exact hd

theorem eqR_acy (g g' : GS) (h : EqR g g') (ha : ∀ n, derives g n n = false) :
    ∀ n, derives g' n n = false := fun n => by
  rw [h n n]
  exact ha n

theorem derives_false_of_acy (gs : GS) (hacy : ∀ n, derives gs n n = false)
    (a b : Nat) (hab : derives gs a b = true) : derives gs b a = false := by
  cases hv : derives gs b a
  · rfl
  · have := derives_trans gs a b a hab hv
    rw [hacy a] at this
    cases this

theorem derives_ne_of_acy (gs : GS) (hacy : ∀ n, derives gs n n = false)
    (a b : Nat) (hab : derives gs a b = true) : b ≠ a := by
  intro he
  rw [he] at hab
  rw [hacy a] at hab
  cases hab

theorem indexOf?_mem (l : List Nat) (a : Nat) (i : Nat) (h : l.indexOf? a = some i) :
    a ∈ l := by
  by_contra hc
  have hnone : l.indexOf? a = none := List.indexOf?_eq_none_iff.mpr (by
    intro b hb
    by_contra hbeq
    simp at hbeq
    subst hbeq
    exact hc hb)
  rw [hnone] at h
  cases h

theorem maybeAddMixin_mono_prov {gs : GS} {forSym mixin pos : Nat}
    {parent : Option Nat} {L L' : List Nat} {pos' : Nat}
    (h : maybeAddMixin gs forSym L mixin parent pos = Except.ok (L', pos')) :
    (∀ x ∈ L, x ∈ L') ∧ (∀ x ∈ L', x ∈ L ∨ x = mixin) := by
  unfold maybeAddMixin at h
  split at h
  · cases h
  · split at h
    · cases h
      exact ⟨fun x hx => hx, fun x hx => Or.inl hx⟩
    · split at h
      · split at h
        · cases h
          exact ⟨fun x hx => hx, fun x hx => Or.inl hx⟩
        · cases h
          exact ⟨fun x hx => hx, fun x hx => Or.inl hx⟩
      · cases h
        by_cases hpos : pos ≤ L.length
        · have hperm := insertIdx_perm_cons pos L mixin hpos
          constructor
          · intro x hx
            exact hperm.mem_iff.mpr (List.mem_cons.mpr (Or.inr hx))
          · intro x hx
            rcases List.mem_cons.mp (hperm.mem_iff.mp hx) with hx' | hx'
            · exact Or.inr hx'
            · exact Or.inl hx'
        · rw [List.insertIdx_of_length_lt _ _ _ (Nat.lt_of_not_le hpos)]
          exact ⟨fun x hx => hx, fun x hx => Or.inl hx⟩

theorem maybeAddMixin_hit {gs : GS} {forSym mixin : Nat} {parent : Option Nat}
    {L L' : List Nat} {pos' : Nat}
    (h : maybeAddMixin gs forSym L mixin parent 0 = Except.ok (L', pos')) :
    mixin ∈ L' ∨ derivesOpt gs parent mixin = true := by
  unfold maybeAddMixin at h
  split at h
  · cases h
  · split at h
    · rename_i hder
      cases h
      exact Or.inr hder
    · split at h
      · rename_i newPos hidx
        split at h
        · cases h
          exact Or.inl (indexOf?_mem L mixin newPos hidx)
        · cases h
          exact Or.inl (indexOf?_mem L mixin newPos hidx)
      · cases h
        exact Or.inl (List.mem_cons_self mixin L)

theorem addMixinComponents_mem {gs : GS} {forSym : Nat} {parent : Option Nat} :
    ∀ {comps L : List Nat} {pos : Nat} {L' : List Nat} {pos' : Nat},
    addMixinComponents gs forSym parent comps L pos = Except.ok (L', pos') →
    (∀ x ∈ L, x ∈ L') ∧ (∀ x ∈ L', x ∈ L ∨ x ∈ comps) := by
  intro comps
  induction comps with
  | nil =>
    intro L pos L' pos' h
    cases h
    exact ⟨fun x hx => hx, fun x hx => Or.inl hx⟩
  | cons c rest ih =>
    intro L pos L' pos' h
    rw [addMixinComponents] at h
    split at h
    · cases h
    · rename_i p heq
      obtain ⟨hmono, hprov⟩ := maybeAddMixin_mono_prov heq
      obtain ⟨hmono2, hprov2⟩ := ih h
      constructor
      · exact fun x hx => hmono2 x (hmono x hx)
      · intro x hx
        rcases hprov2 x hx with hx' | hx'
        · rcases hprov x hx' with hx2 | hx2
          · exact Or.inl hx2
          · exact Or.inr (by rw [hx2]; exact List.mem_cons_self c rest)
        · exact Or.inr (List.mem_cons_of_mem c hx')

theorem big_run : ∀ fuel : Nat,
    (∀ gs c gs' info, (∀ n, derives gs n n = false) →
      computeClassLinearization fuel gs c = Except.ok (gs', info) →
      EqR gs gs' ∧
      (∀ i, i ≠ c → derives gs c i = false → getInfo gs' i = getInfo gs i) ∧
      info.klass = c ∧
      info.mixins = (getInfo gs' c).mixins ∧
      info.superClass = (getInfo gs' c).superClass) ∧
    (∀ gs c todo L gs' L', (∀ n, derives gs n n = false) →
      (∀ m ∈ todo, derives gs c m = true) →
      processMixins fuel gs c todo L = Except.ok (gs', L') →
      EqR gs gs' ∧
      (∀ i, derives gs c i = false → getInfo gs' i = getInfo gs i) ∧
      (∀ x ∈ L, x ∈ L') ∧
      (∀ x ∈ L', x ∈ L ∨ derives gs c x = true) ∧
      (∀ m ∈ todo, m ∈ L' ∨ (getInfo gs c).superClass = some m ∨
        ∃ p, (getInfo gs c).superClass = some p ∧ derives gs p m = true)) ∧
    (∀ gs r info gs' out, (∀ n, derives gs n n = false) →
      derives gs r info.klass = true →
      (∀ x ∈ info.mixins, derives gs r x = true) →
      (∀ s, info.superClass = some s → derives gs r s = true) →
      fullLinearizationSlow fuel gs info = Except.ok (gs', out) →
      EqR gs gs' ∧
      (∀ i, derives gs r i = false → getInfo gs' i = getInfo gs i) ∧
      (∀ x ∈ out, derives gs r x = true) ∧
      info.klass ∈ out) ∧
    (∀ gs r info acc gs' out, (∀ n, derives gs n n = false) →
      derives gs r info.klass = true →
      (∀ x ∈ info.mixins, derives gs r x = true) →
      (∀ s, info.superClass = some s → derives gs r s = true) →
      fullLinImpl fuel gs info acc = Except.ok (gs', out) →
      EqR gs gs' ∧
      (∀ i, derives gs r i = false → getInfo gs' i = getInfo gs i) ∧
      (∀ x ∈ acc, x ∈ out) ∧
      (∀ x ∈ out, x ∈ acc ∨ derives gs r x = true) ∧
      info.klass ∈ out) ∧
    (∀ gs r ms acc gs' out, (∀ n, derives gs n n = false) →
      (∀ m ∈ ms, derives gs r m = true) →
      fullLinMixins fuel gs ms acc = Except.ok (gs', out) →
      EqR gs gs' ∧
      (∀ i, derives gs r i = false → getInfo gs' i = getInfo gs i) ∧
      (∀ x ∈ acc, x ∈ out) ∧
      (∀ x ∈ out, x ∈ acc ∨ derives gs r x = true)) := by
  intro fuel
  induction fuel with
  | zero =>
    refine ⟨?_, ?_, ?_, ?_, ?_⟩
    · intro gs c gs' info _ h
      rw [computeClassLinearization] at h
      cases h
    · intro gs c todo L gs' L' _ _ h
      cases todo with
      | nil =>
        rw [processMixins] at h
        cases h
        exact ⟨eqR_refl gs, fun i _ => rfl, fun x hx => hx, fun x hx => Or.inl hx,
          fun m hm => absurd hm (List.not_mem_nil m)⟩
      | cons m rest =>
        rw [processMixins] at h
        cases h
    · intro gs r info gs' out _ _ _ _ h
      rw [fullLinearizationSlow] at h
      cases h
    · intro gs r info acc gs' out _ _ _ _ h
      rw [fullLinImpl] at h
      cases h
    · intro gs r ms acc gs' out _ _ h
      cases ms with
      | nil =>
        rw [fullLinMixins] at h
        cases h
        exact ⟨eqR_refl gs, fun i _ => rfl, fun x hx => hx, fun x hx => Or.inl hx⟩
      | cons m rest =>
        rw [fullLinMixins] at h
        cases h
  | succ fuel ih =>
    obtain ⟨ihC, ihP, ihS, ihI, ihM⟩ := ih
    refine ⟨?_, ?_, ?_, ?_, ?_⟩
    · -- computeClassLinearization
      intro gs c gs' info hacy h
      rw [computeClassLinearization] at h
      split at h
      · cases h
        exact ⟨eqR_refl gs, fun i _ _ => rfl, rfl, rfl, rfl⟩
      · rename_i hlat
        have hlatf : (getInfo gs c).linComputed = false := by
          cases hv : (getInfo gs c).linComputed
          · rfl
          · exact absurd hv hlat
        have hclen : c < gs.length := by
          by_contra hcon
          rw [getInfo_outOfRange gs c (Nat.le_of_not_lt hcon)] at hlatf
          cases hlatf
        cases hsc : (getInfo gs c).superClass with
        | none =>
          rw [hsc] at h
          simp only [] at h
          split at h
          · cases h
          · rename_i gs₃ N hpm
            have htodo : ∀ m ∈ (getInfo gs c).mixins, derives gs c m = true :=
              fun m hm => edge_derives gs c m (Or.inl hm)
            obtain ⟨hEqP, hUntP, hMonoP, hCovP, hOldP⟩ :=
              ihP gs c _ [] gs₃ N hacy htodo hpm
            have hacy₃ : ∀ n, derives gs₃ n n = false := eqR_acy _ _ hEqP hacy
            have hcc₃ : getInfo gs₃ c = getInfo gs c := hUntP c (hacy c)
            have hcovN : ∀ v, v ∈ N → derives gs₃ c v = true := by
              intro v hv
              rcases hCovP v hv with hx | hx
              · cases hx
              · exact eqR_true _ _ hEqP c v hx
            have hold : ∀ v, v ∈ (getInfo gs₃ c).mixins → v ∈ N ∨
                (getInfo gs₃ c).superClass = some v ∨
                ∃ p, (getInfo gs₃ c).superClass = some p ∧ derives gs₃ p v = true := by
              intro v hv
              rw [hcc₃] at hv
              rcases hOldP v hv with h1 | h1 | h1
              · exact Or.inl h1
              · exact Or.inr (Or.inl (by rw [hcc₃]; exact h1))
              · obtain ⟨p, hp1, hp2⟩ := h1
                exact Or.inr (Or.inr ⟨p, by rw [hcc₃]; exact hp1,
                  eqR_true _ _ hEqP p v hp2⟩)
            have hW := setMixins_eqReach gs₃ c N hacy₃ hcovN hold
            have hclen₃ : c < gs₃.length := by
              have hst := ((stInv_run fuel).2.1) gs c _ [] gs₃ N hpm
              rw [hst.1]
              exact hclen
            cases h
            refine ⟨eqR_trans _ _ _ hEqP hW, ?_, rfl, ?_, rfl⟩
            · intro i hic hder
              rw [getInfo_set_ne gs₃ c i N (fun hh => hic hh.symm)]
              exact hUntP i hder
            · show N = (getInfo (setMixinsAndLatch gs₃ c N) c).mixins
              rw [getInfo_set_self gs₃ c N hclen₃]
        | some s =>
          rw [hsc] at h
          simp only [] at h
          split at h
          · cases h
          · rename_i gs₂ hAS
            split at hAS
            · cases hAS
            · rename_i gs₂x lin hcs
              cases hAS
              split at h
              · cases h
              · rename_i gs₃ N hpm
                have hdcs : derives gs c s = true := edge_derives gs c s (Or.inr hsc)
                obtain ⟨hEqS, hUntS, _, _, _⟩ := ihC gs s gs₂ lin hacy hcs
                have hcne : c ≠ s := Ne.symm (derives_ne_of_acy gs hacy c s hdcs)
                have hcsf : derives gs s c = false := derives_false_of_acy gs hacy c s hdcs
                have hcc₂ : getInfo gs₂ c = getInfo gs c := hUntS c hcne hcsf
                have hacy₂ : ∀ n, derives gs₂ n n = false := eqR_acy _ _ hEqS hacy
                have htodo₂ : ∀ m ∈ (getInfo gs₂ c).mixins, derives gs₂ c m = true :=
                  fun m hm => edge_derives gs₂ c m (Or.inl hm)
                obtain ⟨hEqP, hUntP, hMonoP, hCovP, hOldP⟩ :=
                  ihP gs₂ c _ [] gs₃ N hacy₂ htodo₂ hpm
                have hEq3 : EqR gs gs₃ := eqR_trans _ _ _ hEqS hEqP
                have hacy₃ : ∀ n, derives gs₃ n n = false := eqR_acy _ _ hEq3 hacy
                have hcc₃ : getInfo gs₃ c = getInfo gs₂ c := hUntP c (hacy₂ c)
                have hcovN : ∀ v, v ∈ N → derives gs₃ c v = true := by
                  intro v hv
                  rcases hCovP v hv with hx | hx
                  · cases hx
                  · exact eqR_true _ _ hEqP c v hx
                have hold : ∀ v, v ∈ (getInfo gs₃ c).mixins → v ∈ N ∨
                    (getInfo gs₃ c).superClass = some v ∨
                    ∃ p, (getInfo gs₃ c).superClass = some p ∧
                      derives gs₃ p v = true := by
                  intro v hv
                  rw [hcc₃] at hv
                  rcases hOldP v hv with h1 | h1 | h1
                  · exact Or.inl h1
                  · exact Or.inr (Or.inl (by rw [hcc₃]; exact h1))
                  · obtain ⟨p, hp1, hp2⟩ := h1
                    exact Or.inr (Or.inr ⟨p, by rw [hcc₃]; exact hp1,
                      eqR_true _ _ hEqP p v hp2⟩)
                have hW := setMixins_eqReach gs₃ c N hacy₃ hcovN hold
                have hclen₃ : c < gs₃.length := by
                  have hst1 := ((stInv_run fuel).1) gs s gs₂ lin hcs
                  have hst2 := ((stInv_run fuel).2.1) gs₂ c _ [] gs₃ N hpm
                  rw [hst2.1, hst1.1]
                  exact hclen
                cases h
                refine ⟨eqR_trans _ _ _ hEq3 hW, ?_, rfl, ?_, rfl⟩
                · intro i hic hder
                  have hisne : i ≠ s := by
                    intro he
                    rw [he] at hder
                    rw [hdcs] at hder
                    cases hder
                  have hsif : derives gs s i = false := by
                    cases hv : derives gs s i
                    · rfl
                    · have h2 := derives_trans gs c s i hdcs hv
                      rw [hder] at h2
                      cases h2
                  rw [getInfo_set_ne gs₃ c i N (fun hh => hic hh.symm)]
                  rw [hUntP i (eqR_false _ _ hEqS c i hder)]
                  exact hUntS i hisne hsif
                · show N = (getInfo (setMixinsAndLatch gs₃ c N) c).mixins
                  rw [getInfo_set_self gs₃ c N hclen₃]
    · -- processMixins
      intro gs c todo L gs' L' hacy htodo h
      cases todo with
      | nil =>
        rw [processMixins] at h
        cases h
        exact ⟨eqR_refl gs, fun i _ => rfl, fun x hx => hx, fun x hx => Or.inl hx,
          fun m hm => absurd hm (List.not_mem_nil m)⟩
      | cons m rest =>
        have hm : derives gs c m = true := htodo m (List.mem_cons_self m rest)
        have htodoR : ∀ x ∈ rest, derives gs c x = true :=
          fun x hx => htodo x (List.mem_cons_of_mem m hx)
        rw [processMixins] at h
        split at h
        · rename_i hskip
          obtain ⟨hEq, hUnt, hMono, hCov, hOld⟩ := ihP gs c rest L gs' L' hacy htodoR h
          refine ⟨hEq, hUnt, hMono, hCov, ?_⟩
          intro m' hm'
          rcases List.mem_cons.mp hm' with he | hmem
          · subst he
            exact Or.inr (Or.inl hskip.symm)
          · exact hOld m' hmem
        · split at h
          · obtain ⟨hEq, hUnt, hMono, hCov, hOld⟩ :=
              ihP gs c rest (L ++ [m]) gs' L' hacy htodoR h
            refine ⟨hEq, hUnt, ?_, ?_, ?_⟩
            · exact fun x hx => hMono x (List.mem_append.mpr (Or.inl hx))
            · intro x hx
              rcases hCov x hx with hx' | hx'
              · rcases List.mem_append.mp hx' with h1 | h1
                · exact Or.inl h1
                · rw [List.mem_singleton] at h1
                  subst h1
                  exact Or.inr hm
              · exact Or.inr hx'
            · intro m' hm'
              rcases List.mem_cons.mp hm' with he | hmem
              · subst he
                exact Or.inl (hMono m'
                  (List.mem_append.mpr (Or.inr (List.mem_singleton.mpr rfl))))
              · exact hOld m' hmem
          · split at h
            · cases h
            · rename_i gs₂ lin hcm
              obtain ⟨hEqC, hUntC, hKl, hMx, hSp⟩ := ihC gs m gs₂ lin hacy hcm
              have hcnem : c ≠ m := Ne.symm (derives_ne_of_acy gs hacy c m hm)
              have hmcf : derives gs m c = false := derives_false_of_acy gs hacy c m hm
              have hcc₂ : getInfo gs₂ c = getInfo gs c := hUntC c hcnem hmcf
              have hacy₂ : ∀ n, derives gs₂ n n = false := eqR_acy _ _ hEqC hacy
              have hdc2m : derives gs₂ c m = true := eqR_true _ _ hEqC c m hm
              have hUntStep : ∀ i, derives gs c i = false →
                  getInfo gs₂ i = getInfo gs i := by
                intro i hder
                have hine : i ≠ m := by
                  intro he
                  rw [he] at hder
                  rw [hm] at hder
                  cases hder
                have hmif : derives gs m i = false := by
                  cases hv : derives gs m i
                  · rfl
                  · have h2 := derives_trans gs c m i hm hv
                    rw [hder] at h2
                    cases h2
                exact hUntC i hine hmif
              split at h
              · split at h
                · cases h
                · rename_i gs₃ allM hfl
                  have hk3 : derives gs₂ c lin.klass = true := by
                    rw [hKl]
                    exact hdc2m
                  have hm3 : ∀ x ∈ lin.mixins, derives gs₂ c x = true := by
                    intro x hx
                    rw [hMx] at hx
                    exact derives_trans gs₂ c m x hdc2m
                      (edge_derives gs₂ m x (Or.inl hx))
                  have hs3 : ∀ s', lin.superClass = some s' →
                      derives gs₂ c s' = true := by
                    intro s' hs'
                    rw [hSp] at hs'
                    exact derives_trans gs₂ c m s' hdc2m
                      (edge_derives gs₂ m s' (Or.inr hs'))
                  obtain ⟨hEqS, hUntS, hCovS, hKlM⟩ :=
                    ihS gs₂ c lin gs₃ allM hacy₂ hk3 hm3 hs3 hfl
                  have hEq3 : EqR gs gs₃ := eqR_trans _ _ _ hEqC hEqS
                  have hacy₃ : ∀ n, derives gs₃ n n = false := eqR_acy _ _ hEq3 hacy
                  have htodoR₃ : ∀ x ∈ rest, derives gs₃ c x = true :=
                    fun x hx => eqR_true _ _ hEq3 c x (htodoR x hx)
                  obtain ⟨hEqP, hUntP, hMonoP, hCovP, hOldP⟩ :=
                    ihP gs₃ c rest (allM ++ L) gs' L' hacy₃ htodoR₃ h
                  have hcc₃ : getInfo gs₃ c = getInfo gs₂ c := hUntS c (hacy₂ c)
                  refine ⟨eqR_trans _ _ _ hEq3 hEqP, ?_, ?_, ?_, ?_⟩
                  · intro i hder
                    rw [hUntP i (eqR_false _ _ hEq3 c i hder)]
                    rw [hUntS i (eqR_false _ _ hEqC c i hder)]
                    exact hUntStep i hder
                  · exact fun x hx => hMonoP x (List.mem_append.mpr (Or.inr hx))
                  · intro x hx
                    rcases hCovP x hx with hx' | hx'
                    · rcases List.mem_append.mp hx' with h1 | h1
                      · exact Or.inr (eqR_back _ _ hEqC c x (hCovS x h1))
                      · exact Or.inl h1
                    · exact Or.inr (eqR_back _ _ hEq3 c x hx')
                  · intro m' hm'
                    rcases List.mem_cons.mp hm' with he | hmem
                    · subst he
                      rw [hKl] at hKlM
                      exact Or.inl (hMonoP m' (List.mem_append.mpr (Or.inl hKlM)))
                    · rcases hOldP m' hmem with h1 | h1 | h1
                      · exact Or.inl h1
                      · rw [hcc₃, hcc₂] at h1
                        exact Or.inr (Or.inl h1)
                      · obtain ⟨p, hp1, hp2⟩ := h1
                        rw [hcc₃, hcc₂] at hp1
                        exact Or.inr (Or.inr ⟨p, hp1, eqR_back _ _ hEq3 p m' hp2⟩)
              · split at h
                · cases h
                · rename_i nm pos hma
                  split at h
                  · cases h
                  · rename_i nm₂ pos₂ hac
                    obtain ⟨hmono1, hprov1⟩ := maybeAddMixin_mono_prov hma
                    have hhit := maybeAddMixin_hit hma
                    obtain ⟨hmono2, hprov2⟩ := addMixinComponents_mem hac
                    have htodoR₂ : ∀ x ∈ rest, derives gs₂ c x = true :=
                      fun x hx => eqR_true _ _ hEqC c x (htodoR x hx)
                    obtain ⟨hEqP, hUntP, hMonoP, hCovP, hOldP⟩ :=
                      ihP gs₂ c rest nm₂ gs' L' hacy₂ htodoR₂ h
                    refine ⟨eqR_trans _ _ _ hEqC hEqP, ?_, ?_, ?_, ?_⟩
                    · intro i hder
                      rw [hUntP i (eqR_false _ _ hEqC c i hder)]
                      exact hUntStep i hder
                    · exact fun x hx => hMonoP x (hmono2 x (hmono1 x hx))
                    · intro x hx
                      rcases hCovP x hx with hx' | hx'
                      · rcases hprov2 x hx' with h1 | h1
                        · rcases hprov1 x h1 with h2 | h2
                          · exact Or.inl h2
                          · subst h2
                            exact Or.inr hm
                        · rw [hMx] at h1
                          exact Or.inr (eqR_back _ _ hEqC c x
                            (derives_trans gs₂ c m x hdc2m
                              (edge_derives gs₂ m x (Or.inl h1))))
                      · exact Or.inr (eqR_back _ _ hEqC c x hx')
                    · intro m' hm'
                      rcases List.mem_cons.mp hm' with he | hmem
                      · subst he
                        rcases hhit with h1 | h1
                        · exact Or.inl (hMonoP m' (hmono2 m' h1))
                        · cases hsup2 : (getInfo gs₂ c).superClass with
                          | none =>
                            rw [hsup2] at h1
                            unfold derivesOpt at h1
                            cases h1
                          | some p =>
                            rw [hsup2] at h1
                            unfold derivesOpt at h1
                            rw [hcc₂] at hsup2
                            exact Or.inr (Or.inr ⟨p, hsup2,
                              eqR_back _ _ hEqC p m' h1⟩)
                      · rcases hOldP m' hmem with h1 | h1 | h1
                        · exact Or.inl h1
                        · rw [hcc₂] at h1
                          exact Or.inr (Or.inl h1)
                        · obtain ⟨p, hp1, hp2⟩ := h1
                          rw [hcc₂] at hp1
                          exact Or.inr (Or.inr ⟨p, hp1, eqR_back _ _ hEqC p m' hp2⟩)
    · -- fullLinearizationSlow
      intro gs r info gs' out hacy hk hmx hsup h
      rw [fullLinearizationSlow] at h
      obtain ⟨hEq, hUnt, hMono, hCov, hKlM⟩ :=
        ihI gs r info [] gs' out hacy hk hmx hsup h
      refine ⟨hEq, hUnt, ?_, hKlM⟩
      intro x hx
      rcases hCov x hx with hx' | hx'
      · cases hx'
      · exact hx'
    · -- fullLinImpl
      intro gs r info acc gs' out hacy hk hmx hsup h
      rw [fullLinImpl] at h
      split at h
      · cases h
      · rename_i gs₂ acc₃ hfm
        obtain ⟨hEqM, hUntM, hMonoM, hCovM⟩ :=
          ihM gs r info.mixins (acc ++ [info.klass]) gs₂ acc₃ hacy hmx hfm
        have hklacc : info.klass ∈ acc ++ [info.klass] :=
          List.mem_append.mpr (Or.inr (List.mem_singleton.mpr rfl))
        have hacc₂cases : ∀ x ∈ acc₃, x ∈ acc ∨ derives gs r x = true := by
          intro x hx
          rcases hCovM x hx with hx' | hx'
          · rcases List.mem_append.mp hx' with h1 | h1
            · exact Or.inl h1
            · rw [List.mem_singleton] at h1
              subst h1
              exact Or.inr hk
          · exact Or.inr hx'
        cases hsc : info.superClass with
        | none =>
          rw [hsc] at h
          simp only [] at h
          cases h
          exact ⟨hEqM, hUntM,
            fun x hx => hMonoM x (List.mem_append.mpr (Or.inl hx)),
            hacc₂cases, hMonoM info.klass hklacc⟩
        | some s =>
          rw [hsc] at h
          simp only [] at h
          split at h
          · cases h
            exact ⟨hEqM, hUntM,
              fun x hx => hMonoM x (List.mem_append.mpr (Or.inl hx)),
              hacc₂cases, hMonoM info.klass hklacc⟩
          · split at h
            · cases h
            · rename_i gs₃ i hcs
              have hacy₂ : ∀ n, derives gs₂ n n = false := eqR_acy _ _ hEqM hacy
              have hrs : derives gs r s = true := hsup s hsc
              have hrs₂ : derives gs₂ r s = true := eqR_true _ _ hEqM r s hrs
              obtain ⟨hEqC, hUntC, hKl, hMx2, hSp2⟩ := ihC gs₂ s gs₃ i hacy₂ hcs
              have hEq3 : EqR gs gs₃ := eqR_trans _ _ _ hEqM hEqC
              have hacy₃ : ∀ n, derives gs₃ n n = false := eqR_acy _ _ hEq3 hacy
              have hrs₃ : derives gs₃ r s = true := eqR_true _ _ hEqC r s hrs₂
              have hk' : derives gs₃ r i.klass = true := by
                rw [hKl]
                exact hrs₃
              have hmx' : ∀ x ∈ i.mixins, derives gs₃ r x = true := by
                intro x hx
                rw [hMx2] at hx
                exact derives_trans gs₃ r s x hrs₃ (edge_derives gs₃ s x (Or.inl hx))
              have hsup' : ∀ s2, i.superClass = some s2 → derives gs₃ r s2 = true := by
                intro s2 hs2
                rw [hSp2] at hs2
                exact derives_trans gs₃ r s s2 hrs₃ (edge_derives gs₃ s s2 (Or.inr hs2))
              obtain ⟨hEqI, hUntI, hMonoI, hCovI, hKlI⟩ :=
                ihI gs₃ r i acc₃ gs' out hacy₃ hk' hmx' hsup' h
              refine ⟨eqR_trans _ _ _ hEq3 hEqI, ?_, ?_, ?_, ?_⟩
              · intro i' hder
                have hine : i' ≠ s := by
                  intro he
                  rw [he] at hder
                  rw [hrs] at hder
                  cases hder
                have hsif : derives gs₂ s i' = false := by
                  cases hv : derives gs₂ s i'
                  · rfl
                  · have h2 := derives_trans gs₂ r s i' hrs₂ hv
                    rw [eqR_false _ _ hEqM r i' hder] at h2
                    cases h2
                rw [hUntI i' (eqR_false _ _ hEq3 r i' hder)]
                rw [hUntC i' hine hsif]
                exact hUntM i' hder
              · exact fun x hx => hMonoI x
                  (hMonoM x (List.mem_append.mpr (Or.inl hx)))
              · intro x hx
                rcases hCovI x hx with hx' | hx'
                · exact hacc₂cases x hx'
                · exact Or.inr (eqR_back _ _ hEq3 r x hx')
              · exact hMonoI info.klass (hMonoM info.klass hklacc)
    · -- fullLinMixins
      intro gs r ms acc gs' out hacy hms h
      cases ms with
      | nil =>
        rw [fullLinMixins] at h
        cases h
        exact ⟨eqR_refl gs, fun i _ => rfl, fun x hx => hx, fun x hx => Or.inl hx⟩
      | cons m rest =>
        have hm : derives gs r m = true := hms m (List.mem_cons_self m rest)
        have hmsR : ∀ x ∈ rest, derives gs r x = true :=
          fun x hx => hms x (List.mem_cons_of_mem m hx)
        rw [fullLinMixins] at h
        split at h
        · exact ihM gs r rest acc gs' out hacy hmsR h
        · split at h
          · obtain ⟨hEq, hUnt, hMono, hCov⟩ :=
              ihM gs r rest (acc ++ [m]) gs' out hacy hmsR h
            refine ⟨hEq, hUnt, ?_, ?_⟩
            · exact fun x hx => hMono x (List.mem_append.mpr (Or.inl hx))
            · intro x hx
              rcases hCov x hx with hx' | hx'
              · rcases List.mem_append.mp hx' with h1 | h1
                · exact Or.inl h1
                · rw [List.mem_singleton] at h1
                  subst h1
                  exact Or.inr hm
              · exact Or.inr hx'
          · split at h
            · cases h
            · rename_i gs₂ i hcm
              obtain ⟨hEqC, hUntC, hKl, hMx2, hSp2⟩ := ihC gs m gs₂ i hacy hcm
              have hacy₂ : ∀ n, derives gs₂ n n = false := eqR_acy _ _ hEqC hacy
              have hm₂ : derives gs₂ r m = true := eqR_true _ _ hEqC r m hm
              have hk' : derives gs₂ r i.klass = true := by
                rw [hKl]
                exact hm₂
              have hmx' : ∀ x ∈ i.mixins, derives gs₂ r x = true := by
                intro x hx
                rw [hMx2] at hx
                exact derives_trans gs₂ r m x hm₂ (edge_derives gs₂ m x (Or.inl hx))
              have hsup' : ∀ s2, i.superClass = some s2 → derives gs₂ r s2 = true := by
                intro s2 hs2
                rw [hSp2] at hs2
                exact derives_trans gs₂ r m s2 hm₂ (edge_derives gs₂ m s2 (Or.inr hs2))
              split at h
              · cases h
              · rename_i gs₃ acc₂ hfi
                obtain ⟨hEqI, hUntI, hMonoI, hCovI, hKlI⟩ :=
                  ihI gs₂ r i acc gs₃ acc₂ hacy₂ hk' hmx' hsup' hfi
                have hEq3 : EqR gs gs₃ := eqR_trans _ _ _ hEqC hEqI
                have hacy₃ : ∀ n, derives gs₃ n n = false := eqR_acy _ _ hEq3 hacy
                have hmsR₃ : ∀ x ∈ rest, derives gs₃ r x = true :=
                  fun x hx => eqR_true _ _ hEq3 r x (hmsR x hx)
                obtain ⟨hEqM, hUntM, hMonoM, hCovM⟩ :=
                  ihM gs₃ r rest acc₂ gs' out hacy₃ hmsR₃ h
                have hUntStep : ∀ i', derives gs r i' = false →
                    getInfo gs₂ i' = getInfo gs i' := by
                  intro i' hder
                  have hine : i' ≠ m := by
                    intro he
                    rw [he] at hder
                    rw [hm] at hder
                    cases hder
                  have hmif : derives gs m i' = false := by
                    cases hv : derives gs m i'
                    · rfl
                    · have h2 := derives_trans gs r m i' hm hv
                      rw [hder] at h2
                      cases h2
                  exact hUntC i' hine hmif
                refine ⟨eqR_trans _ _ _ hEq3 hEqM, ?_, ?_, ?_⟩
                · intro i' hder
                  rw [hUntM i' (eqR_false _ _ hEq3 r i' hder)]
                  rw [hUntI i' (eqR_false _ _ hEqC r i' hder)]
                  exact hUntStep i' hder
                · exact fun x hx => hMonoM x (hMonoI x hx)
                · intro x hx
                  rcases hCovM x hx with hx' | hx'
                  · rcases hCovI x hx' with h1 | h1
                    · exact Or.inl h1
                    · exact Or.inr (eqR_back _ _ hEqC r x h1)
                  · exact Or.inr (eqR_back _ _ hEq3 r x hx')

theorem derivesOpt_eqR (g g' : GS) (h : EqR g g') (p : Option Nat) (x : Nat) :
    derivesOpt g' p x = derivesOpt g p x := by
  cases p with
  | none => rfl
  | some q => exact h q x

/-- The mixin loop of `computeClassLinearization`, run on declared mixins
that are all genuine non-stub modules (latched or not), preserves freedom
from duplicates and from superclass-redundant entries, across all the state
mutation the recursive linearizations of the mixins perform. -/
theorem processMixins_good {c : Nat} :
    ∀ (todo : List Nat) (fuel : Nat) (gs : GS) (L : List Nat) (gs' : GS) (L' : List Nat),
    (∀ n, derives gs n n = false) →
    (∀ m ∈ todo, derives gs c m = true ∧ GoodModule gs m) →
    processMixins fuel gs c todo L = Except.ok (gs', L') →
    L.Nodup → (∀ x ∈ L, derivesOpt gs ((getInfo gs c).superClass) x = false) →
    L'.Nodup ∧ ∀ x ∈ L', derivesOpt gs ((getInfo gs c).superClass) x = false := by
  intro todo
  induction todo with
  | nil =>
    intro fuel gs L gs' L' _ _ h hnd hder
    cases fuel with
    | zero =>
      rw [processMixins] at h
      cases h
      exact ⟨hnd, hder⟩
    | succ fuel =>
      rw [processMixins] at h
      cases h
      exact ⟨hnd, hder⟩
  | cons m rest ih =>
    intro fuel gs L gs' L' hacy hall h hnd hder
    cases fuel with
    | zero =>
      rw [processMixins] at h
      cases h
    | succ fuel =>
      obtain ⟨hm, hGm⟩ := hall m (List.mem_cons_self m rest)
      have hallR : ∀ x ∈ rest, derives gs c x = true ∧ GoodModule gs x :=
        fun x hx => hall x (List.mem_cons_of_mem m hx)
      rw [processMixins] at h
      split at h
      · exact ih fuel gs L gs' L' hacy hallR h hnd hder
      · split at h
        · rename_i hstub
          rcases hstub with h1 | h1
          · exact absurd h1 hGm.2.1
          · exact absurd h1 hGm.2.2
        · split at h
          · cases h
          · rename_i gs₂ lin hcm
            obtain ⟨hEqC, hUntC, hKl, hMx, hSp⟩ := (big_run fuel).1 gs m gs₂ lin hacy hcm
            have hst := ((stInv_run fuel).1) gs m gs₂ lin hcm
            split at h
            · rename_i hnm
              rw [stInv_mod gs gs₂ hst m, hGm.1] at hnm
              simp at hnm
            · split at h
              · cases h
              · rename_i nm pos hma
                split at h
                · cases h
                · rename_i nm₂ pos₂ hac
                  have hcnem : c ≠ m := Ne.symm (derives_ne_of_acy gs hacy c m hm)
                  have hmcf : derives gs m c = false :=
                    derives_false_of_acy gs hacy c m hm
                  have hcc₂ : getInfo gs₂ c = getInfo gs c := hUntC c hcnem hmcf
                  have hsupeq : (getInfo gs₂ c).superClass =
                      (getInfo gs c).superClass := by rw [hcc₂]
                  have hacy₂ : ∀ n, derives gs₂ n n = false := eqR_acy _ _ hEqC hacy
                  have hder₂ : ∀ x ∈ L,
                      derivesOpt gs₂ ((getInfo gs₂ c).superClass) x = false := by
                    intro x hx
                    rw [hsupeq, derivesOpt_eqR gs gs₂ hEqC]
                    exact hder x hx
                  obtain ⟨hnd₂, hder₂o⟩ := maybeAddMixin_inv hma hnd hder₂
                  obtain ⟨hnd₃, hder₃⟩ := addMixinComponents_inv hac hnd₂ hder₂o
                  have hallR₂ : ∀ x ∈ rest, derives gs₂ c x = true ∧ GoodModule gs₂ x := by
                    intro x hx
                    obtain ⟨hd, hG⟩ := hallR x hx
                    refine ⟨eqR_true _ _ hEqC c x hd, ?_, ?_, ?_⟩
                    · rw [stInv_mod gs gs₂ hst x]
                      exact hG.1
                    · rw [stInv_sup gs gs₂ hst x]
                      exact hG.2.1
                    · rw [stInv_sup gs gs₂ hst x]
                      exact hG.2.2
                  obtain ⟨hndf, hderf⟩ :=
                    ih fuel gs₂ nm₂ gs' L' hacy₂ hallR₂ h hnd₃ hder₃
                  refine ⟨hndf, ?_⟩
                  intro x hx
                  have h1 := hderf x hx
                  rw [hsupeq, derivesOpt_eqR gs gs₂ hEqC] at h1
                  exact h1

/-- C1 (amended): when a not-yet-linearized symbol declares only genuine
modules as mixins (module flag set, superclass not a stub sentinel — the
mixins themselves need not be linearized yet) and the ancestor graph is
acyclic, the successfully computed mixin list contains no duplicates and
omits every module the superclass already derives from. -/
theorem claim_C1_linearization_nodup {fuel : Nat} {gs gs' : GS} {c : Nat} {info : LinInfo}
    (hrun : computeClassLinearization fuel gs c = Except.ok (gs', info))
    (hlatch : (getInfo gs c).linComputed = false)
    (hacyc : Acyclic gs)
    (hmix : ∀ m ∈ (getInfo gs c).mixins, GoodModule gs m) :
    (getInfo gs' c).mixins = info.mixins ∧ info.mixins.Nodup ∧
      ∀ M, derivesOpt gs ((getInfo gs c).superClass) M = true → M ∉ info.mixins := by
  have hacy : ∀ n, derives gs n n = false := acyclic_derives gs hacyc
  have hclen : c < gs.length := by
    by_contra hcon
    rw [getInfo_outOfRange gs c (Nat.le_of_not_lt hcon)] at hlatch
    cases hlatch
  cases fuel with
  | zero =>
    rw [computeClassLinearization] at hrun
    cases hrun
  | succ fuel =>
    rw [computeClassLinearization] at hrun
    simp only [hlatch, Bool.false_eq_true, if_false] at hrun
    cases hsc : (getInfo gs c).superClass with
    | none =>
      rw [hsc] at hrun
      simp only [] at hrun
      split at hrun
      · cases hrun
      · rename_i gs₃ N hpm
        have hallgood : ∀ m ∈ (getInfo gs c).mixins,
            derives gs c m = true ∧ GoodModule gs m :=
          fun m hm => ⟨edge_derives gs c m (Or.inl hm), hmix m hm⟩
        obtain ⟨hnd, hder⟩ := processMixins_good (getInfo gs c).mixins fuel gs []
          gs₃ N hacy hallgood hpm List.nodup_nil (by intro x hx; cases hx)
        have hclen₃ : c < gs₃.length := by
          have hst := ((stInv_run fuel).2.1) gs c _ [] gs₃ N hpm
          rw [hst.1]
          exact hclen
        cases hrun
        refine ⟨?_, hnd, ?_⟩
        · show (getInfo (setMixinsAndLatch gs₃ c N) c).mixins = N
          rw [getInfo_set_self gs₃ c N hclen₃]
        · intro M hM
          simp [derivesOpt] at hM
    | some s =>
      rw [hsc] at hrun
      simp only [] at hrun
      split at hrun
      · cases hrun
      · rename_i gs₂ hAS
        split at hAS
        · cases hAS
        · rename_i gs₂x lin hcs
          cases hAS
          split at hrun
          · cases hrun
          · rename_i gs₃ N hpm
            have hdcs : derives gs c s = true := edge_derives gs c s (Or.inr hsc)
            obtain ⟨hEqS, hUntS, _, _, _⟩ := (big_run fuel).1 gs s gs₂ lin hacy hcs
            have hcne : c ≠ s := Ne.symm (derives_ne_of_acy gs hacy c s hdcs)
            have hcsf : derives gs s c = false := derives_false_of_acy gs hacy c s hdcs
            have hcc₂ : getInfo gs₂ c = getInfo gs c := hUntS c hcne hcsf
            have hacy₂ : ∀ n, derives gs₂ n n = false := eqR_acy _ _ hEqS hacy
            have hst2 := ((stInv_run fuel).1) gs s gs₂ lin hcs
            have hallgood₂ : ∀ m ∈ (getInfo gs₂ c).mixins,
                derives gs₂ c m = true ∧ GoodModule gs₂ m := by
              intro m hm
              refine ⟨edge_derives gs₂ c m (Or.inl hm), ?_⟩
              rw [hcc₂] at hm
              have hG := hmix m hm
              refine ⟨?_, ?_, ?_⟩
              · rw [stInv_mod gs gs₂ hst2 m]
                exact hG.1
              · rw [stInv_sup gs gs₂ hst2 m]
                exact hG.2.1
              · rw [stInv_sup gs gs₂ hst2 m]
                exact hG.2.2
            obtain ⟨hnd, hder⟩ := processMixins_good (getInfo gs₂ c).mixins fuel gs₂
              [] gs₃ N hacy₂ hallgood₂ hpm List.nodup_nil (by intro x hx; cases hx)
            have hclen₃ : c < gs₃.length := by
              have hst3 := ((stInv_run fuel).2.1) gs₂ c _ [] gs₃ N hpm
              rw [hst3.1, hst2.1]
              exact hclen
            cases hrun
            refine ⟨?_, hnd, ?_⟩
            · show (getInfo (setMixinsAndLatch gs₃ c N) c).mixins = N
              rw [getInfo_set_self gs₃ c N hclen₃]
            · intro M hM hMem
              have h1 := hder M hMem
              rw [show (getInfo gs₂ c).superClass = (getInfo gs c).superClass from
                by rw [hcc₂]] at h1
              rw [derivesOpt_eqR gs gs₂ hEqS] at h1
              rw [hsc] at h1
              rw [hM] at h1
              cases h1

/-- Witness for the amended C1 on the concrete arena `gsC1w`: class 3
declares the un-latched module 5 twice plus the un-latched module 6, which
its superclass already derives from; the resolved list is `[5, 7]` — the
duplicate is gone, 6 is omitted, and the expansion of 5 brought in 7. -/
theorem claim_C1_witness :
    [5, 7].Nodup ∧
      ∀ M, derivesOpt gsC1w ((getInfo gsC1w 3).superClass) M = true → M ∉ [5, 7] := by
  have h := claim_C1_linearization_nodup
    (show computeClassLinearization 10 gsC1w 3 =
      Except.ok (gsC1wDone, ⟨[5, 7], some 4, 3⟩) from rfl)
    (by decide) (by decide) (by decide)
  exact ⟨h.2.1, h.2.2⟩

/-- C1 counterexample: linearizing symbol 3 of `gsC1cex` completes normally
yet leaves the stub-superclassed mixin 4 twice in the resolved mixin list,
because the stub branch of the loop appends without any duplicate check. -/
theorem claim_C1_counterexample :
    computeClassLinearization 10 gsC1cex 3 = .ok (gsC1cexDone, ⟨[4, 4], none, 3⟩) ∧
      ¬ (getInfo gsC1cexDone 3).mixins.Nodup := by
  refine ⟨rfl, ?_⟩
  decide

/-- C3 counterexample: symbol 3 of `gsC3cex` is listed as its own mixin — a
mixin cycle — yet because its superclass is the stub sentinel the linearizer
returns normally, keeping the self-mixin in the resolved list. -/
theorem claim_C3_counterexample :
    3 ∈ (getInfo gsC3cex 3).mixins ∧
      computeClassLinearization 10 gsC3cex 3 =
        .ok (gsC3cexDone, ⟨[3], some stubSuperClassIdx, 3⟩) := by
  refine ⟨by decide, rfl⟩

/-- Core induction for C3: on an arena holding a non-stub mixin cycle between
`A` and `B` (or a direct self-mixin when `A = B`), every interpreter function
preserves the two cycle entries on success, and `computeClassLinearization`
never succeeds on either cycle member, at any fuel. -/
theorem cycle_never_ok (A B : Nat) (iA iB : ClassInfo)
    (hA : iA.linComputed = false) (hB : iB.linComputed = false)
    (hBA : B ∈ iA.mixins) (hAB : A ∈ iB.mixins)
    (hsupA : iA.superClass ≠ some B) (hsupB : iB.superClass ≠ some A)
    (hstA1 : iA.superClass ≠ some stubSuperClassIdx)
    (hstA2 : iA.superClass ≠ some stubModuleIdx)
    (hstB1 : iB.superClass ≠ some stubSuperClassIdx)
    (hstB2 : iB.superClass ≠ some stubModuleIdx) :
    ∀ n : Nat,
      (∀ gs X gsOut r, InvAB A B iA iB gs →
        computeClassLinearization n gs X = .ok (gsOut, r) → InvAB A B iA iB gsOut) ∧
      (∀ gs X todo acc gsOut r, InvAB A B iA iB gs →
        processMixins n gs X todo acc = .ok (gsOut, r) → InvAB A B iA iB gsOut) ∧
      (∀ gs info gsOut r, InvAB A B iA iB gs →
        fullLinearizationSlow n gs info = .ok (gsOut, r) → InvAB A B iA iB gsOut) ∧
      (∀ gs info acc gsOut r, InvAB A B iA iB gs →
        fullLinImpl n gs info acc = .ok (gsOut, r) → InvAB A B iA iB gsOut) ∧
      (∀ gs ms acc gsOut r, InvAB A B iA iB gs →
        fullLinMixins n gs ms acc = .ok (gsOut, r) → InvAB A B iA iB gsOut) ∧
      (∀ gs gsOut r, InvAB A B iA iB gs →
        computeClassLinearization n gs A ≠ .ok (gsOut, r)) ∧
      (∀ gs gsOut r, InvAB A B iA iB gs →
        computeClassLinearization n gs B ≠ .ok (gsOut, r)) ∧
      (∀ gs todo acc gsOut r, InvAB A B iA iB gs → B ∈ todo →
        processMixins n gs A todo acc ≠ .ok (gsOut, r)) ∧
      (∀ gs todo acc gsOut r, InvAB A B iA iB gs → A ∈ todo →
        processMixins n gs B todo acc ≠ .ok (gsOut, r)) := by
  intro n
  induction n with
  | zero =>
    refine ⟨?_, ?_, ?_, ?_, ?_, ?_, ?_, ?_, ?_⟩
    · intro gs X gsOut r _ heq
      rw [computeClassLinearization] at heq
      cases heq
    · intro gs X todo acc gsOut r hInv heq
      cases todo with
      | nil =>
        rw [processMixins] at heq
        cases heq
        exact hInv
      | cons m rest =>
        rw [processMixins] at heq
        cases heq
    · intro gs info gsOut r _ heq
      rw [fullLinearizationSlow] at heq
      cases heq
    · intro gs info acc gsOut r _ heq
      rw [fullLinImpl] at heq
      cases heq
    · intro gs ms acc gsOut r hInv heq
      cases ms with
      | nil =>
        rw [fullLinMixins] at heq
        cases heq
        exact hInv
      | cons m rest =>
        rw [fullLinMixins] at heq
        cases heq
    · intro gs gsOut r _ heq
      rw [computeClassLinearization] at heq
      cases heq
    · intro gs gsOut r _ heq
      rw [computeClassLinearization] at heq
      cases heq
    · intro gs todo acc gsOut r _ hBtodo heq
      cases todo with
      | nil => cases hBtodo
      | cons m rest =>
        rw [processMixins] at heq
        cases heq
    · intro gs todo acc gsOut r _ hAtodo heq
      cases todo with
      | nil => cases hAtodo
      | cons m rest =>
        rw [processMixins] at heq
        cases heq
  | succ n ih =>
    obtain ⟨presC, presP, presFS, presFI, presFM, gA, gB, gpA, gpB⟩ := ih
    have afterSuperInv : ∀ gs X gs₂, InvAB A B iA iB gs →
        (match (getInfo gs X).superClass with
          | some s =>
            match computeClassLinearization n gs s with
            | .error e => .error e
            | .ok (gs₂, _) => .ok gs₂
          | none => .ok gs : Except String GS) = .ok gs₂ →
        InvAB A B iA iB gs₂ := by
      intro gs X gs₂ hInv heqS
      cases hsc : (getInfo gs X).superClass with
      | none =>
        rw [hsc] at heqS
        cases heqS
        exact hInv
      | some s =>
        rw [hsc] at heqS
        simp only [] at heqS
        split at heqS
        · cases heqS
        · rename_i gs₂' r₂ heqC
          cases heqS
          exact presC _ _ _ _ hInv heqC
    have presCn : ∀ gs X gsOut r, InvAB A B iA iB gs →
        computeClassLinearization (n + 1) gs X = .ok (gsOut, r) → InvAB A B iA iB gsOut := by
      intro gs X gsOut r hInv heq
      rw [computeClassLinearization] at heq
      cases hlatch : (getInfo gs X).linComputed with
      | true =>
        simp only [hlatch, if_true] at heq
        cases heq
        exact hInv
      | false =>
        simp only [hlatch, Bool.false_eq_true, if_false] at heq
        split at heq
        · cases heq
        · rename_i gs₂ heqS
          have hInv₂ := afterSuperInv gs X gs₂ hInv heqS
          split at heq
          · cases heq
          · rename_i gs₃ nm heqP
            by_cases hXA : X = A
            · subst hXA
              exact absurd heqP (gpA _ _ _ _ _ hInv₂ (by rw [hInv₂.1]; exact hBA))
            · by_cases hXB : X = B
              · subst hXB
                exact absurd heqP (gpB _ _ _ _ _ hInv₂ (by rw [hInv₂.2]; exact hAB))
              · have hInv₃ := presP _ _ _ _ _ _ hInv₂ heqP
                cases heq
                exact ⟨(getInfo_set_ne gs₃ X A nm hXA).trans hInv₃.1,
                  (getInfo_set_ne gs₃ X B nm hXB).trans hInv₃.2⟩
    have presPn : ∀ gs X todo acc gsOut r, InvAB A B iA iB gs →
        processMixins (n + 1) gs X todo acc = .ok (gsOut, r) → InvAB A B iA iB gsOut := by
      intro gs X todo acc gsOut r hInv heq
      cases todo with
      | nil =>
        rw [processMixins] at heq
        cases heq
        exact hInv
      | cons m rest =>
        rw [processMixins] at heq
        split at heq
        · exact presP _ _ _ _ _ _ hInv heq
        · split at heq
          · exact presP _ _ _ _ _ _ hInv heq
          · split at heq
            · cases heq
            · rename_i gs₂ mixinLin heqC
              have hInv₂ := presC _ _ _ _ hInv heqC
              split at heq
              · split at heq
                · cases heq
                · rename_i gs₃ allMixins heqF
                  exact presP _ _ _ _ _ _ (presFS _ _ _ _ hInv₂ heqF) heq
              · split at heq
                · cases heq
                · split at heq
                  · cases heq
                  · exact presP _ _ _ _ _ _ hInv₂ heq
    have presFSn : ∀ gs info gsOut r, InvAB A B iA iB gs →
        fullLinearizationSlow (n + 1) gs info = .ok (gsOut, r) → InvAB A B iA iB gsOut := by
      intro gs info gsOut r hInv heq
      rw [fullLinearizationSlow] at heq
      exact presFI _ _ _ _ _ hInv heq
    have presFIn : ∀ gs info acc gsOut r, InvAB A B iA iB gs →
        fullLinImpl (n + 1) gs info acc = .ok (gsOut, r) → InvAB A B iA iB gsOut := by
      intro gs info acc gsOut r hInv heq
      rw [fullLinImpl] at heq
      split at heq
      · cases heq
      · rename_i gs₂ acc₃ heqM
        have hInv₂ := presFM _ _ _ _ _ hInv heqM
        split at heq
        · split at heq
          · cases heq
            exact hInv₂
          · split at heq
            · cases heq
            · rename_i gs₃ i heqC
              exact presFI _ _ _ _ _ (presC _ _ _ _ hInv₂ heqC) heq
        · cases heq
          exact hInv₂
    have presFMn : ∀ gs ms acc gsOut r, InvAB A B iA iB gs →
        fullLinMixins (n + 1) gs ms acc = .ok (gsOut, r) → InvAB A B iA iB gsOut := by
      intro gs ms acc gsOut r hInv heq
      cases ms with
      | nil =>
        rw [fullLinMixins] at heq
        cases heq
        exact hInv
      | cons m rest =>
        rw [fullLinMixins] at heq
        split at heq
        · exact presFM _ _ _ _ _ hInv heq
        · split at heq
          · exact presFM _ _ _ _ _ hInv heq
          · split at heq
            · cases heq
            · rename_i gs₂ i heqC
              have hInv₂ := presC _ _ _ _ hInv heqC
              split at heq
              · cases heq
              · rename_i gs₃ acc₂ heqI
                exact presFM _ _ _ _ _ (presFI _ _ _ _ _ hInv₂ heqI) heq
    have gAn : ∀ gs gsOut r, InvAB A B iA iB gs →
        computeClassLinearization (n + 1) gs A ≠ .ok (gsOut, r) := by
      intro gs gsOut r hInv heq
      rw [computeClassLinearization] at heq
      rw [hInv.1] at heq
      simp only [hA, Bool.false_eq_true, if_false] at heq
      split at heq
      · cases heq
      · rename_i gs₂ heqS
        have hInv₂ : InvAB A B iA iB gs₂ := by
          refine afterSuperInv gs A gs₂ hInv ?_
          rw [hInv.1]
          exact heqS
        split at heq
        · cases heq
        · rename_i gs₃ nm heqP
          exact absurd heqP (gpA _ _ _ _ _ hInv₂ (by rw [hInv₂.1]; exact hBA))
    have gBn : ∀ gs gsOut r, InvAB A B iA iB gs →
        computeClassLinearization (n + 1) gs B ≠ .ok (gsOut, r) := by
      intro gs gsOut r hInv heq
      rw [computeClassLinearization] at heq
      rw [hInv.2] at heq
      simp only [hB, Bool.false_eq_true, if_false] at heq
      split at heq
      · cases heq
      · rename_i gs₂ heqS
        have hInv₂ : InvAB A B iA iB gs₂ := by
          refine afterSuperInv gs B gs₂ hInv ?_
          rw [hInv.2]
          exact heqS
        split at heq
        · cases heq
        · rename_i gs₃ nm heqP
          exact absurd heqP (gpB _ _ _ _ _ hInv₂ (by rw [hInv₂.2]; exact hAB))
    have gpAn : ∀ gs todo acc gsOut r, InvAB A B iA iB gs → B ∈ todo →
        processMixins (n + 1) gs A todo acc ≠ .ok (gsOut, r) := by
      intro gs todo acc gsOut r hInv hBtodo heq
      cases todo with
      | nil => cases hBtodo
      | cons m rest =>
        rw [processMixins] at heq
        by_cases hmB : m = B
        · subst hmB
          split at heq
          · rename_i hskip
            rw [hInv.1] at hskip
            exact absurd hskip.symm hsupA
          · split at heq
            · rename_i hstub
              rw [hInv.2] at hstub
              rcases hstub with hstub | hstub
              · exact absurd hstub hstB1
              · exact absurd hstub hstB2
            · split at heq
              · cases heq
              · rename_i gs₂ mixinLin heqC
                exact absurd heqC (gB _ _ _ hInv)
        · have hBrest : B ∈ rest := by
            cases hBtodo with
            | head => exact absurd rfl hmB
            | tail _ h => exact h
          split at heq
          · exact gpA _ _ _ _ _ hInv hBrest heq
          · split at heq
            · exact gpA _ _ _ _ _ hInv hBrest heq
            · split at heq
              · cases heq
              · rename_i gs₂ mixinLin heqC
                have hInv₂ := presC _ _ _ _ hInv heqC
                split at heq
                · split at heq
                  · cases heq
                  · rename_i gs₃ allMixins heqF
                    exact gpA _ _ _ _ _ (presFS _ _ _ _ hInv₂ heqF) hBrest heq
                · split at heq
                  · cases heq
                  · split at heq
                    · cases heq
                    · exact gpA _ _ _ _ _ hInv₂ hBrest heq
    have gpBn : ∀ gs todo acc gsOut r, InvAB A B iA iB gs → A ∈ todo →
        processMixins (n + 1) gs B todo acc ≠ .ok (gsOut, r) := by
      intro gs todo acc gsOut r hInv hAtodo heq
      cases todo with
      | nil => cases hAtodo
      | cons m rest =>
        rw [processMixins] at heq
        by_cases hmA : m = A
        · subst hmA
          split at heq
          · rename_i hskip
            rw [hInv.2] at hskip
            exact absurd hskip.symm hsupB
          · split at heq
            · rename_i hstub
              rw [hInv.1] at hstub
              rcases hstub with hstub | hstub
              · exact absurd hstub hstA1
              · exact absurd hstub hstA2
            · split at heq
              · cases heq
              · rename_i gs₂ mixinLin heqC
                exact absurd heqC (gA _ _ _ hInv)
        · have hArest : A ∈ rest := by
            cases hAtodo with
            | head => exact absurd rfl hmA
            | tail _ h => exact h
          split at heq
          · exact gpB _ _ _ _ _ hInv hArest heq
          · split at heq
            · exact gpB _ _ _ _ _ hInv hArest heq
            · split at heq
              · cases heq
              · rename_i gs₂ mixinLin heqC
                have hInv₂ := presC _ _ _ _ hInv heqC
                split at heq
                · split at heq
                  · cases heq
                  · rename_i gs₃ allMixins heqF
                    exact gpB _ _ _ _ _ (presFS _ _ _ _ hInv₂ heqF) hArest heq
                · split at heq
                  · cases heq
                  · split at heq
                    · cases heq
                    · exact gpB _ _ _ _ _ hInv₂ hArest heq
    exact ⟨presCn, presPn, presFSn, presFIn, presFMn, gAn, gBn, gpAn, gpBn⟩

/-- C3 (amended): for a mixin cycle none of whose members has a stub
superclass — a symbol listed directly as its own mixin (take `A = B`), or two
modules including each other — `computeClassLinearization` never returns
normally on a cycle member, whatever the fuel: every run is an error, either
the raised "Loop in mixins" invariant violation or fuel exhaustion modelling
the nonterminating recursion of the source. -/
theorem claim_C3_mixin_cycle_never_ok (A B : Nat) (iA iB : ClassInfo) (gs : GS)
    (hA : iA.linComputed = false) (hB : iB.linComputed = false)
    (hBA : B ∈ iA.mixins) (hAB : A ∈ iB.mixins)
    (hsupA : iA.superClass ≠ some B) (hsupB : iB.superClass ≠ some A)
    (hstA1 : iA.superClass ≠ some stubSuperClassIdx)
    (hstA2 : iA.superClass ≠ some stubModuleIdx)
    (hstB1 : iB.superClass ≠ some stubSuperClassIdx)
    (hstB2 : iB.superClass ≠ some stubModuleIdx)
    (hgA : getInfo gs A = iA) (hgB : getInfo gs B = iB) (fuel : Nat) :
    isOk (computeClassLinearization fuel gs A) = false := by
  cases hres : computeClassLinearization fuel gs A with
  | error e => rfl
  | ok p =>
    exact absurd (show computeClassLinearization fuel gs A = .ok (p.1, p.2) by rw [hres])
      ((cycle_never_ok A B iA iB hA hB hBA hAB hsupA hsupB hstA1 hstA2 hstB1
          hstB2 fuel).2.2.2.2.2.1 gs p.1 p.2 ⟨hgA, hgB⟩)

/-- Witness for the amended C3: the direct self-mixin of `gsC3self` and the
two-module cycle of `gsC3ab` both fail for a concrete fuel. -/
theorem claim_C3_witness :
    isOk (computeClassLinearization 9 gsC3self 3) = false ∧
      isOk (computeClassLinearization 9 gsC3ab 3) = false := by
  constructor
  · exact claim_C3_mixin_cycle_never_ok 3 3 ⟨none, [3], true, false⟩ ⟨none, [3], true, false⟩
      gsC3self rfl rfl (by decide) (by decide) (by decide) (by decide) (by decide) (by decide)
      (by decide) (by decide) rfl rfl 9
  · exact claim_C3_mixin_cycle_never_ok 3 4 ⟨none, [4], true, false⟩ ⟨none, [3], true, false⟩
      gsC3ab rfl rfl (by decide) (by decide) (by decide) (by decide) (by decide) (by decide)
      (by decide) (by decide) rfl rfl 9

end Lin

namespace SymTab

theorem getD_set_self_of_lt {α : Type} (l : List α) (i : Nat) (v d : α) (h : i < l.length) :
    (l.set i v).getD i d = v := by
  rw [List.getD_eq_getElem?_getD, List.getElem?_set_self h]
  rfl

theorem getD_set_ne_idx {α : Type} (l : List α) (i j : Nat) (v d : α) (h : i ≠ j) :
    (l.set i v).getD j d = l.getD j d := by
  rw [List.getD_eq_getElem?_getD, List.getElem?_set_ne h, ← List.getD_eq_getElem?_getD]

theorem getD_concat_length {α : Type} (l : List α) (v d : α) :
    (l ++ [v]).getD l.length d = v := by
  rw [List.getD_eq_getElem?_getD, List.getElem?_concat_length]
  rfl

theorem getD_append_left {α : Type} (l₁ l₂ : List α) (i : Nat) (d : α) (h : i < l₁.length) :
    (l₁ ++ l₂).getD i d = l₁.getD i d := by
  rw [List.getD_eq_getElem?_getD, List.getElem?_append_left h, ← List.getD_eq_getElem?_getD]

theorem lookup_concat_self (l : List (MName × SRef)) (n : MName) (r : SRef)
    (h : l.lookup n = none) : (l ++ [(n, r)]).lookup n = some r := by
  rw [List.lookup_append, h]
  simp [List.lookup]

/-- C7: entering a class symbol twice with the same owner and name returns
the same reference both times and leaves the state of the first call — in
particular the class/module arena and its length — unchanged. -/
theorem claim_C7_enterClassSymbol_idempotent (gs : GState) (owner : Nat) (name : MName)
    (h : owner < gs.classAndModules.length) :
    (enterClassSymbol (enterClassSymbol gs owner name).1 owner name).2 =
      (enterClassSymbol gs owner name).2 ∧
    (enterClassSymbol (enterClassSymbol gs owner name).1 owner name).1 =
      (enterClassSymbol gs owner name).1 := by
  have key : ∀ gs₁ r₁, enterClassSymbol gs owner name = (gs₁, r₁) →
      enterClassSymbol gs₁ owner name = (gs₁, r₁) := by
    intro gs₁ r₁ hfirst
    have hmem : findMember gs₁ owner name = some r₁ := by
      cases h1 : findMember gs owner name with
      | some store =>
        unfold enterClassSymbol at hfirst
        rw [h1] at hfirst
        cases hfirst
        exact h1
      | none =>
        unfold enterClassSymbol at hfirst
        rw [h1] at hfirst
        cases hfirst
        simp only [findMember, getClass]
        rw [getD_append_left _ _ _ _ (by simpa using h), getD_set_self_of_lt _ _ _ _ h]
        exact lookup_concat_self _ _ _ h1
    unfold enterClassSymbol
    rw [hmem]
  have h2 := key (enterClassSymbol gs owner name).1 (enterClassSymbol gs owner name).2
    (Prod.mk.eta).symm
  rw [h2]
  exact ⟨rfl, rfl⟩

/-- Witness for C7 on the concrete arena `gsC7`. -/
theorem claim_C7_witness :
    (enterClassSymbol (enterClassSymbol gsC7 1 (.plain 50)).1 1 (.plain 50)).2 =
      (enterClassSymbol gsC7 1 (.plain 50)).2 ∧
    (enterClassSymbol (enterClassSymbol gsC7 1 (.plain 50)).1 1 (.plain 50)).1 =
      (enterClassSymbol gsC7 1 (.plain 50)).1 :=
  claim_C7_enterClassSymbol_idempotent gsC7 1 (.plain 50) (by decide)

theorem findMember_emitError (gs : GState) (c k : Nat) (n : MName) :
    findMember (emitError gs c) k n = findMember gs k n := rfl

theorem getClass_emitError (gs : GState) (c k : Nat) :
    getClass (emitError gs c) k = getClass gs k := rfl

/-- A member-table miss makes `enterTypeMember` append a fresh type member,
enter it into the member table, and register it on the owner. -/
theorem enterTypeMember_miss (gs : GState) (lp : Bool) (owner : Nat) (n : MName) (v : Variance)
    (hmiss : findMember gs owner n = none)
    (hwf : gs.typeMembers.length ∉ (getClass gs owner).typeMembers) :
    enterTypeMember gs lp owner n v =
      ({ gs with
          typeMembers := gs.typeMembers ++ [⟨n, owner, v, false, false, lp⟩],
          classAndModules := gs.classAndModules.set owner
            { getClass gs owner with
              members := (getClass gs owner).members ++
                [(n, ⟨SKind.typeMember, gs.typeMembers.length⟩)],
              typeMembers := (getClass gs owner).typeMembers ++ [gs.typeMembers.length] } },
        (⟨SKind.typeMember, gs.typeMembers.length⟩ : SRef)) := by
  unfold enterTypeMember
  rw [hmiss]
  have hc : (getClass gs owner).typeMembers.contains gs.typeMembers.length = false := by
    simpa using hwf
  simp [hc, hwf]

/-- C4: when the descendant has no member under the name of a parent type
member, `resolveTypeMember` emits exactly one must-be-re-declared diagnostic
(the Enumerable-specific code when the parent is or derives from Enumerable),
synthesizes on the descendant a type member of that name with invariant
variance and a fixed untyped bound pair, records no alias, and returns
false. -/
theorem claim_C4_missing_member_synthesized (gs : GState) (parent ptm sym : Nat)
    (aliases : Aliases)
    (habsent : findMember gs sym (getTM gs ptm).name = none)
    (hwf : gs.typeMembers.length ∉ (getClass gs sym).typeMembers) :
    resolveTypeMember gs parent ptm sym aliases =
      ({ gs with
          errors := gs.errors ++
            [if parent = enumerableIdx || derivesFrom gs parent enumerableIdx then
              codeEnumerableParentTypeNotDeclared
            else codeParentTypeNotDeclared],
          typeMembers := gs.typeMembers ++
            [{ name := (getTM gs ptm).name, owner := sym, variance := Variance.invariant,
               isFixed := true, untypedBounds := true,
               locIsPayload := (getClass gs sym).locIsPayload }],
          classAndModules := gs.classAndModules.set sym
            { getClass gs sym with
              members := (getClass gs sym).members ++
                [((getTM gs ptm).name, ⟨SKind.typeMember, gs.typeMembers.length⟩)],
              typeMembers := (getClass gs sym).typeMembers ++ [gs.typeMembers.length] } },
        aliases, false) := by
  unfold resolveTypeMember
  simp only [habsent]
  simp only [getClass_emitError]
  rw [enterTypeMember_miss (emitError gs _) ((getClass gs sym).locIsPayload) sym
    (getTM gs ptm).name Variance.invariant habsent hwf]
  unfold setFixedUntyped setTM getTM emitError
  simp only []
  rw [List.set_append_right _ _ (Nat.le_refl _)]
  simp [getClass]

/-- Witness for C4 on the concrete arena `gsT4`: `Derived` (symbol 4) lacks
`Elem`, so resolution synthesizes it, emits one diagnostic and records no
alias. -/
theorem claim_C4_witness :
    resolveTypeMember gsT4 3 0 4 [[], [], [], [], []] =
      (gsT4after, [[], [], [], [], []], false) :=
  claim_C4_missing_member_synthesized gsT4 3 0 4 [[], [], [], [], []] rfl (by decide)

/-- C6 counterexample: on `gsT6` the parent member (index 0) is invariant and
the child member (index 1) covariant on a module, so per the claim — which
requires that neither of the two variances is invariant — no diagnostic
should fire and the alias should be recorded; the code nonetheless emits the
variance-mismatch diagnostic, records no alias and returns false. -/
theorem claim_C6_counterexample :
    (getTM gsT6 0).variance = Variance.invariant ∧
      (getTM gsT6 1).variance = Variance.covariant ∧
      derivesFrom gsT6 4 classSymbolIdx = false ∧
      resolveTypeMember gsT6 3 0 4 [[], [], [], [], []] =
        (emitError gsT6 codeParentVarianceMismatch, [[], [], [], [], []], false) :=
  ⟨rfl, rfl, by decide, rfl⟩

/-- C6 (amended): for a parent type member whose name resolves on the child
to a genuine type-parameter symbol, the variance-mismatch diagnostic fires —
with no alias recorded and false returned — exactly when the child symbol
does not derive from the built-in Class symbol, the two variances differ, and
the child variance is not invariant; in every other case the alias pair is
recorded and true returned with no diagnostic. -/
theorem claim_C6_variance_mismatch (gs : GState) (parent ptm sym : Nat) (aliases : Aliases)
    (my : SRef)
    (hfound : findMember gs sym (getTM gs ptm).name = some my)
    (hkind : my.kind = SKind.typeMember ∨ my.kind = SKind.typeArgument) :
    ((¬ derivesFrom gs sym classSymbolIdx = true ∧
        (getParam gs my).variance ≠ (getTM gs ptm).variance ∧
        (getParam gs my).variance ≠ Variance.invariant) →
      resolveTypeMember gs parent ptm sym aliases =
        (emitError gs codeParentVarianceMismatch, aliases, false)) ∧
    ((¬ (¬ derivesFrom gs sym classSymbolIdx = true ∧
        (getParam gs my).variance ≠ (getTM gs ptm).variance ∧
        (getParam gs my).variance ≠ Variance.invariant)) →
      resolveTypeMember gs parent ptm sym aliases =
        (gs, pushAlias aliases sym (⟨SKind.typeMember, ptm⟩, my), true)) := by
  unfold resolveTypeMember
  simp only [hfound]
  rw [if_neg (not_not_intro hkind)]
  constructor
  · intro hcond
    rw [if_pos hcond]
  · intro hcond
    rw [if_neg hcond]

/-- Witness for the amended C6 on `gsT6b`: parent and child both covariant on
a module, so the alias pair is recorded. -/
theorem claim_C6_witness :
    resolveTypeMember gsT6b 3 0 4 [[], [], [], [], []] =
      (gsT6b, pushAlias [[], [], [], [], []] 4 (⟨SKind.typeMember, 0⟩, ⟨SKind.typeMember, 1⟩),
        true) :=
  (claim_C6_variance_mismatch gsT6b 3 0 4 [[], [], [], [], []] ⟨SKind.typeMember, 1⟩ rfl
    (Or.inl rfl)).2 (by decide)

/-- The alias-recording branch of `resolveTypeMember` in isolation. -/
theorem resolveTypeMember_alias (gs : GState) (parent ptm sym : Nat) (aliases : Aliases)
    (my : SRef)
    (hfound : findMember gs sym (getTM gs ptm).name = some my)
    (hkind : my.kind = SKind.typeMember ∨ my.kind = SKind.typeArgument)
    (hcond : ¬ (¬ derivesFrom gs sym classSymbolIdx = true ∧
        (getParam gs my).variance ≠ (getTM gs ptm).variance ∧
        (getParam gs my).variance ≠ Variance.invariant)) :
    resolveTypeMember gs parent ptm sym aliases =
      (gs, pushAlias aliases sym (⟨SKind.typeMember, ptm⟩, my), true) := by
  unfold resolveTypeMember
  simp only [hfound]
  rw [if_neg (not_not_intro hkind), if_neg hcond]

/-- C5: on the arena `gsC5 nX nY` — parent 3 declaring type members `[X, Y]`
(arena indices 0, 1) and child 4 re-declaring them in the reversed order
`[Y, X]` (arena indices 2, 3), with every `resolveTypeMember` returning true —
`resolveTypeMembers` reorders the type-member list of the child by swaps into
the parent order under dealiasing, `[X, Y]` (arena indices `[3, 2]`), and
emits exactly one wrong-order diagnostic. -/
theorem claim_C5_type_member_ordering (nX nY : Nat) (hne : nX ≠ nY) :
    (resolveTypeMembers 10
        ⟨gsC5 nX nY, [[], [], [], [], []], [false, false, false, true, false]⟩ 4).map
      (fun st => ((getClass st.gs 4).typeMembers, st.gs.errors)) =
      .ok ([3, 2], [codeTypeMembersInWrongOrder]) := by
  have hf1 : findMember (gsC5 nX nY) 4 (getTM (gsC5 nX nY) 0).name =
      some ⟨SKind.typeMember, 3⟩ := by
    simp [findMember, getClass, getTM, gsC5, List.lookup]
  have hf2 : findMember (gsC5 nX nY) 4 (getTM (gsC5 nX nY) 1).name =
      some ⟨SKind.typeMember, 2⟩ := by
    have h2 : (MName.plain nY == MName.plain nX) = false := by simp [Ne.symm hne]
    simp [findMember, getClass, getTM, gsC5, List.lookup, h2]
  have e1 : resolveTypeMember (gsC5 nX nY) 3 0 4 [[], [], [], [], []] =
      (gsC5 nX nY,
        [[], [], [], [], [(⟨SKind.typeMember, 0⟩, ⟨SKind.typeMember, 3⟩)]], true) := by
    rw [resolveTypeMember_alias (gsC5 nX nY) 3 0 4 _ _ hf1 (Or.inl rfl) (fun h => h.2.1 rfl)]
    rfl
  have e2 : resolveTypeMember (gsC5 nX nY) 3 1 4
        [[], [], [], [], [(⟨SKind.typeMember, 0⟩, ⟨SKind.typeMember, 3⟩)]] =
      (gsC5 nX nY,
        [[], [], [], [], [(⟨SKind.typeMember, 0⟩, ⟨SKind.typeMember, 3⟩),
          (⟨SKind.typeMember, 1⟩, ⟨SKind.typeMember, 2⟩)]], true) := by
    rw [resolveTypeMember_alias (gsC5 nX nY) 3 1 4 _ _ hf2 (Or.inl rfl) (fun h => h.2.1 rfl)]
    rfl
  have eP : resolveParentTMs (gsC5 nX nY) [[], [], [], [], []] 3 4 [0, 1] true =
      (gsC5 nX nY, [[], [], [], [],
        [(⟨SKind.typeMember, 0⟩, ⟨SKind.typeMember, 3⟩),
         (⟨SKind.typeMember, 1⟩, ⟨SKind.typeMember, 2⟩)]], true) := by
    simp only [resolveParentTMs, e1, e2]
    rfl
  have hsub : resolveTypeMembers 9
      ⟨gsC5 nX nY, [[], [], [], [], []], [false, false, false, true, true]⟩ 3 =
      .ok ⟨gsC5 nX nY, [[], [], [], [], []], [false, false, false, true, true]⟩ := rfl
  have ha : [false, false, false, true, false].getD 4 false = false := rfl
  have hb : [false, false, false, true, false].set 4 true = [false, false, false, true, true] := rfl
  have hsup4 : (getClass (gsC5 nX nY) 4).superClass = some 3 := rfl
  have htms3 : (getClass (gsC5 nX nY) 3).typeMembers = [0, 1] := rfl
  rw [show (10 : Nat) = 9 + 1 from rfl, resolveTypeMembers]
  simp only [ha, hb, hsup4, Bool.false_eq_true, if_false, hsub, htms3, eP]
  rfl

/-- Witness for C5 at concrete member names 20 and 21. -/
theorem claim_C5_witness :
    (resolveTypeMembers 10
        ⟨gsC5 20 21, [[], [], [], [], []], [false, false, false, true, false]⟩ 4).map
      (fun st => ((getClass st.gs 4).typeMembers, st.gs.errors)) =
      .ok ([3, 2], [codeTypeMembersInWrongOrder]) :=
  claim_C5_type_member_ordering 20 21 (by decide)

end SymTab
namespace NT

theorem searchBounded_fuel (st : NTState) (hit : Nat × Nat → Bool) (n : Nat) :
    ∀ fuel p b, p ≤ n → n + 1 ≤ p + fuel →
      searchBounded st hit n fuel b p ≠ BSearch.outOfFuel := by
  intro fuel
  induction fuel with
  | zero => intro p b hp hf; omega
  | succ fuel ih =>
    intro p b hp hf
    rw [searchBounded]
    split
    · split
      · simp
      · rename_i hcond hmiss
        exact ih (p + 1) _ (by omega) (by omega)
    · simp

theorem searchBounded_stopped_le (st : NTState) (hit : Nat × Nat → Bool) (n : Nat) :
    ∀ fuel p b q c, p ≤ n → searchBounded st hit n fuel b p = BSearch.stopped q c →
      c ≤ n := by
  intro fuel
  induction fuel with
  | zero => intro p b q c hp h; rw [searchBounded] at h; cases h
  | succ fuel ih =>
    intro p b q c hp h
    rw [searchBounded] at h
    split at h
    · split at h
      · cases h
      · rename_i hcond hmiss
        exact ih (p + 1) _ q c (by omega) h
    · cases h
      exact hp

theorem enterNameConstant_full (st : NTState) (orig : Nat) (q : Nat)
    (h : searchBounded st (fun b => constMatch st b (hashMixConstant orig) orig)
        st.namesByHash.length (st.namesByHash.length + 1)
        (hashMixConstant orig % st.namesByHash.length) 1 =
      BSearch.stopped q st.namesByHash.length) :
    enterNameConstant st orig = Except.error "Full table?" := by
  simp only [enterNameConstant]
  rw [h]
  simp

theorem freshNameUnique_full (st : NTState) (kind num orig : Nat) (q : Nat)
    (h : searchBounded st (fun b => uniqMatch st b (hashMixUnique kind num orig) kind num orig)
        st.namesByHash.length (st.namesByHash.length + 1)
        (hashMixUnique kind num orig % st.namesByHash.length) 1 =
      BSearch.stopped q st.namesByHash.length) :
    freshNameUnique st kind num orig = Except.error "Full table?" := by
  simp only [freshNameUnique]
  rw [h]
  simp

/-- C10: in `enterNameConstant` and `freshNameUnique` the open-addressing
probe loop is bounded by the hash-table size: with any match predicate the
loop never exhausts the fuel budget the call hands it (it exits within at
most `hashTableSize` probes), the probe counter at a non-matching exit never
exceeds the table size, and when it reaches exactly the table size both
operations raise the `Full table?` exception instead of looping forever. -/
theorem claim_C10_bounded_probe (st : NTState) (orig kind num : Nat)
    (hn : 0 < st.namesByHash.length) :
    (∀ hit : Nat × Nat → Bool, ∀ b,
        searchBounded st hit st.namesByHash.length (st.namesByHash.length + 1) b 1 ≠
          BSearch.outOfFuel) ∧
    (∀ hit : Nat × Nat → Bool, ∀ b q c,
        searchBounded st hit st.namesByHash.length (st.namesByHash.length + 1) b 1 =
          BSearch.stopped q c → c ≤ st.namesByHash.length) ∧
    (∀ q, searchBounded st (fun b => constMatch st b (hashMixConstant orig) orig)
          st.namesByHash.length (st.namesByHash.length + 1)
          (hashMixConstant orig % st.namesByHash.length) 1 =
        BSearch.stopped q st.namesByHash.length →
      enterNameConstant st orig = Except.error "Full table?") ∧
    (∀ q, searchBounded st
          (fun b => uniqMatch st b (hashMixUnique kind num orig) kind num orig)
          st.namesByHash.length (st.namesByHash.length + 1)
          (hashMixUnique kind num orig % st.namesByHash.length) 1 =
        BSearch.stopped q st.namesByHash.length →
      freshNameUnique st kind num orig = Except.error "Full table?") :=
  ⟨fun hit b => searchBounded_fuel st hit st.namesByHash.length
      (st.namesByHash.length + 1) 1 b hn (by omega),
   fun hit b q c h => searchBounded_stopped_le st hit st.namesByHash.length
      (st.namesByHash.length + 1) 1 b q c hn h,
   fun q h => enterNameConstant_full st orig q h,
   fun q h => freshNameUnique_full st kind num orig q h⟩

/-- C10 witness: the bound and the `Full table?` raise instantiated on a
concrete two-bucket table that is completely full. -/
theorem claim_C10_witness :
    0 < gsC10.namesByHash.length ∧
    ((∀ hit : Nat × Nat → Bool, ∀ b,
        searchBounded gsC10 hit gsC10.namesByHash.length
          (gsC10.namesByHash.length + 1) b 1 ≠ BSearch.outOfFuel) ∧
    (∀ hit : Nat × Nat → Bool, ∀ b q c,
        searchBounded gsC10 hit gsC10.namesByHash.length
          (gsC10.namesByHash.length + 1) b 1 = BSearch.stopped q c →
          c ≤ gsC10.namesByHash.length) ∧
    (∀ q, searchBounded gsC10 (fun b => constMatch gsC10 b (hashMixConstant 7) 7)
          gsC10.namesByHash.length (gsC10.namesByHash.length + 1)
          (hashMixConstant 7 % gsC10.namesByHash.length) 1 =
        BSearch.stopped q gsC10.namesByHash.length →
      enterNameConstant gsC10 7 = Except.error "Full table?") ∧
    (∀ q, searchBounded gsC10
          (fun b => uniqMatch gsC10 b (hashMixUnique 1 1 7) 1 1 7)
          gsC10.namesByHash.length (gsC10.namesByHash.length + 1)
          (hashMixUnique 1 1 7 % gsC10.namesByHash.length) 1 =
        BSearch.stopped q gsC10.namesByHash.length →
      freshNameUnique gsC10 1 1 7 = Except.error "Full table?")) :=
  ⟨by decide, claim_C10_bounded_probe gsC10 7 1 1 (by decide)⟩

theorem probeSeq_lt (hs n : Nat) (hn : 0 < n) : ∀ k, probeSeq hs n k < n
  | 0 => Nat.mod_lt _ hn
  | _ + 1 => Nat.mod_lt _ hn

theorem sameUtf8_right (x : NameEntry) (s : String) :
    sameUtf8 x (NameEntry.utf8 s) = true ↔ x = NameEntry.utf8 s := by
  cases x <;> simp [sameUtf8]

theorem sameUtf8_not_utf8 (x e : NameEntry) (he : isUtf8Name e = false) :
    sameUtf8 x e = false := by
  cases e with
  | utf8 t => simp [isUtf8Name] at he
  | cnst o => cases x <;> rfl
  | uniq k m o => cases x <;> rfl

theorem utf8Match_true (st : NTState) (bk : Nat × Nat) (hs : Nat) (s : String)
    (h : utf8Match st bk hs s = true) :
    bk.1 = hs ∧ st.names.getD bk.2 default = NameEntry.utf8 s := by
  unfold utf8Match at h
  rw [Bool.and_eq_true, beq_iff_eq] at h
  obtain ⟨h1, h2⟩ := h
  refine ⟨h1, ?_⟩
  cases hm : st.names.getD bk.2 default with
  | utf8 t =>
    rw [hm] at h2
    simp only [beq_iff_eq] at h2
    exact congrArg NameEntry.utf8 h2
  | cnst o => rw [hm] at h2; simp at h2
  | uniq k m o => rw [hm] at h2; simp at h2

theorem searchUTF8_found_facts (st : NTState) (s : String) (hs n : Nat) (hn : 0 < n) :
    ∀ fuel b p i, b < n → searchUTF8 st s hs n fuel b p = USearch.found i →
      i ≠ 0 ∧ ∃ b', b' < n ∧ (bucketAt st b').1 = hs ∧ (bucketAt st b').2 = i ∧
        st.names.getD i default = NameEntry.utf8 s := by
  intro fuel
  induction fuel with
  | zero => intro b p i hb h; rw [searchUTF8] at h; cases h
  | succ fuel ih =>
    intro b p i hb h
    rw [searchUTF8] at h
    split at h
    · split at h
      · cases h
        rename_i hlive hmatch
        obtain ⟨h1, h2⟩ := utf8Match_true st _ hs s hmatch
        exact ⟨hlive, b, hb, h1, rfl, h2⟩
      · exact ih _ _ i (Nat.mod_lt _ hn) h
    · cases h

theorem searchUTF8_empty_path (st : NTState) (s : String) (hs n : Nat) :
    ∀ fuel j b p,
      searchUTF8 st s hs n fuel (probeSeq hs n j) (j + 1) = USearch.empty b p →
      ∃ m, j ≤ m ∧ m < j + fuel ∧ b = probeSeq hs n m ∧ p = m + 1 ∧
        (∀ l, j ≤ l → l < m → (bucketAt st (probeSeq hs n l)).2 ≠ 0) ∧
        (bucketAt st b).2 = 0 := by
  intro fuel
  induction fuel with
  | zero => intro j b p h; rw [searchUTF8] at h; cases h
  | succ fuel ih =>
    intro j b p h
    rw [searchUTF8] at h
    split at h
    · split at h
      · cases h
      · rename_i hlive hmiss
        obtain ⟨m, hm1, hm2, hm3, hm4, hm5, hm6⟩ := ih (j + 1) b p h
        refine ⟨m, by omega, by omega, hm3, hm4, ?_, hm6⟩
        intro l hjl hlm
        rcases Nat.eq_or_lt_of_le hjl with he | hlt
        · rw [← he]; exact hlive
        · exact hm5 l hlt hlm
    · cases h
      rename_i hdead
      refine ⟨j, Nat.le_refl j, by omega, rfl, rfl, ?_, not_not.mp hdead⟩
      intro l h1 h2
      omega

theorem searchUTF8_finds (st : NTState) (s : String) (hs i : Nat)
    (hWFb : WFbuckets st) (hWFu : WFuniq st) (hn : 0 < st.namesByHash.length)
    (hname : st.names.getD i default = NameEntry.utf8 s) (hi0 : i ≠ 0)
    (hilen : i < st.names.length) :
    ∀ d fuel j, d + 1 ≤ fuel → PathTo st hs i (j + d) →
      searchUTF8 st s hs st.namesByHash.length fuel
        (probeSeq hs st.namesByHash.length j) (j + 1) = USearch.found i := by
  intro d
  induction d with
  | zero =>
    intro fuel j hf hpath
    cases fuel with
    | zero => omega
    | succ fuel =>
      rw [searchUTF8]
      have hbk : bucketAt st (probeSeq hs st.namesByHash.length j) = (hs, i) := by
        have := hpath.2
        rwa [Nat.add_zero] at this
      rw [hbk]
      have hm : utf8Match st (hs, i) hs s = true := by
        show (hs == hs && match st.names.getD i default with
          | NameEntry.utf8 t => t == s
          | _ => false) = true
        rw [hname]
        simp
      rw [if_pos (show ((hs, i) : Nat × Nat).2 ≠ 0 from hi0), if_pos hm]
  | succ d ih =>
    intro fuel j hf hpath
    cases fuel with
    | zero => omega
    | succ fuel =>
      rw [searchUTF8]
      have hlive : (bucketAt st (probeSeq hs st.namesByHash.length j)).2 ≠ 0 :=
        hpath.1 j (by omega)
      rw [if_pos hlive]
      by_cases hm : utf8Match st (bucketAt st (probeSeq hs st.namesByHash.length j)) hs s
      · rw [if_pos hm]
        have hlt := probeSeq_lt hs st.namesByHash.length hn j
        obtain ⟨hsz, hhash⟩ := hWFb (probeSeq hs st.namesByHash.length j) hlt hlive
        obtain ⟨h1, h2⟩ := utf8Match_true st _ hs s hm
        have hei : (bucketAt st (probeSeq hs st.namesByHash.length j)).2 = i := by
          apply hWFu _ hsz _ hilen hlive hi0
          rw [h2, hname]
          simp [sameUtf8]
        rw [hei]
      · rw [if_neg hm]
        have hpath2 : PathTo st hs i ((j + 1) + d) := by
          rw [show (j + 1) + d = j + (d + 1) from by omega]
          exact hpath
        exact ih fuel (j + 1) (by omega) hpath2

theorem searchEmpty_some_empty (tbl : List (Nat × Nat)) (n : Nat) :
    ∀ fuel b0 p b, searchEmpty tbl n fuel b0 p = some b →
      (tbl.getD b (0, 0)).2 = 0 := by
  intro fuel
  induction fuel with
  | zero => intro b0 p b h; rw [searchEmpty] at h; cases h
  | succ fuel ih =>
    intro b0 p b h
    rw [searchEmpty] at h
    split at h
    · exact ih _ _ b h
    · cases h
      rename_i hdead
      exact not_not.mp hdead

theorem searchEmpty_path (tbl : List (Nat × Nat)) (n hs : Nat) :
    ∀ fuel j b, searchEmpty tbl n fuel (probeSeq hs n j) (j + 1) = some b →
      ∃ m, j ≤ m ∧ m < j + fuel ∧ b = probeSeq hs n m ∧
        (∀ l, j ≤ l → l < m → (tbl.getD (probeSeq hs n l) (0, 0)).2 ≠ 0) ∧
        (tbl.getD b (0, 0)).2 = 0 := by
  intro fuel
  induction fuel with
  | zero => intro j b h; rw [searchEmpty] at h; cases h
  | succ fuel ih =>
    intro j b h
    rw [searchEmpty] at h
    split at h
    · rename_i hlive
      obtain ⟨m, hm1, hm2, hm3, hm4, hm5⟩ := ih (j + 1) b h
      refine ⟨m, by omega, by omega, hm3, ?_, hm5⟩
      intro l hjl hlm
      rcases Nat.eq_or_lt_of_le hjl with he | hlt
      · rw [← he]; exact hlive
      · exact hm4 l hlt hlm
    · cases h
      rename_i hdead
      refine ⟨j, Nat.le_refl j, by omega, rfl, ?_, not_not.mp hdead⟩
      intro l h1 h2
      omega

theorem searchBounded_stopped_path (st : NTState) (hit : Nat × Nat → Bool) (n hs : Nat) :
    ∀ fuel j b p,
      searchBounded st hit n fuel (probeSeq hs n j) (j + 1) = BSearch.stopped b p →
      ∃ m, j ≤ m ∧ m < j + fuel ∧ b = probeSeq hs n m ∧ p = m + 1 ∧
        (∀ l, j ≤ l → l < m → (bucketAt st (probeSeq hs n l)).2 ≠ 0) ∧
        ((bucketAt st b).2 = 0 ∨ n ≤ m + 1) := by
  intro fuel
  induction fuel with
  | zero => intro j b p h; rw [searchBounded] at h; cases h
  | succ fuel ih =>
    intro j b p h
    rw [searchBounded] at h
    split at h
    · split at h
      · cases h
      · rename_i hcond hmiss
        obtain ⟨m, hm1, hm2, hm3, hm4, hm5, hm6⟩ := ih (j + 1) b p h
        refine ⟨m, by omega, by omega, hm3, hm4, ?_, hm6⟩
        intro l hjl hlm
        rcases Nat.eq_or_lt_of_le hjl with he | hlt
        · rw [← he]; exact hcond.1
        · exact hm5 l hlt hlm
    · cases h
      rename_i hstop
      rcases not_and_or.mp hstop with hdead | hcnt
      · refine ⟨j, Nat.le_refl j, by omega, rfl, rfl, ?_, Or.inl (not_not.mp hdead)⟩
        intro l h1 h2
        omega
      · refine ⟨j, Nat.le_refl j, by omega, rfl, rfl, ?_, Or.inr (by omega)⟩
        intro l h1 h2
        omega

theorem getD_set_cases {α : Type} (l : List α) (i j : Nat) (v d : α) :
    (l.set i v).getD j d = v ∨ (l.set i v).getD j d = l.getD j d := by
  by_cases hij : i = j
  · subst hij
    by_cases hlen : i < l.length
    · exact Or.inl (SymTab.getD_set_self_of_lt l i v d hlen)
    · rw [List.set_eq_of_length_le (Nat.le_of_not_lt hlen)]
      exact Or.inr rfl
  · exact Or.inr (SymTab.getD_set_ne_idx l i j v d hij)

theorem moveNamesAux_length (n : Nat) :
    ∀ src tgt tbl, moveNamesAux n tgt src = Except.ok tbl → tbl.length = tgt.length := by
  intro src
  induction src with
  | nil => intro tgt tbl h; cases h; rfl
  | cons a rest ih =>
    intro tgt tbl h
    rw [moveNamesAux] at h
    split at h
    · split at h
      · cases h
      · rename_i b' hse
        rw [ih (tgt.set b' a) tbl h]
        exact List.length_set tgt b' a
    · exact ih tgt tbl h

theorem moveNamesAux_stable (n : Nat) :
    ∀ src tgt tbl, moveNamesAux n tgt src = Except.ok tbl →
      ∀ b, (tgt.getD b (0, 0)).2 ≠ 0 → tbl.getD b (0, 0) = tgt.getD b (0, 0) := by
  intro src
  induction src with
  | nil => intro tgt tbl h b hb; cases h; rfl
  | cons a rest ih =>
    intro tgt tbl h b hb
    rw [moveNamesAux] at h
    split at h
    · split at h
      · cases h
      · rename_i b' hse
        have hempty := searchEmpty_some_empty tgt n n (a.1 % n) 1 b' hse
        have hne : b' ≠ b := by
          intro hc
          rw [hc] at hempty
          exact hb hempty
        have hset : (tgt.set b' a).getD b (0, 0) = tgt.getD b (0, 0) :=
          SymTab.getD_set_ne_idx tgt b' b a (0, 0) hne
        rw [ih (tgt.set b' a) tbl h b (by rw [hset]; exact hb), hset]
    · exact ih tgt tbl h b hb

theorem moveNamesAux_buckets (names : List NameEntry) (n : Nat) :
    ∀ src tgt tbl, (∀ b, OkEntry names (tgt.getD b (0, 0))) →
      (∀ e, e ∈ src → OkEntry names e) →
      moveNamesAux n tgt src = Except.ok tbl →
      ∀ b, OkEntry names (tbl.getD b (0, 0)) := by
  intro src
  induction src with
  | nil => intro tgt tbl htgt hsrc h b; cases h; exact htgt b
  | cons a rest ih =>
    intro tgt tbl htgt hsrc h
    rw [moveNamesAux] at h
    split at h
    · split at h
      · cases h
      · rename_i b' hse
        refine ih (tgt.set b' a) tbl ?_ (fun e he => hsrc e (List.mem_cons_of_mem a he)) h
        intro b
        rcases getD_set_cases tgt b' b a (0, 0) with hc | hc
        · rw [hc]; exact hsrc a (List.mem_cons_self a rest)
        · rw [hc]; exact htgt b
    · exact ih tgt tbl htgt (fun e he => hsrc e (List.mem_cons_of_mem a he)) h

theorem moveNamesAux_registers (n : Nat) (hn : 0 < n) :
    ∀ src tgt tbl, tgt.length = n → moveNamesAux n tgt src = Except.ok tbl →
      ∀ e, e ∈ src → e.2 ≠ 0 → ∃ m, m < n ∧ PathT tbl n e.1 e.2 m := by
  intro src
  induction src with
  | nil => intro tgt tbl hlen h e he halivee; cases he
  | cons a rest ih =>
    intro tgt tbl hlen h e he halivee
    rw [moveNamesAux] at h
    split at h
    · rename_i halive
      split at h
      · cases h
      · rename_i b' hse
        rcases List.mem_cons.mp he with he' | hmem
        · subst he'
          have hse' : searchEmpty tgt n n (probeSeq e.1 n 0) (0 + 1) = some b' := hse
          obtain ⟨m, hm0, hmfuel, hb'eq, hocc, hempty⟩ :=
            searchEmpty_path tgt n e.1 n 0 b' hse'
          have hb'lt : b' < tgt.length := by
            rw [hlen, hb'eq]
            exact probeSeq_lt e.1 n hn m
          have hpath1 : ∀ l, l < m → ((tgt.set b' e).getD (probeSeq e.1 n l) (0, 0)).2 ≠ 0 := by
            intro l hl
            have hne : b' ≠ probeSeq e.1 n l := by
              intro hc
              exact hocc l (Nat.zero_le l) hl (by rw [← hc]; exact hempty)
            rw [SymTab.getD_set_ne_idx tgt b' (probeSeq e.1 n l) e (0, 0) hne]
            exact hocc l (Nat.zero_le l) hl
          have hpath2 : (tgt.set b' e).getD (probeSeq e.1 n m) (0, 0) = (e.1, e.2) := by
            rw [← hb'eq, SymTab.getD_set_self_of_lt tgt b' e (0, 0) hb'lt]
          have hstable := moveNamesAux_stable n rest (tgt.set b' e) tbl h
          refine ⟨m, by omega, ?_, ?_⟩
          · intro l hl
            rw [hstable (probeSeq e.1 n l) (hpath1 l hl)]
            exact hpath1 l hl
          · have hlivem : ((tgt.set b' e).getD (probeSeq e.1 n m) (0, 0)).2 ≠ 0 := by
              rw [hpath2]
              exact halivee
            rw [hstable (probeSeq e.1 n m) hlivem]
            exact hpath2
        · exact ih (tgt.set b' a) tbl (by rw [List.length_set]; exact hlen) h e hmem halivee
    · rcases List.mem_cons.mp he with he' | hmem
      · rename_i hdead
        subst he'
        exact absurd halivee hdead
      · exact ih tgt tbl hlen h e hmem halivee

theorem sameUtf8_comm (a b : NameEntry) : sameUtf8 a b = sameUtf8 b a := by
  cases a <;> cases b <;> try rfl
  rename_i s t
  show (s == t) = (t == s)
  by_cases hst : s = t
  · rw [hst]
  · rw [beq_eq_false_iff_ne.mpr hst, beq_eq_false_iff_ne.mpr (Ne.symm hst)]

theorem insert_wf (st : NTState) (b hs m : Nat) (e : NameEntry)
    (hWF : WF st)
    (hb : b = probeSeq hs st.namesByHash.length m)
    (hm : m < st.namesByHash.length)
    (hocc : ∀ l, l < m → (bucketAt st (probeSeq hs st.namesByHash.length l)).2 ≠ 0)
    (hempty : (bucketAt st b).2 = 0)
    (hhash : entryHash e = hs)
    (hcap : st.names.length < st.capacity)
    (hfresh : ∀ j, j < st.names.length → j ≠ 0 →
      sameUtf8 (st.names.getD j default) e = false) :
    WF (insertName st b hs e).1 ∧ (insertName st b hs e).2 = st.names.length ∧
      Ext st (insertName st b hs e).1 ∧
      (insertName st b hs e).1.names.getD st.names.length default = e ∧
      (insertName st b hs e).1.names.length = st.names.length + 1 ∧
      (insertName st b hs e).1.namesByHash.length = st.namesByHash.length := by
  unfold WF WFsizes WFbuckets WFuniq WFreg at hWF
  obtain ⟨⟨hpos, hle, htpos⟩, hbk, hun, hreg⟩ := hWF
  have hblt : b < st.namesByHash.length := by
    rw [hb]
    exact probeSeq_lt hs st.namesByHash.length htpos m
  have hlen2 : (insertName st b hs e).1.names.length = st.names.length + 1 := by
    show (st.names ++ [e]).length = st.names.length + 1
    simp
  have htlen2 : (insertName st b hs e).1.namesByHash.length = st.namesByHash.length := by
    show (st.namesByHash.set b (hs, st.names.length)).length = st.namesByHash.length
    exact List.length_set st.namesByHash b (hs, st.names.length)
  have hget_new : (insertName st b hs e).1.names.getD st.names.length default = e := by
    show (st.names ++ [e]).getD st.names.length default = e
    exact SymTab.getD_concat_length st.names e default
  have hget_old : ∀ i, i < st.names.length →
      (insertName st b hs e).1.names.getD i default = st.names.getD i default := by
    intro i hi
    show (st.names ++ [e]).getD i default = st.names.getD i default
    exact SymTab.getD_append_left st.names [e] i default hi
  have hbk_new : bucketAt (insertName st b hs e).1 b = (hs, st.names.length) := by
    show (st.namesByHash.set b (hs, st.names.length)).getD b (0, 0) = (hs, st.names.length)
    exact SymTab.getD_set_self_of_lt st.namesByHash b (hs, st.names.length) (0, 0) hblt
  have hbk_old : ∀ x, x ≠ b → bucketAt (insertName st b hs e).1 x = bucketAt st x := by
    intro x hx
    show (st.namesByHash.set b (hs, st.names.length)).getD x (0, 0) =
      st.namesByHash.getD x (0, 0)
    exact SymTab.getD_set_ne_idx st.namesByHash b x (hs, st.names.length) (0, 0)
      (fun hc => hx hc.symm)
  refine ⟨⟨⟨?_, ?_, ?_⟩, ?_, ?_, ?_⟩, rfl, ⟨?_, hget_old⟩, hget_new, hlen2, htlen2⟩
  · rw [hlen2]; omega
  · rw [hlen2]
    show st.names.length + 1 ≤ st.capacity
    omega
  · rw [htlen2]; exact htpos
  · -- WFbuckets
    intro b₂ hb₂ hlive₂
    by_cases hxb : b₂ = b
    · subst hxb
      rw [hbk_new] at hlive₂ ⊢
      refine ⟨?_, ?_⟩
      · rw [hlen2]; omega
      · show hs = entryHash ((insertName st b₂ hs e).1.names.getD st.names.length default)
        rw [hget_new, hhash]
    · rw [hbk_old b₂ hxb] at hlive₂ ⊢
      rw [htlen2] at hb₂
      obtain ⟨hsz, hh⟩ := hbk b₂ hb₂ hlive₂
      refine ⟨by rw [hlen2]; omega, ?_⟩
      rw [hget_old _ hsz]
      exact hh
  · -- WFuniq
    intro i hi j hj hi0 hj0 hsame
    rw [hlen2] at hi hj
    rcases Nat.lt_succ_iff_lt_or_eq.mp hi with hilt | hieq
    · rcases Nat.lt_succ_iff_lt_or_eq.mp hj with hjlt | hjeq
      · rw [hget_old i hilt, hget_old j hjlt] at hsame
        exact hun i hilt j hjlt hi0 hj0 hsame
      · subst hjeq
        rw [hget_old i hilt, hget_new] at hsame
        rw [hfresh i hilt hi0] at hsame
        cases hsame
    · subst hieq
      rcases Nat.lt_succ_iff_lt_or_eq.mp hj with hjlt | hjeq
      · rw [hget_old j hjlt, hget_new] at hsame
        rw [sameUtf8_comm, hfresh j hjlt hj0] at hsame
        cases hsame
      · rw [hjeq]
  · -- WFreg
    intro i hi hi0 hutf
    rw [hlen2] at hi
    rcases Nat.lt_succ_iff_lt_or_eq.mp hi with hilt | hieq
    · rw [hget_old i hilt] at hutf ⊢
      obtain ⟨k, hk, hpath⟩ := hreg i hilt hi0 hutf
      have hnotb : ∀ l, l ≤ k →
          probeSeq (entryHash (st.names.getD i default)) st.namesByHash.length l ≠ b := by
        intro l hl hc
        rcases Nat.lt_or_ge l k with hlk | hge
        · exact hpath.1 l hlk (by rw [hc]; exact hempty)
        · have hlk : l = k := by omega
          subst hlk
          have := hpath.2
          rw [hc] at this
          rw [this] at hempty
          exact hi0 hempty
      refine ⟨k, by rw [htlen2]; exact hk, ?_, ?_⟩
      · intro l hl
        rw [htlen2, hbk_old _ (hnotb l (Nat.le_of_lt hl))]
        exact hpath.1 l hl
      · rw [htlen2, hbk_old _ (hnotb k (Nat.le_refl k))]
        exact hpath.2
    · subst hieq
      rw [hget_new] at hutf ⊢
      refine ⟨m, by rw [htlen2]; exact hm, ?_, ?_⟩
      · intro l hl
        rw [htlen2, hhash]
        have hnotb : probeSeq hs st.namesByHash.length l ≠ b := by
          intro hc
          exact hocc l hl (by rw [hc]; exact hempty)
        rw [hbk_old _ hnotb]
        exact hocc l hl
      · rw [htlen2, hhash, ← hb, hbk_new]
  · rw [hlen2]; omega

theorem rehash_wf (st : NTState) (n cap₂ : Nat) (tbl : List (Nat × Nat))
    (hWF : WF st) (hn : 0 < n)
    (hmv : moveNamesAux n (List.replicate n (0, 0)) st.namesByHash = Except.ok tbl)
    (hcap₂ : st.names.length ≤ cap₂) :
    WF ⟨st.names, cap₂, tbl⟩ ∧ tbl.length = n := by
  unfold WF WFsizes WFbuckets WFuniq WFreg at hWF
  obtain ⟨⟨hpos, hle, htpos⟩, hbk, hun, hreg⟩ := hWF
  have htbl_len : tbl.length = n := by
    rw [moveNamesAux_length n st.namesByHash (List.replicate n (0, 0)) tbl hmv]
    exact List.length_replicate n (0, 0)
  have hmem_ok : ∀ e, e ∈ st.namesByHash → OkEntry st.names e := by
    intro e he
    obtain ⟨idx, hidx, heq⟩ := List.mem_iff_getElem.mp he
    have hbe : bucketAt st idx = e := by
      rw [bucketAt, List.getD_eq_getElem st.namesByHash (0, 0) hidx]
      exact heq
    intro hlive
    rw [← hbe] at hlive ⊢
    exact hbk idx hidx hlive
  have hrep : ∀ b, (List.replicate n ((0, 0) : Nat × Nat)).getD b (0, 0) = (0, 0) := by
    intro b
    by_cases hblt : b < n
    · rw [List.getD_eq_getElem _ (0, 0)
        (by rw [List.length_replicate]; exact hblt)]
      exact List.getElem_replicate (0, 0) _
    · exact List.getD_eq_default _ _ (by rw [List.length_replicate]; omega)
  have hbuckets := moveNamesAux_buckets st.names n st.namesByHash
    (List.replicate n (0, 0)) tbl
    (fun b => by rw [hrep b]; intro h0; exact absurd rfl h0) hmem_ok hmv
  refine ⟨⟨⟨hpos, hcap₂, by show 0 < tbl.length; rw [htbl_len]; exact hn⟩, ?_, hun, ?_⟩,
    htbl_len⟩
  · intro b hblt hlive
    exact hbuckets b hlive
  · intro i hi hi0 hutf
    obtain ⟨k, hk, hpath⟩ := hreg i hi hi0 hutf
    have hkpos : probeSeq (entryHash (st.names.getD i default)) st.namesByHash.length k <
        st.namesByHash.length := probeSeq_lt _ _ htpos k
    have hmem : ((entryHash (st.names.getD i default), i) : Nat × Nat) ∈ st.namesByHash := by
      rw [← hpath.2, bucketAt, List.getD_eq_getElem st.namesByHash (0, 0) hkpos]
      exact List.getElem_mem hkpos
    obtain ⟨m, hm, hPT⟩ := moveNamesAux_registers n hn st.namesByHash
      (List.replicate n (0, 0)) tbl (List.length_replicate n (0, 0)) hmv _ hmem hi0
    have hPT2 : PathT tbl tbl.length (entryHash (st.names.getD i default)) i m := by
      rw [htbl_len]
      exact hPT
    refine ⟨m, by show m < tbl.length; rw [htbl_len]; exact hm, ?_⟩
    show PathT tbl tbl.length (entryHash (st.names.getD i default)) i m
    exact hPT2

theorem expandNames_wf (st st₂ : NTState) (hWF : WF st)
    (h : expandNames st (st.capacity * 2) = Except.ok st₂) :
    st₂.names = st.names ∧ st₂.capacity = st.capacity * 2 ∧
      st₂.namesByHash.length = st.capacity * 2 * 2 ∧ WF st₂ := by
  have hcap : 0 < st.capacity := Nat.lt_of_lt_of_le hWF.1.1 hWF.1.2.1
  rw [expandNames, if_pos (by omega : st.capacity < st.capacity * 2)] at h
  split at h
  · cases h
  · rename_i tbl hmv
    obtain ⟨hwf₂, hlen⟩ := rehash_wf st (st.capacity * 2 * 2) (st.capacity * 2) tbl hWF
      (by omega) hmv (Nat.le_trans hWF.1.2.1 (by omega))
    cases h
    exact ⟨rfl, rfl, hlen, hwf₂⟩

theorem ext_refl (a : NTState) : Ext a a := ⟨Nat.le_refl _, fun _ _ => rfl⟩

theorem ext_trans (a b c : NTState) (h1 : Ext a b) (h2 : Ext b c) : Ext a c :=
  ⟨Nat.le_trans h1.1 h2.1,
    fun i hi => by rw [h2.2 i (Nat.lt_of_lt_of_le hi h1.1), h1.2 i hi]⟩

theorem expand_insert_wf (st st₂ : NTState) (hs b : Nat) (e : NameEntry)
    (hWF : WF st) (hfull : st.names.length = st.capacity)
    (hexp : expandNames st (st.capacity * 2) = Except.ok st₂)
    (hse : searchEmpty st₂.namesByHash st₂.namesByHash.length st₂.namesByHash.length
        (hs % st₂.namesByHash.length) 1 = some b)
    (hhash : entryHash e = hs)
    (hfresh : ∀ j, j < st.names.length → j ≠ 0 →
      sameUtf8 (st.names.getD j default) e = false) :
    WF (insertName st₂ b hs e).1 ∧ (insertName st₂ b hs e).2 = st.names.length ∧
      Ext st (insertName st₂ b hs e).1 ∧
      (insertName st₂ b hs e).1.names.getD st.names.length default = e ∧
      (insertName st₂ b hs e).1.names.length = st.names.length + 1 := by
  obtain ⟨hnames, hcap₂, htlen, hWF₂⟩ := expandNames_wf st st₂ hWF hexp
  have hc0 : 0 < st.capacity := Nat.lt_of_lt_of_le hWF.1.1 hWF.1.2.1
  have hse' : searchEmpty st₂.namesByHash st₂.namesByHash.length st₂.namesByHash.length
      (probeSeq hs st₂.namesByHash.length 0) (0 + 1) = some b := hse
  obtain ⟨m, hm0, hmf, hbeq, hocc, hemp⟩ :=
    searchEmpty_path st₂.namesByHash st₂.namesByHash.length hs
      st₂.namesByHash.length 0 b hse'
  have hlen_eq : st₂.names.length = st.names.length := by rw [hnames]
  have hins := insert_wf st₂ b hs m e hWF₂ hbeq (by omega)
    (fun l hl => hocc l (Nat.zero_le l) hl) hemp hhash
    (by rw [hlen_eq, hfull, hcap₂]; omega)
    (fun j hj hj0 => by
      rw [hnames] at hj
      rw [hnames]
      exact hfresh j hj hj0)
  have h4 := hins.2.2.2.1
  have h5 := hins.2.2.2.2.1
  rw [hlen_eq] at h4 h5
  refine ⟨hins.1, hins.2.1.trans hlen_eq, ?_, h4, h5⟩
  exact ext_trans st st₂ _ ⟨by rw [hnames], fun i _ => by rw [hnames]⟩ hins.2.2.1

theorem enterNameUTF8_ok_facts (st : NTState) (s : String) (st₂ : NTState) (i : Nat)
    (hWF : WF st) (h : enterNameUTF8 st s = Except.ok (st₂, i)) :
    WF st₂ ∧ Ext st st₂ ∧ i ≠ 0 ∧ i < st₂.names.length ∧
      st₂.names.getD i default = NameEntry.utf8 s := by
  have htpos : 0 < st.namesByHash.length := hWF.1.2.2
  rw [enterNameUTF8] at h
  split at h
  · rename_i idx hfound
    injection h with h'
    injection h' with hst hi
    rw [← hst, ← hi]
    obtain ⟨hi0, b', hb', hb1, hb2, hname⟩ := searchUTF8_found_facts st s (strHash s)
      st.namesByHash.length htpos st.namesByHash.length _ _ idx
      (Nat.mod_lt _ htpos) hfound
    have hlive : (bucketAt st b').2 ≠ 0 := by rw [hb2]; exact hi0
    have hid_lt : idx < st.names.length := by
      have := (hWF.2.1 b' hb' hlive).1
      rwa [hb2] at this
    exact ⟨hWF, ext_refl st, hi0, hid_lt, hname⟩
  · cases h
  · rename_i bucketId p hempty_res
    have hch : searchUTF8 st s (strHash s) st.namesByHash.length st.namesByHash.length
        (probeSeq (strHash s) st.namesByHash.length 0) (0 + 1) =
        USearch.empty bucketId p := hempty_res
    obtain ⟨m, hm0, hmf, hbeq, hpeq, hocc, hemp⟩ := searchUTF8_empty_path st s
      (strHash s) st.namesByHash.length st.namesByHash.length 0 bucketId p hch
    have hfresh : ∀ j, j < st.names.length → j ≠ 0 →
        sameUtf8 (st.names.getD j default) (NameEntry.utf8 s) = false := by
      intro j hj hj0
      by_contra hcon
      rw [Bool.not_eq_false] at hcon
      have hjs : st.names.getD j default = NameEntry.utf8 s := (sameUtf8_right _ s).mp hcon
      have hutfj : isUtf8Name (st.names.getD j default) = true := by rw [hjs]; rfl
      obtain ⟨k, hk, hpath⟩ := hWF.2.2.2 j hj hj0 hutfj
      have hhs : entryHash (st.names.getD j default) = strHash s := by rw [hjs]; rfl
      rw [hhs] at hpath
      have hfound := searchUTF8_finds st s (strHash s) j hWF.2.1 hWF.2.2.1 htpos hjs
        hj0 hj k st.namesByHash.length 0 (by omega)
        (by rw [Nat.zero_add]; exact hpath)
      rw [hch] at hfound
      cases hfound
    split at h
    · rename_i hfull
      split at h
      · cases h
      · rename_i st₂exp hexp
        split at h
        · cases h
        · rename_i b₂ hse
          injection h with h'
          have EW := expand_insert_wf st st₂exp (strHash s) b₂ (NameEntry.utf8 s)
            hWF hfull hexp hse rfl hfresh
          have hst : (insertName st₂exp b₂ (strHash s) (NameEntry.utf8 s)).1 = st₂ := by
            rw [h']
          have hi : (insertName st₂exp b₂ (strHash s) (NameEntry.utf8 s)).2 = i := by
            rw [h']
          refine ⟨hst ▸ EW.1, hst ▸ EW.2.2.1, ?_, ?_, ?_⟩
          · rw [← hi, EW.2.1]
            have := hWF.1.1
            omega
          · rw [← hi, ← hst, EW.2.1, EW.2.2.2.2]
            omega
          · rw [← hi, ← hst, EW.2.1]
            exact EW.2.2.2.1
    · rename_i hnotfull
      injection h with h'
      have IW := insert_wf st bucketId (strHash s) m (NameEntry.utf8 s) hWF hbeq
        (by omega) (fun l hl => hocc l (Nat.zero_le l) hl) hemp rfl
        (Nat.lt_of_le_of_ne hWF.1.2.1 hnotfull) hfresh
      have hst : (insertName st bucketId (strHash s) (NameEntry.utf8 s)).1 = st₂ := by
        rw [h']
      have hi : (insertName st bucketId (strHash s) (NameEntry.utf8 s)).2 = i := by
        rw [h']
      refine ⟨hst ▸ IW.1, hst ▸ IW.2.2.1, ?_, ?_, ?_⟩
      · rw [← hi, IW.2.1]
        have := hWF.1.1
        omega
      · rw [← hi, ← hst, IW.2.1, IW.2.2.2.2.1]
        omega
      · rw [← hi, ← hst, IW.2.1]
        exact IW.2.2.2.1

theorem enterNameConstant_ok_wf (st : NTState) (orig : Nat) (st₂ : NTState) (i : Nat)
    (hWF : WF st) (h : enterNameConstant st orig = Except.ok (st₂, i)) :
    WF st₂ ∧ Ext st st₂ := by
  have htpos : 0 < st.namesByHash.length := hWF.1.2.2
  rw [enterNameConstant] at h
  split at h
  · cases h
  · rename_i id hfound
    cases h
    exact ⟨hWF, ext_refl st⟩
  · rename_i bucketId p hstop
    split at h
    · cases h
    · rename_i hpne
      have hch : searchBounded st (fun bk => constMatch st bk (hashMixConstant orig) orig)
          st.namesByHash.length (st.namesByHash.length + 1)
          (probeSeq (hashMixConstant orig) st.namesByHash.length 0) (0 + 1) =
          BSearch.stopped bucketId p := hstop
      obtain ⟨m, hm0, hmf, hbeq, hpeq, hocc, hstopc⟩ := searchBounded_stopped_path st _
        st.namesByHash.length (hashMixConstant orig) (st.namesByHash.length + 1)
        0 bucketId p hch
      have hple : p ≤ st.namesByHash.length := searchBounded_stopped_le st _
        st.namesByHash.length (st.namesByHash.length + 1) 1 _ bucketId p htpos hstop
      have hemp : (bucketAt st bucketId).2 = 0 := by
        rcases hstopc with he | hge
        · exact he
        · exfalso; omega
      have hfresh : ∀ j, j < st.names.length → j ≠ 0 →
          sameUtf8 (st.names.getD j default) (NameEntry.cnst orig) = false :=
        fun j hj hj0 => sameUtf8_not_utf8 _ _ rfl
      have hmlt : m < st.namesByHash.length := by omega
      split at h
      · rename_i hfull
        split at h
        · cases h
        · rename_i st₂exp hexp
          split at h
          · cases h
          · rename_i b₂ hse
            injection h with h'
            have EW := expand_insert_wf st st₂exp (hashMixConstant orig) b₂
              (NameEntry.cnst orig) hWF hfull hexp hse rfl hfresh
            have hst : (insertName st₂exp b₂ (hashMixConstant orig)
                (NameEntry.cnst orig)).1 = st₂ := by rw [h']
            exact ⟨hst ▸ EW.1, hst ▸ EW.2.2.1⟩
      · rename_i hnotfull
        injection h with h'
        have IW := insert_wf st bucketId (hashMixConstant orig) m (NameEntry.cnst orig)
          hWF hbeq hmlt (fun l hl => hocc l (Nat.zero_le l) hl) hemp rfl
          (Nat.lt_of_le_of_ne hWF.1.2.1 hnotfull) hfresh
        have hst : (insertName st bucketId (hashMixConstant orig)
            (NameEntry.cnst orig)).1 = st₂ := by rw [h']
        exact ⟨hst ▸ IW.1, hst ▸ IW.2.2.1⟩

theorem freshNameUnique_ok_wf (st : NTState) (kind num orig : Nat) (st₂ : NTState)
    (i : Nat) (hWF : WF st) (h : freshNameUnique st kind num orig = Except.ok (st₂, i)) :
    WF st₂ ∧ Ext st st₂ := by
  have htpos : 0 < st.namesByHash.length := hWF.1.2.2
  rw [freshNameUnique] at h
  split at h
  · cases h
  · rename_i id hfound
    cases h
    exact ⟨hWF, ext_refl st⟩
  · rename_i bucketId p hstop
    split at h
    · cases h
    · rename_i hpne
      have hch : searchBounded st
          (fun bk => uniqMatch st bk (hashMixUnique kind num orig) kind num orig)
          st.namesByHash.length (st.namesByHash.length + 1)
          (probeSeq (hashMixUnique kind num orig) st.namesByHash.length 0) (0 + 1) =
          BSearch.stopped bucketId p := hstop
      obtain ⟨m, hm0, hmf, hbeq, hpeq, hocc, hstopc⟩ := searchBounded_stopped_path st _
        st.namesByHash.length (hashMixUnique kind num orig) (st.namesByHash.length + 1)
        0 bucketId p hch
      have hple : p ≤ st.namesByHash.length := searchBounded_stopped_le st _
        st.namesByHash.length (st.namesByHash.length + 1) 1 _ bucketId p htpos hstop
      have hemp : (bucketAt st bucketId).2 = 0 := by
        rcases hstopc with he | hge
        · exact he
        · exfalso; omega
      have hfresh : ∀ j, j < st.names.length → j ≠ 0 →
          sameUtf8 (st.names.getD j default) (NameEntry.uniq kind num orig) = false :=
        fun j hj hj0 => sameUtf8_not_utf8 _ _ rfl
      have hmlt : m < st.namesByHash.length := by omega
      split at h
      · rename_i hfull
        split at h
        · cases h
        · rename_i st₂exp hexp
          split at h
          · cases h
          · rename_i b₂ hse
            injection h with h'
            have EW := expand_insert_wf st st₂exp (hashMixUnique kind num orig) b₂
              (NameEntry.uniq kind num orig) hWF hfull hexp hse rfl hfresh
            have hst : (insertName st₂exp b₂ (hashMixUnique kind num orig)
                (NameEntry.uniq kind num orig)).1 = st₂ := by rw [h']
            exact ⟨hst ▸ EW.1, hst ▸ EW.2.2.1⟩
      · rename_i hnotfull
        injection h with h'
        have IW := insert_wf st bucketId (hashMixUnique kind num orig) m
          (NameEntry.uniq kind num orig) hWF hbeq hmlt
          (fun l hl => hocc l (Nat.zero_le l) hl) hemp rfl
          (Nat.lt_of_le_of_ne hWF.1.2.1 hnotfull) hfresh
        have hst : (insertName st bucketId (hashMixUnique kind num orig)
            (NameEntry.uniq kind num orig)).1 = st₂ := by rw [h']
        exact ⟨hst ▸ IW.1, hst ▸ IW.2.2.1⟩

theorem applyOp_wf (st : NTState) (op : NameOp) (st₂ : NTState) (i : Nat)
    (hWF : WF st) (h : applyOp st op = Except.ok (st₂, i)) : WF st₂ ∧ Ext st st₂ := by
  cases op with
  | utf8 s =>
    obtain ⟨h1, h2, _⟩ := enterNameUTF8_ok_facts st s st₂ i hWF h
    exact ⟨h1, h2⟩
  | cnst orig => exact enterNameConstant_ok_wf st orig st₂ i hWF h
  | uniq kind num orig => exact freshNameUnique_ok_wf st kind num orig st₂ i hWF h

theorem applyOps_wf : ∀ (ops : List NameOp) (st st' : NTState), WF st →
    applyOps st ops = Except.ok st' → WF st' ∧ Ext st st' := by
  intro ops
  induction ops with
  | nil =>
    intro st st' hWF h
    rw [applyOps] at h
    cases h
    exact ⟨hWF, ext_refl st⟩
  | cons op rest ih =>
    intro st st' hWF h
    rw [applyOps] at h
    split at h
    · cases h
    · rename_i stm j happ
      obtain ⟨hWF₂, hext₂⟩ := applyOp_wf st op stm j hWF happ
      obtain ⟨hWF3, hext3⟩ := ih stm st' hWF₂ h
      exact ⟨hWF3, ext_trans st stm st' hext₂ hext3⟩

/-- C8: on a well-formed name table, calling `enterNameUTF8` twice with the
same string returns the same NameRef both times — the second call is a pure
hit that leaves the state unchanged — and the text stored for the returned
name round-trips: the interned entry's UTF8 content equals the argument
string. -/
theorem claim_C8_enterNameUTF8_idempotent (st : NTState) (s : String)
    (st₂ : NTState) (i : Nat) (hWF : WF st)
    (h : enterNameUTF8 st s = Except.ok (st₂, i)) :
    enterNameUTF8 st₂ s = Except.ok (st₂, i) ∧
      st₂.names.getD i default = NameEntry.utf8 s := by
  obtain ⟨hWF₂, hext, hi0, hilt, hname⟩ := enterNameUTF8_ok_facts st s st₂ i hWF h
  refine ⟨?_, hname⟩
  have htpos₂ : 0 < st₂.namesByHash.length := hWF₂.1.2.2
  have hutf : isUtf8Name (st₂.names.getD i default) = true := by rw [hname]; rfl
  obtain ⟨k, hk, hpath⟩ := hWF₂.2.2.2 i hilt hi0 hutf
  have hhs : entryHash (st₂.names.getD i default) = strHash s := by rw [hname]; rfl
  rw [hhs] at hpath
  have hfound := searchUTF8_finds st₂ s (strHash s) i hWF₂.2.1 hWF₂.2.2.1 htpos₂
    hname hi0 hilt k st₂.namesByHash.length 0 (by omega)
    (by rw [Nat.zero_add]; exact hpath)
  have hfound₂ : searchUTF8 st₂ s (strHash s) st₂.namesByHash.length
      st₂.namesByHash.length (strHash s % st₂.namesByHash.length) 1 =
      USearch.found i := hfound
  rw [enterNameUTF8, hfound₂]

/-- C8 witness: interning "a" into a fresh capacity-1 table (which triggers
a doubling) yields id 1, and the second intern is a pure hit with the text
round-tripping. -/
theorem claim_C8_witness :
    WF (initNT 1) ∧ enterNameUTF8 (initNT 1) "a" = Except.ok (ntW8, 1) ∧
      (enterNameUTF8 ntW8 "a" = Except.ok (ntW8, 1) ∧
        ntW8.names.getD 1 default = NameEntry.utf8 "a") :=
  ⟨by decide, rfl,
    claim_C8_enterNameUTF8_idempotent (initNT 1) "a" ntW8 1 (by decide) rfl⟩

/-- C9: after any sequence of name-entering calls on a well-formed table
that completes normally — including sequences that fill the backing name
array and trigger doubling and rehashing via `expandNames` — no arena entry
is dropped (`Ext`: every id keeps its entry), and every previously interned
UTF8 name remains findable: `lookupNameUTF8` on its text returns the same
NameRef id it had before. -/
theorem claim_C9_growth_preserves_lookups (st : NTState) (ops : List NameOp)
    (st' : NTState) (hWF : WF st) (h : applyOps st ops = Except.ok st') :
    Ext st st' ∧
      ∀ i s, i < st.names.length → i ≠ 0 →
        st.names.getD i default = NameEntry.utf8 s →
        lookupNameUTF8 st' s = Except.ok (some i) := by
  obtain ⟨hWF', hext⟩ := applyOps_wf ops st st' hWF h
  refine ⟨hext, ?_⟩
  intro i s hi hi0 hname
  have hname' : st'.names.getD i default = NameEntry.utf8 s := by
    rw [hext.2 i hi]
    exact hname
  have hilt : i < st'.names.length := Nat.lt_of_lt_of_le hi hext.1
  have htpos : 0 < st'.namesByHash.length := hWF'.1.2.2
  have hutf : isUtf8Name (st'.names.getD i default) = true := by rw [hname']; rfl
  obtain ⟨k, hk, hpath⟩ := hWF'.2.2.2 i hilt hi0 hutf
  have hhs : entryHash (st'.names.getD i default) = strHash s := by rw [hname']; rfl
  rw [hhs] at hpath
  have hfound := searchUTF8_finds st' s (strHash s) i hWF'.2.1 hWF'.2.2.1 htpos
    hname' hi0 hilt k st'.namesByHash.length 0 (by omega)
    (by rw [Nat.zero_add]; exact hpath)
  have hfound₂ : searchUTF8 st' s (strHash s) st'.namesByHash.length
      st'.namesByHash.length (strHash s % st'.namesByHash.length) 1 =
      USearch.found i := hfound
  rw [lookupNameUTF8, hfound₂]

/-- C9 witness: a concrete op sequence on a nearly-full table that triggers
two capacity doublings; the previously interned name keeps its id and stays
findable. -/
theorem claim_C9_witness :
    WF ntW ∧ applyOps ntW ntWops = Except.ok ntWres ∧
      (Ext ntW ntWres ∧
        ∀ i s, i < ntW.names.length → i ≠ 0 →
          ntW.names.getD i default = NameEntry.utf8 s →
          lookupNameUTF8 ntWres s = Except.ok (some i)) :=
  ⟨by decide, rfl, claim_C9_growth_preserves_lookups ntW ntWops ntWres (by decide) rfl⟩

end NT
